import Mathlib

/-!
Formal model of the `manual` linked-list library
(src/linkedlist.h, src/doublylinkedlist.h, src/manual.h).

Containers are modelled with an explicit per-container heap
`Nat → Option Node`; a pointer is `Option Nat` (`none` = `nullptr`).
Reads or writes through a pointer that is null or dangling are undefined
behaviour in the source; the model collapses those branches to a harmless
default, and every theorem below is stated for well-formed states, on
which the collapsed branches are unreachable (except where the claim is
precisely about the undefined access, where the model exposes the
dereference through an `Option` result).
-/

namespace ManualLists

/-- A nullable reference; `none` plays the role of `nullptr`. -/
abbrev Ptr := Option Nat

/-- Heap update (also used for `delete`, writing `none`). -/
def hupd {N : Type} (h : Nat → Option N) (a : Nat) (v : Option N) : Nat → Option N :=
  fun x => if x = a then v else h x

/-- `delete p` on a heap (deleting `nullptr` is a no-op, as in C++). -/
def hdelOpt {N : Type} (h : Nat → Option N) (p : Ptr) : Nat → Option N :=
  match p with
  | none => h
  | some a => hupd h a none

/-- Addresses of a chain description. -/
def addrs {T : Type} (l : List (Nat × T)) : List Nat := l.map Prod.fst

/-- Values of a chain description. -/
def vals {T : Type} (l : List (Nat × T)) : List T := l.map Prod.snd

/-! ## Doubly linked list (src/doublylinkedlist.h) -/

/-- `DoublyLinkedList<T>::Node`. -/
structure DNode (T : Type) where
  value : T
  next : Ptr
  previous : Ptr
deriving DecidableEq

/-- The node store of one `DoublyLinkedList` object. -/
abbrev DHeap (T : Type) := Nat → Option (DNode T)

/-- `manual::DoublyLinkedList<T>`: data members `head_`, `tail_`, `size_`,
plus the explicit node heap and an allocation counter. -/
structure DLL (T : Type) where
  mem : DHeap T
  fresh : Nat
  head_ : Ptr
  tail_ : Ptr
  size_ : Nat

/-- Default constructor: the empty list. -/
def DLL.empty {T : Type} : DLL T :=
  { mem := fun _ => none, fresh := 0, head_ := none, tail_ := none, size_ := 0 }

/-- Dereference a pointer (null or dangling gives `none`). -/
def dread {T : Type} (h : DHeap T) (p : Ptr) : Option (DNode T) :=
  match p with
  | none => none
  | some a => h a

/-- `current = current->next` (undefined behaviour on null/dangling collapses to `none`;
for the iterator `operator++` the null case is instead a guarded no-op with the
same result). -/
def stepNext {T : Type} (h : DHeap T) (p : Ptr) : Ptr :=
  match dread h p with
  | none => none
  | some n => n.next

/-- `current = current->previous`. -/
def stepPrev {T : Type} (h : DHeap T) (p : Ptr) : Ptr :=
  match dread h p with
  | none => none
  | some n => n.previous

/-- `k` iterations of `current = current->next`. -/
def walkNext {T : Type} (h : DHeap T) : Nat → Ptr → Ptr
  | 0, p => p
  | k + 1, p => walkNext h k (stepNext h p)

/-- `k` iterations of `current = current->previous`. -/
def walkPrev {T : Type} (h : DHeap T) : Nat → Ptr → Ptr
  | 0, p => p
  | k + 1, p => walkPrev h k (stepPrev h p)

/-- `current->value`. -/
def readVal {T : Type} (h : DHeap T) (p : Ptr) : Option T :=
  (dread h p).map DNode.value

/-- Write `node->next` at address `a` (no-op on a dangling address). -/
def setNext {T : Type} (h : DHeap T) (a : Nat) (r : Ptr) : DHeap T :=
  match h a with
  | none => h
  | some n => hupd h a (some { n with next := r })

/-- Write `node->previous` at address `a`. -/
def setPrev {T : Type} (h : DHeap T) (a : Nat) (r : Ptr) : DHeap T :=
  match h a with
  | none => h
  | some n => hupd h a (some { n with previous := r })

/-- Write `p->next` through a pointer. -/
def setNextOpt {T : Type} (h : DHeap T) (p : Ptr) (r : Ptr) : DHeap T :=
  match p with
  | none => h
  | some a => setNext h a r

/-- Write `p->previous` through a pointer. -/
def setPrevOpt {T : Type} (h : DHeap T) (p : Ptr) (r : Ptr) : DHeap T :=
  match p with
  | none => h
  | some a => setPrev h a r

/-- `DoublyLinkedList::push_back`. -/
def DLL.push_back {T : Type} (s : DLL T) (val : T) : DLL T :=
  let a := s.fresh
  let mem1 := hupd s.mem a (some ⟨val, none, s.tail_⟩)
  { mem := if s.size_ ≠ 0 then setNextOpt mem1 s.tail_ (some a) else mem1
    fresh := a + 1
    head_ := if s.size_ ≠ 0 then s.head_ else some a
    tail_ := some a
    size_ := s.size_ + 1 }

/-- `DoublyLinkedList::push_front`. -/
def DLL.push_front {T : Type} (s : DLL T) (val : T) : DLL T :=
  let a := s.fresh
  let mem1 := hupd s.mem a (some ⟨val, s.head_, none⟩)
  { mem := if s.size_ ≠ 0 then setPrevOpt mem1 s.head_ (some a) else mem1
    fresh := a + 1
    head_ := some a
    tail_ := if s.size_ ≠ 0 then s.tail_ else some a
    size_ := s.size_ + 1 }

/-- `DoublyLinkedList::pop_back`. -/
def DLL.pop_back {T : Type} (s : DLL T) : DLL T :=
  if s.size_ = 0 then s
  else if s.size_ = 1 then
    { s with mem := hdelOpt s.mem s.tail_, tail_ := none, head_ := none,
             size_ := s.size_ - 1 }
  else
    match s.tail_ with
    | none => s -- tail_ null although size_ ≥ 2: unreachable on well-formed states
    | some t =>
      match stepPrev s.mem (some t) with
      | none => s -- `tmp->next = nullptr` would dereference null: unreachable when well-formed
      | some p =>
        { s with mem := hupd (setNext s.mem p none) t none,
                 tail_ := some p, size_ := s.size_ - 1 }

/-- `DoublyLinkedList::pop_front`. -/
def DLL.pop_front {T : Type} (s : DLL T) : DLL T :=
  if s.size_ = 0 then s
  else if s.size_ = 1 then
    { s with mem := hdelOpt s.mem s.head_, head_ := none, tail_ := none,
             size_ := s.size_ - 1 }
  else
    match s.head_ with
    | none => s
    | some hd =>
      match stepNext s.mem (some hd) with
      | none => s -- `tmp->previous = nullptr` would dereference null: unreachable when well-formed
      | some nx =>
        { s with mem := hupd (setPrev s.mem nx none) hd none,
                 head_ := some nx, size_ := s.size_ - 1 }

/-- `DoublyLinkedList::operator[] const`: nearest-end traversal. The
backward loop `for(i = size_-1; i > index; --i)` performs `size_-1-index`
`previous` steps from `tail_`; the forward loop performs `index` `next`
steps from `head_`. -/
def DLL.getConst {T : Type} (s : DLL T) (index : Nat) : Option T :=
  if s.size_ - 1 - index < index then
    readVal s.mem (walkPrev s.mem (s.size_ - 1 - index) s.tail_)
  else
    readVal s.mem (walkNext s.mem index s.head_)

/-- A naive forward-only walk from `head_` (the comparison point of the
nearest-end optimization: what a singly-linked access would do). -/
def DLL.getForwardOnly {T : Type} (s : DLL T) (index : Nat) : Option T :=
  readVal s.mem (walkNext s.mem index s.head_)

/-- The exact `std::out_of_range` message built by `DoublyLinkedList::at`. -/
def DLL.oorMsg (index sz : Nat) : String :=
  "[Out of range error] - manual::DoublyLinkedList::at() - (index: " ++ toString index ++
    ", size: " ++ toString sz ++ ")."

/-- `DoublyLinkedList::at`: checked access. `at` is a `const` member (its
non-const overload merely casts), so the container state is untouched; the
model therefore returns only the result. -/
def DLL.at_ {T : Type} (s : DLL T) (index : Nat) : Except String (Option T) :=
  if index ≥ s.size_ then Except.error (DLL.oorMsg index s.size_)
  else Except.ok (s.getConst index)

/-- `DoublyLinkedList::insert`. The node is allocated (with its value) before
the traversal, exactly as in the source; the source re-reads
`current->previous` after writing `current->previous->next`, but that write
touches a different node whenever the chain is well-formed, so one read
suffices. -/
def DLL.insert {T : Type} (s : DLL T) (index : Nat) (val : T) : DLL T :=
  if index ≤ s.size_ then
    if index = 0 then s.push_front val
    else if index = s.size_ then s.push_back val
    else
      let a := s.fresh
      let mem0 := hupd s.mem a (some ⟨val, none, none⟩)
      let cur := if s.size_ - 1 - index < index then
                   walkPrev mem0 (s.size_ - 1 - index) s.tail_
                 else
                   walkNext mem0 index s.head_
      match cur with
      | none => { s with mem := mem0, fresh := a + 1 } -- unreachable when well-formed
      | some c =>
        match mem0 c with
        | none => { s with mem := mem0, fresh := a + 1 }
        | some cn =>
          match cn.previous with
          | none => { s with mem := mem0, fresh := a + 1 } -- `current->previous->next` null dereference
          | some pa =>
            let mem1 := setNext mem0 pa (some a)
            let mem2 := hupd mem1 a (some ⟨val, some c, some pa⟩)
            let mem3 := setPrev mem2 c (some a)
            { s with mem := mem3, fresh := a + 1, size_ := s.size_ + 1 }
  else s

/-- `DoublyLinkedList::remove`. -/
def DLL.remove {T : Type} (s : DLL T) (index : Nat) : DLL T :=
  if index < s.size_ then
    if index = 0 then s.pop_front
    else if index = s.size_ - 1 then s.pop_back
    else
      let cur := if s.size_ - 1 - index < index then
                   walkPrev s.mem (s.size_ - 1 - index) s.tail_
                 else
                   walkNext s.mem index s.head_
      match cur with
      | none => s
      | some c =>
        match s.mem c with
        | none => s
        | some cn =>
          match cn.previous, cn.next with
          | some pa, some na =>
            let mem1 := setNext s.mem pa (some na)
            let mem2 := setPrev mem1 na (some pa)
            { s with mem := hupd mem2 c none, size_ := s.size_ - 1 }
          | _, _ => s -- `current->next->previous` null dereference: unreachable in the middle branch
  else s

/-- The node-destruction loop shared by the destructor, `clear` and both
assignment operators: `tmp = current->next; delete current; current = tmp`,
`size_` times. -/
def clearLoop {T : Type} : Nat → DHeap T → Ptr → DHeap T
  | 0, h, _ => h
  | f + 1, h, p =>
    match dread h p with
    | none => h -- reading `current->next` through null/dangling: unreachable when well-formed
    | some n => clearLoop f (hdelOpt h p) n.next

/-- `DoublyLinkedList::clear`. -/
def DLL.clear {T : Type} (s : DLL T) : DLL T :=
  if s.size_ = 0 then s
  else { s with mem := clearLoop s.size_ s.mem s.head_, head_ := none, tail_ := none,
                size_ := 0 }

/-- The `while(other_current->next)` deep-copy loop of the copy constructor
and copy assignment, with fuel `other.size_` (always enough on well-formed
sources). Arguments: destination heap, next fresh address, address of the
destination node built last, address of the source node being visited.
Returns the final heap, fresh counter and last-built address (the new
`tail_`). -/
def cloneLoop {T : Type} (omem : DHeap T) : Nat → DHeap T → Nat → Nat → Nat →
    DHeap T × Nat × Nat
  | 0, mem, fr, cur, _ => (mem, fr, cur)
  | f + 1, mem, fr, cur, ocur =>
    match omem ocur with
    | none => (mem, fr, cur) -- dangling source pointer: unreachable when well-formed
    | some onode =>
      match onode.next with
      | none => (mem, fr, cur) -- loop exit: `other_current->next` is null
      | some onext =>
        match omem onext with
        | none => (mem, fr, cur)
        | some onn =>
          let a := fr
          let mem1 := hupd mem a (some ⟨onn.value, none, some cur⟩)
          let mem2 := setNext mem1 cur (some a)
          cloneLoop omem f mem2 (fr + 1) a onext

/-- Body shared by the copy constructor (destination = default-constructed
state) and copy assignment after `clear()` (destination has null
`head_`/`tail_` but keeps its allocation counter): sets `size_`, clones the
source chain in traversal order. -/
def DLL.cloneInto {T : Type} (dst other : DLL T) : DLL T :=
  if other.size_ = 0 then { dst with size_ := other.size_ }
  else
    match other.head_ with
    | none => { dst with size_ := other.size_ } -- `other.head_->value` null dereference
    | some oh =>
      match other.mem oh with
      | none => { dst with size_ := other.size_ }
      | some n0 =>
        let a0 := dst.fresh
        let mem0 := hupd dst.mem a0 (some ⟨n0.value, none, none⟩)
        let r := cloneLoop other.mem other.size_ mem0 (a0 + 1) a0 oh
        { mem := r.1, fresh := r.2.1, head_ := some a0, tail_ := some r.2.2,
          size_ := other.size_ }

/-- `DoublyLinkedList` copy constructor. -/
def DLL.copyCtor {T : Type} (other : DLL T) : DLL T :=
  DLL.cloneInto DLL.empty other

/-- `DoublyLinkedList` copy assignment (the non-self-assignment path; the
`this != &other` guard only skips the copy when both operands are the same
object, which a value-level model cannot distinguish). -/
def DLL.copyAssign {T : Type} (s other : DLL T) : DLL T :=
  DLL.cloneInto s.clear other

/-- `DoublyLinkedList` move constructor: returns (new object, moved-from
object). The node heap travels with the new object; the moved-from object
keeps no reachable node. -/
def DLL.moveCtor {T : Type} (other : DLL T) : DLL T × DLL T :=
  ({ mem := other.mem, fresh := other.fresh, head_ := other.head_,
     tail_ := other.tail_, size_ := other.size_ },
   { mem := other.mem, fresh := other.fresh, head_ := none, tail_ := none, size_ := 0 })

/-- `DoublyLinkedList` move assignment (non-self path): `clear()` then
pointer exchange. Returns (assigned-to object, moved-from object). -/
def DLL.moveAssign {T : Type} (s other : DLL T) : DLL T × DLL T :=
  ({ mem := other.mem, fresh := other.fresh, head_ := other.head_,
     tail_ := other.tail_, size_ := other.size_ },
   { mem := other.mem, fresh := other.fresh, head_ := none, tail_ := none, size_ := 0 })

/-- `DoublyLinkedList::begin`: copies `head_` without any dereference. -/
def DLL.begin_ {T : Type} (s : DLL T) : Ptr := s.head_

/-- `DoublyLinkedList::cbegin`. -/
def DLL.cbegin_ {T : Type} (s : DLL T) : Ptr := s.head_

/-- `DoublyLinkedList::end`: reads `tail_->next`. `none` means the read
dereferenced a null (or dangling) pointer — undefined behaviour; `some it`
is the produced iterator. -/
def DLL.end_ {T : Type} (s : DLL T) : Option Ptr :=
  match s.tail_ with
  | none => none
  | some a => (s.mem a).map DNode.next

/-- `DoublyLinkedList::cend`: same read as `end`. -/
def DLL.cend_ {T : Type} (s : DLL T) : Option Ptr :=
  match s.tail_ with
  | none => none
  | some a => (s.mem a).map DNode.next

/-- `DoublyLinkedList::rbegin`: copies `tail_` without any dereference. -/
def DLL.rbegin_ {T : Type} (s : DLL T) : Ptr := s.tail_

/-- `DoublyLinkedList::crbegin`. -/
def DLL.crbegin_ {T : Type} (s : DLL T) : Ptr := s.tail_

/-- `DoublyLinkedList::rend`: reads `head_->previous`. -/
def DLL.rend_ {T : Type} (s : DLL T) : Option Ptr :=
  match s.head_ with
  | none => none
  | some a => (s.mem a).map DNode.previous

/-- `DoublyLinkedList::crend`: same read as `rend`. -/
def DLL.crend_ {T : Type} (s : DLL T) : Option Ptr :=
  match s.head_ with
  | none => none
  | some a => (s.mem a).map DNode.previous

/-- `DoublyLinkedList::Iterator::operator++` (also `ConstIterator`'s): the
`if(node)` guard makes the sentinel a fixed point; advancing from a node
follows `next`. -/
def DIter.inc {T : Type} (h : DHeap T) (it : Ptr) : Ptr :=
  match it with
  | none => none
  | some a =>
    match h a with
    | none => none -- dangling iterator: undefined behaviour, collapsed
    | some n => n.next

/-- `DoublyLinkedList::Iterator::operator--` (also `ConstIterator`'s). -/
def DIter.dec {T : Type} (h : DHeap T) (it : Ptr) : Ptr :=
  match it with
  | none => none
  | some a =>
    match h a with
    | none => none
    | some n => n.previous

/-- `Iterator::operator+=`: `rhs` repetitions of `++`. -/
def DIter.addAssign {T : Type} (h : DHeap T) : Nat → Ptr → Ptr
  | 0, it => it
  | k + 1, it => DIter.addAssign h k (DIter.inc h it)

/-- `Iterator::operator-=`: `rhs` repetitions of `--`. -/
def DIter.subAssign {T : Type} (h : DHeap T) : Nat → Ptr → Ptr
  | 0, it => it
  | k + 1, it => DIter.subAssign h k (DIter.dec h it)

/-- `ReverseIterator::operator++` (also `ConstReverseIterator`'s): follows
`previous`. -/
def DRevIter.inc {T : Type} (h : DHeap T) (it : Ptr) : Ptr :=
  match it with
  | none => none
  | some a =>
    match h a with
    | none => none
    | some n => n.previous

/-- `ReverseIterator::operator--`: follows `next`. -/
def DRevIter.dec {T : Type} (h : DHeap T) (it : Ptr) : Ptr :=
  match it with
  | none => none
  | some a =>
    match h a with
    | none => none
    | some n => n.next

/-- `ReverseIterator::operator+=`. -/
def DRevIter.addAssign {T : Type} (h : DHeap T) : Nat → Ptr → Ptr
  | 0, it => it
  | k + 1, it => DRevIter.addAssign h k (DRevIter.inc h it)

/-- `ReverseIterator::operator-=`. -/
def DRevIter.subAssign {T : Type} (h : DHeap T) : Nat → Ptr → Ptr
  | 0, it => it
  | k + 1, it => DRevIter.subAssign h k (DRevIter.dec h it)

/-- Values visited by `for(it = p; it != sentinel; ++it)` following `next`,
with enough fuel. -/
def collectNext {T : Type} (h : DHeap T) : Nat → Ptr → List T
  | 0, _ => []
  | _ + 1, none => []
  | f + 1, some a =>
    match h a with
    | none => []
    | some n => n.value :: collectNext h f n.next

/-- Values visited following `previous` (reverse iteration). -/
def collectPrev {T : Type} (h : DHeap T) : Nat → Ptr → List T
  | 0, _ => []
  | _ + 1, none => []
  | f + 1, some a =>
    match h a with
    | none => []
    | some n => n.value :: collectPrev h f n.previous

/-- The nodes visited by the forward loop of `operator[]`: the initial
`current` plus one per iteration. -/
def fwdTrace {T : Type} (h : DHeap T) : Nat → Ptr → List Ptr
  | 0, p => [p]
  | k + 1, p => p :: fwdTrace h k (stepNext h p)

/-- The nodes visited by the backward loop of `operator[]`. -/
def bwdTrace {T : Type} (h : DHeap T) : Nat → Ptr → List Ptr
  | 0, p => [p]
  | k + 1, p => p :: bwdTrace h k (stepPrev h p)

/-- Number of nodes `operator[]` visits, counted from the end it walks from. -/
def DLL.getVisits {T : Type} (s : DLL T) (index : Nat) : Nat :=
  if s.size_ - 1 - index < index then
    (bwdTrace s.mem (s.size_ - 1 - index) s.tail_).length
  else
    (fwdTrace s.mem index s.head_).length

/-- `seg h prev p l q qp`: starting at pointer `p`, whose node's `previous`
field must be `prev`, the heap `h` spells out exactly the (address, value)
pairs of `l`, after which the last node's `next` is `q`; `qp` is the address
of the last node of `l` (or `prev` when `l` is empty). -/
def seg {T : Type} (h : DHeap T) : Ptr → Ptr → List (Nat × T) → Ptr → Ptr → Prop
  | prev, p, [], q, qp => p = q ∧ prev = qp
  | prev, p, (a, v) :: l, q, qp =>
    p = some a ∧
      match h a with
      | none => False
      | some n => n.value = v ∧ n.previous = prev ∧ seg h (some a) n.next l q qp

/-- Well-formedness of a `DLL` state with abstract chain `l`. -/
structure DLL.Wf {T : Type} (s : DLL T) (l : List (Nat × T)) : Prop where
  chain : seg s.mem none s.head_ l none s.tail_
  tail_eq : s.tail_ = (addrs l).getLast?
  size_eq : s.size_ = l.length
  nodup : (addrs l).Nodup
  fresh_lt : ∀ a ∈ addrs l, a < s.fresh

/-! ## Singly linked list (src/linkedlist.h, `manual::LinkedList`) -/

/-- `LinkedList<T>::Node`. -/
structure SNode (T : Type) where
  value : T
  next : Ptr
deriving DecidableEq

/-- The node store of one `LinkedList` object. -/
abbrev SHeap (T : Type) := Nat → Option (SNode T)

/-- `manual::LinkedList<T>`. -/
structure SLL (T : Type) where
  mem : SHeap T
  fresh : Nat
  head_ : Ptr
  tail_ : Ptr
  size_ : Nat

/-- Default constructor: the empty list. -/
def SLL.empty {T : Type} : SLL T :=
  { mem := fun _ => none, fresh := 0, head_ := none, tail_ := none, size_ := 0 }

/-- Dereference a pointer in a singly-linked heap. -/
def sread {T : Type} (h : SHeap T) (p : Ptr) : Option (SNode T) :=
  match p with
  | none => none
  | some a => h a

/-- `current = current->next` for the singly-linked list. -/
def sstepNext {T : Type} (h : SHeap T) (p : Ptr) : Ptr :=
  match sread h p with
  | none => none
  | some n => n.next

/-- `k` iterations of `current = current->next`. -/
def swalkNext {T : Type} (h : SHeap T) : Nat → Ptr → Ptr
  | 0, p => p
  | k + 1, p => swalkNext h k (sstepNext h p)

/-- `current->value`. -/
def sreadVal {T : Type} (h : SHeap T) (p : Ptr) : Option T :=
  (sread h p).map SNode.value

/-- Write `node->next` at address `a`. -/
def ssetNext {T : Type} (h : SHeap T) (a : Nat) (r : Ptr) : SHeap T :=
  match h a with
  | none => h
  | some n => hupd h a (some { n with next := r })

/-- Write `p->next` through a pointer. -/
def ssetNextOpt {T : Type} (h : SHeap T) (p : Ptr) (r : Ptr) : SHeap T :=
  match p with
  | none => h
  | some a => ssetNext h a r

/-- `LinkedList::push_back`. -/
def SLL.push_back {T : Type} (s : SLL T) (val : T) : SLL T :=
  let a := s.fresh
  let mem1 := hupd s.mem a (some ⟨val, none⟩)
  { mem := if s.size_ ≠ 0 then ssetNextOpt mem1 s.tail_ (some a) else mem1
    fresh := a + 1
    head_ := if s.size_ ≠ 0 then s.head_ else some a
    tail_ := some a
    size_ := s.size_ + 1 }

/-- `LinkedList::push_front`: `head_ = tmp` happens unconditionally, `tail_`
is set only when the list was empty. -/
def SLL.push_front {T : Type} (s : SLL T) (val : T) : SLL T :=
  let a := s.fresh
  { mem := hupd s.mem a (some ⟨val, s.head_⟩)
    fresh := a + 1
    head_ := some a
    tail_ := if s.size_ = 0 then some a else s.tail_
    size_ := s.size_ + 1 }

/-- The `while(!stop)` scan of `LinkedList::pop_back`, searching the node
whose `next` is `tail_`, with fuel (the loop is unbounded in the source; on
well-formed lists of size ≥ 2 it ends after `size_ - 2` steps, so fuel
`size_` always suffices). -/
def findPrevTail {T : Type} (h : SHeap T) (tl : Ptr) : Nat → Ptr → Ptr
  | 0, _ => none
  | f + 1, cur =>
    match cur with
    | none => none -- `current->next` null dereference: unreachable when well-formed
    | some c =>
      match h c with
      | none => none
      | some n => if n.next = tl then some c else findPrevTail h tl f n.next

/-- `LinkedList::pop_back`: must walk from the head to find the new tail. -/
def SLL.pop_back {T : Type} (s : SLL T) : SLL T :=
  if s.size_ = 0 then s
  else if s.size_ = 1 then
    { s with mem := hdelOpt s.mem s.head_, head_ := none, tail_ := none,
             size_ := s.size_ - 1 }
  else
    match findPrevTail s.mem s.tail_ s.size_ s.head_ with
    | none => s -- scan failed: unreachable when well-formed
    | some c =>
      match s.mem c with
      | none => s
      | some n =>
        { s with mem := hupd (hdelOpt s.mem n.next) c (some ⟨n.value, none⟩),
                 tail_ := some c, size_ := s.size_ - 1 }

/-- `LinkedList::pop_front`. -/
def SLL.pop_front {T : Type} (s : SLL T) : SLL T :=
  if s.size_ = 0 then s
  else
    match s.head_ with
    | none => s -- `head_->next` null dereference: unreachable when well-formed
    | some hd =>
      match s.mem hd with
      | none => s
      | some n =>
        { s with mem := hupd s.mem hd none, head_ := n.next,
                 tail_ := if s.size_ = 1 then none else s.tail_,
                 size_ := s.size_ - 1 }

/-- `LinkedList::operator[] const`: always walks forward from `head_`. -/
def SLL.getConst {T : Type} (s : SLL T) (index : Nat) : Option T :=
  sreadVal s.mem (swalkNext s.mem index s.head_)

/-- The exact `std::out_of_range` message built by `LinkedList::at`. -/
def SLL.oorMsg (index sz : Nat) : String :=
  "[Out of range error] - manual::LinkedList::at() - (index: " ++ toString index ++
    ", size: " ++ toString sz ++ ")."

/-- `LinkedList::at`. -/
def SLL.at_ {T : Type} (s : SLL T) (index : Nat) : Except String (Option T) :=
  if index ≥ s.size_ then Except.error (SLL.oorMsg index s.size_)
  else Except.ok (s.getConst index)

/-- `LinkedList::insert`. In the middle branch the loop keeps `prev` and
`current`; after `index` iterations they are the walks of length `index - 1`
and `index` (the node is allocated before the loop, as in the source). -/
def SLL.insert {T : Type} (s : SLL T) (index : Nat) (val : T) : SLL T :=
  if index ≤ s.size_ then
    if index = 0 then s.push_front val
    else if index = s.size_ then s.push_back val
    else
      let a := s.fresh
      let mem0 := hupd s.mem a (some ⟨val, none⟩)
      let prev := swalkNext mem0 (index - 1) s.head_
      let cur := swalkNext mem0 index s.head_
      match prev with
      | none => { s with mem := mem0, fresh := a + 1 } -- `prev->next` null dereference
      | some pa =>
        let mem1 := ssetNext mem0 pa (some a)
        let mem2 := hupd mem1 a (some ⟨val, cur⟩)
        { s with mem := mem2, fresh := a + 1, size_ := s.size_ + 1 }
  else s

/-- `LinkedList::remove`. -/
def SLL.remove {T : Type} (s : SLL T) (index : Nat) : SLL T :=
  if index < s.size_ then
    if index = 0 then s.pop_front
    else if index = s.size_ - 1 then s.pop_back
    else
      let prev := swalkNext s.mem (index - 1) s.head_
      let cur := swalkNext s.mem index s.head_
      match prev, cur with
      | some pa, some c =>
        match s.mem c with
        | none => s
        | some cn =>
          { s with mem := hupd (ssetNext s.mem pa cn.next) c none,
                   size_ := s.size_ - 1 }
      | _, _ => s -- unreachable when well-formed
  else s

/-- The node-destruction loop of `LinkedList` (destructor, `clear`,
assignments). -/
def sclearLoop {T : Type} : Nat → SHeap T → Ptr → SHeap T
  | 0, h, _ => h
  | f + 1, h, p =>
    match sread h p with
    | none => h
    | some n => sclearLoop f (hdelOpt h p) n.next

/-- `LinkedList::clear`. -/
def SLL.clear {T : Type} (s : SLL T) : SLL T :=
  if s.size_ = 0 then s
  else { s with mem := sclearLoop s.size_ s.mem s.head_, head_ := none, tail_ := none,
                size_ := 0 }

/-- The deep-copy loop of `LinkedList`'s copy constructor / copy
assignment. -/
def scloneLoop {T : Type} (omem : SHeap T) : Nat → SHeap T → Nat → Nat → Nat →
    SHeap T × Nat × Nat
  | 0, mem, fr, cur, _ => (mem, fr, cur)
  | f + 1, mem, fr, cur, ocur =>
    match omem ocur with
    | none => (mem, fr, cur)
    | some onode =>
      match onode.next with
      | none => (mem, fr, cur)
      | some onext =>
        match omem onext with
        | none => (mem, fr, cur)
        | some onn =>
          let a := fr
          let mem1 := hupd mem a (some ⟨onn.value, none⟩)
          let mem2 := ssetNext mem1 cur (some a)
          scloneLoop omem f mem2 (fr + 1) a onext

/-- Body shared by `LinkedList`'s copy constructor and copy assignment. -/
def SLL.cloneInto {T : Type} (dst other : SLL T) : SLL T :=
  if other.size_ = 0 then { dst with size_ := other.size_ }
  else
    match other.head_ with
    | none => { dst with size_ := other.size_ }
    | some oh =>
      match other.mem oh with
      | none => { dst with size_ := other.size_ }
      | some n0 =>
        let a0 := dst.fresh
        let mem0 := hupd dst.mem a0 (some ⟨n0.value, none⟩)
        let r := scloneLoop other.mem other.size_ mem0 (a0 + 1) a0 oh
        { mem := r.1, fresh := r.2.1, head_ := some a0, tail_ := some r.2.2,
          size_ := other.size_ }

/-- `LinkedList` copy constructor. -/
def SLL.copyCtor {T : Type} (other : SLL T) : SLL T :=
  SLL.cloneInto SLL.empty other

/-- `LinkedList` copy assignment (non-self path). -/
def SLL.copyAssign {T : Type} (s other : SLL T) : SLL T :=
  SLL.cloneInto s.clear other

/-- `LinkedList` move constructor: (new object, moved-from object). -/
def SLL.moveCtor {T : Type} (other : SLL T) : SLL T × SLL T :=
  ({ mem := other.mem, fresh := other.fresh, head_ := other.head_,
     tail_ := other.tail_, size_ := other.size_ },
   { mem := other.mem, fresh := other.fresh, head_ := none, tail_ := none, size_ := 0 })

/-- `LinkedList` move assignment (non-self path). -/
def SLL.moveAssign {T : Type} (s other : SLL T) : SLL T × SLL T :=
  ({ mem := other.mem, fresh := other.fresh, head_ := other.head_,
     tail_ := other.tail_, size_ := other.size_ },
   { mem := other.mem, fresh := other.fresh, head_ := none, tail_ := none, size_ := 0 })

/-- `LinkedList::begin`: copies `head_` without any dereference. -/
def SLL.begin_ {T : Type} (s : SLL T) : Ptr := s.head_

/-- `LinkedList::cbegin`. -/
def SLL.cbegin_ {T : Type} (s : SLL T) : Ptr := s.head_

/-- `LinkedList::end`: reads `tail_->next` (undefined behaviour on an empty
list, surfaced as `none`). -/
def SLL.end_ {T : Type} (s : SLL T) : Option Ptr :=
  match s.tail_ with
  | none => none
  | some a => (s.mem a).map SNode.next

/-- `LinkedList::cend`: same read as `end`. -/
def SLL.cend_ {T : Type} (s : SLL T) : Option Ptr :=
  match s.tail_ with
  | none => none
  | some a => (s.mem a).map SNode.next

/-- `LinkedList::Iterator::operator++` (also `ConstIterator`'s). -/
def SIter.inc {T : Type} (h : SHeap T) (it : Ptr) : Ptr :=
  match it with
  | none => none
  | some a =>
    match h a with
    | none => none
    | some n => n.next

/-- `LinkedList::Iterator::operator+=`. -/
def SIter.addAssign {T : Type} (h : SHeap T) : Nat → Ptr → Ptr
  | 0, it => it
  | k + 1, it => SIter.addAssign h k (SIter.inc h it)

/-- Values visited iterating forward in a `LinkedList`. -/
def scollectNext {T : Type} (h : SHeap T) : Nat → Ptr → List T
  | 0, _ => []
  | _ + 1, none => []
  | f + 1, some a =>
    match h a with
    | none => []
    | some n => n.value :: scollectNext h f n.next

/-- `sseg h p l q`: from pointer `p` the heap spells the chain `l`, after
which the last node's `next` is `q`. -/
def sseg {T : Type} (h : SHeap T) : Ptr → List (Nat × T) → Ptr → Prop
  | p, [], q => p = q
  | p, (a, v) :: l, q =>
    p = some a ∧
      match h a with
      | none => False
      | some n => n.value = v ∧ sseg h n.next l q

/-- Well-formedness of an `SLL` state with abstract chain `l`. -/
structure SLL.Wf {T : Type} (s : SLL T) (l : List (Nat × T)) : Prop where
  chain : sseg s.mem s.head_ l none
  tail_eq : s.tail_ = (addrs l).getLast?
  size_eq : s.size_ = l.length
  nodup : (addrs l).Nodup
  fresh_lt : ∀ a ∈ addrs l, a < s.fresh

/-! ## The container invariants named by the specification -/

/-- The size/emptiness invariants of the specification, with the size-one
clause amended to require a present head (the empty container has
`head_ == tail_ == nullptr` with `size_ == 0`, so the unamended biconditional
fails). -/
def DLL.SpecInv {T : Type} (s : DLL T) : Prop :=
  (s.size_ = 0 ↔ s.head_ = none) ∧ (s.size_ = 0 ↔ s.tail_ = none) ∧
  (s.size_ = 1 ↔ (s.head_ = s.tail_ ∧ s.head_ ≠ none))

/-- Same invariants for the singly-linked list. -/
def SLL.SpecInv {T : Type} (s : SLL T) : Prop :=
  (s.size_ = 0 ↔ s.head_ = none) ∧ (s.size_ = 0 ↔ s.tail_ = none) ∧
  (s.size_ = 1 ↔ (s.head_ = s.tail_ ∧ s.head_ ≠ none))

/-- The doubly-linked structure invariants of the specification, scoped to
the container's node chain `l`: consecutive nodes are linked both ways,
`head_->previous` is absent and `tail_->next` is absent. -/
def DLL.LinkInv {T : Type} (s : DLL T) (l : List (Nat × T)) : Prop :=
  (∀ i a b, (addrs l)[i]? = some a → (addrs l)[i + 1]? = some b →
    ∃ n m, s.mem a = some n ∧ s.mem b = some m ∧ n.next = some b ∧
      m.previous = some a) ∧
  (∀ a n, s.head_ = some a → s.mem a = some n → n.previous = none) ∧
  (∀ a n, s.tail_ = some a → s.mem a = some n → n.next = none)

/-- A doubly-linked state that satisfies all the container invariants for
some abstract chain. -/
def DLL.GoodState {T : Type} (s : DLL T) : Prop :=
  ∃ l, s.Wf l ∧ s.SpecInv ∧ s.LinkInv l

/-- A singly-linked state that satisfies the container invariants. -/
def SLL.GoodState {T : Type} (s : SLL T) : Prop :=
  ∃ l, s.Wf l ∧ s.SpecInv

/-! ## Concrete example states (used by the witnesses) -/

/-- A three-element doubly-linked list built by three `push_back`s. -/
def dex3 : DLL Nat :=
  ((DLL.empty.push_back 1).push_back 2).push_back 3

/-- The abstract chain of `dex3`. -/
def dex3L : List (Nat × Nat) := [(0, 1), (1, 2), (2, 3)]

/-- A three-element singly-linked list built by three `push_back`s. -/
def sex3 : SLL Nat :=
  ((SLL.empty.push_back 1).push_back 2).push_back 3

/-- The abstract chain of `sex3`. -/
def sex3L : List (Nat × Nat) := [(0, 1), (1, 2), (2, 3)]

/-! # Theorems -/

theorem hupd_same {N : Type} (h : Nat → Option N) (a : Nat) (v : Option N) :
    hupd h a v a = v := by
  simp [hupd]

theorem hupd_ne {N : Type} (h : Nat → Option N) {x a : Nat} (v : Option N) (hx : x ≠ a) :
    hupd h a v x = h x := by
  simp [hupd, hx]

theorem addrs_append {T : Type} (l₁ l₂ : List (Nat × T)) :
    addrs (l₁ ++ l₂) = addrs l₁ ++ addrs l₂ := by
  simp [addrs]

theorem vals_append {T : Type} (l₁ l₂ : List (Nat × T)) :
    vals (l₁ ++ l₂) = vals l₁ ++ vals l₂ := by
  simp [vals]

theorem addrs_length {T : Type} (l : List (Nat × T)) : (addrs l).length = l.length := by
  simp [addrs]

theorem vals_length {T : Type} (l : List (Nat × T)) : (vals l).length = l.length := by
  simp [vals]

theorem seg_nil {T : Type} {h : DHeap T} {prev p q qp : Ptr} :
    seg h prev p ([] : List (Nat × T)) q qp ↔ (p = q ∧ prev = qp) := Iff.rfl

theorem seg_cons {T : Type} {h : DHeap T} {prev p q qp : Ptr} {a : Nat} {v : T}
    {l : List (Nat × T)} :
    seg h prev p ((a, v) :: l) q qp ↔
      p = some a ∧ ∃ n, h a = some n ∧ n.value = v ∧ n.previous = prev ∧
        seg h (some a) n.next l q qp := by
  constructor
  · intro hs
    rw [seg] at hs
    refine ⟨hs.1, ?_⟩
    rcases hha : h a with _ | n
    · rw [hha] at hs
      exact absurd hs.2 not_false
    · rw [hha] at hs
      exact ⟨n, rfl, hs.2⟩
  · rintro ⟨hp, n, hha, hrest⟩
    rw [seg, hha]
    exact ⟨hp, hrest⟩

/-- Heaps that agree on the chain's addresses satisfy the same `seg`. -/
theorem seg_congr {T : Type} {h h' : DHeap T} :
    ∀ {l : List (Nat × T)} {prev p q qp : Ptr},
      (∀ b ∈ addrs l, h' b = h b) → seg h prev p l q qp → seg h' prev p l q qp := by
  intro l
  induction l with
  | nil => intro prev p q qp _ hs; exact hs
  | cons x l ih =>
    rintro prev p q qp hagree hs
    obtain ⟨a, v⟩ := x
    rw [seg_cons] at hs
    obtain ⟨hp, n, hha, hv, hprev, hrest⟩ := hs
    rw [seg_cons]
    refine ⟨hp, n, ?_, hv, hprev, ?_⟩
    · rw [hagree a (by simp [addrs]), hha]
    · exact ih (fun b hb => hagree b (by simp [addrs] at hb ⊢; exact Or.inr hb)) hrest

/-- Updating an address outside the chain preserves `seg`. -/
theorem seg_hupd {T : Type} {h : DHeap T} {l : List (Nat × T)} {prev p q qp : Ptr}
    {a : Nat} {v : Option (DNode T)} (ha : a ∉ addrs l) (hs : seg h prev p l q qp) :
    seg (hupd h a v) prev p l q qp :=
  seg_congr (fun b hb => hupd_ne h v (fun hba => ha (hba ▸ hb))) hs

/-- Splitting / joining a chain at an interior point. -/
theorem seg_append {T : Type} {h : DHeap T} (l₁ : List (Nat × T)) :
    ∀ {l₂ : List (Nat × T)} {prev p q qp : Ptr},
      seg h prev p (l₁ ++ l₂) q qp ↔
        ∃ mid midprev, seg h prev p l₁ mid midprev ∧ seg h midprev mid l₂ q qp := by
  induction l₁ with
  | nil =>
    intro l₂ prev p q qp
    constructor
    · intro hs; exact ⟨p, prev, ⟨rfl, rfl⟩, hs⟩
    · rintro ⟨mid, midprev, ⟨hp, hprev⟩, hs⟩
      rw [hp, hprev]; exact hs
  | cons x l₁ ih =>
    intro l₂ prev p q qp
    obtain ⟨a, v⟩ := x
    constructor
    · intro hs
      rw [List.cons_append, seg_cons] at hs
      obtain ⟨hp, n, hha, hv, hprev, hrest⟩ := hs
      obtain ⟨mid, midprev, h₁, h₂⟩ := ih.mp hrest
      exact ⟨mid, midprev, seg_cons.mpr ⟨hp, n, hha, hv, hprev, h₁⟩, h₂⟩
    · rintro ⟨mid, midprev, h₁, h₂⟩
      rw [seg_cons] at h₁
      obtain ⟨hp, n, hha, hv, hprev, hrest⟩ := h₁
      exact List.cons_append _ _ _ ▸ seg_cons.mpr ⟨hp, n, hha, hv, hprev, ih.mpr ⟨mid, midprev, hrest, h₂⟩⟩

/-- The exit-previous of a chain is its last address (or the entry-previous
when the chain is empty). -/
theorem seg_last {T : Type} {h : DHeap T} :
    ∀ {l : List (Nat × T)} {prev p q qp : Ptr}, seg h prev p l q qp →
      qp = ((addrs l).getLast?).or prev := by
  intro l
  induction l with
  | nil => intro prev p q qp hs; simpa [addrs, Option.or] using hs.2.symm
  | cons x l ih =>
    intro prev p q qp hs
    obtain ⟨a, v⟩ := x
    rw [seg_cons] at hs
    obtain ⟨hp, n, hha, hv, hprev, hrest⟩ := hs
    have h1 := ih hrest
    rcases l with _ | ⟨y, l⟩
    · simpa [addrs, Option.or] using h1
    · obtain ⟨b, w⟩ := y
      have hne : addrs ((b, w) :: l) ≠ [] := by simp [addrs]
      rw [List.getLast?_eq_getLast _ hne] at h1
      simp only [addrs, List.map_cons] at h1 ⊢
      rw [List.getLast?_eq_getLast _ (by simp), h1]
      simp [List.getLast_cons, Option.or]

/-- The entry pointer of a chain is its first address. -/
theorem seg_head {T : Type} {h : DHeap T} {l : List (Nat × T)} {prev p q qp : Ptr}
    (hs : seg h prev p l q qp) : p = ((addrs l).head?).or q := by
  rcases l with _ | ⟨⟨a, v⟩, l⟩
  · simpa [addrs, Option.or] using hs.1
  · rw [seg_cons] at hs
    simpa [addrs, Option.or] using hs.1

/-- Index view: the node stored at position `i` of a chain. -/
theorem seg_lookup {T : Type} {h : DHeap T} :
    ∀ {l : List (Nat × T)} {prev p q qp : Ptr}, seg h prev p l q qp →
      ∀ i, i < l.length →
        ∃ a n, (addrs l)[i]? = some a ∧ h a = some n ∧
          (vals l)[i]? = some n.value ∧
          n.next = ((addrs l)[i+1]?).or q ∧
          n.previous = (if i = 0 then prev else (addrs l)[i-1]?) := by
  intro l
  induction l with
  | nil => intro prev p q qp _ i hi; simp at hi
  | cons x l ih =>
    intro prev p q qp hs i hi
    obtain ⟨a, v⟩ := x
    rw [seg_cons] at hs
    obtain ⟨hp, n, hha, hv, hprev, hrest⟩ := hs
    rcases i with _ | i
    · refine ⟨a, n, by simp [addrs], hha, by simp [vals, hv], ?_, by simp [hprev]⟩
      have := seg_head hrest
      simpa [addrs, List.head?_eq_getElem?] using this
    · have hi' : i < l.length := by simpa using hi
      obtain ⟨b, m, hb, hm, hval, hnext, hpr⟩ := ih hrest i hi'
      refine ⟨b, m, by simpa [addrs] using hb, hm, by simpa [vals] using hval,
        by simpa [addrs] using hnext, ?_⟩
      rcases i with _ | i
      · simpa [addrs] using hpr
      · simpa [addrs] using hpr

theorem walkNext_succ {T : Type} (h : DHeap T) :
    ∀ (k : Nat) (p : Ptr), walkNext h (k + 1) p = stepNext h (walkNext h k p) := by
  intro k
  induction k with
  | zero => intro p; rfl
  | succ k ih => intro p; rw [walkNext, ih (stepNext h p)]; rfl

theorem walkPrev_succ {T : Type} (h : DHeap T) :
    ∀ (k : Nat) (p : Ptr), walkPrev h (k + 1) p = stepPrev h (walkPrev h k p) := by
  intro k
  induction k with
  | zero => intro p; rfl
  | succ k ih => intro p; rw [walkPrev, ih (stepPrev h p)]; rfl

/-- Walking `k` `next` steps from the chain entry lands at position `k`. -/
theorem walkNext_addr {T : Type} {h : DHeap T} {l : List (Nat × T)} {prev p q qp : Ptr}
    (hs : seg h prev p l q qp) :
    ∀ k, k < l.length → walkNext h k p = (addrs l)[k]? := by
  intro k
  induction k with
  | zero =>
    intro hk
    have := seg_head hs
    rcases l with _ | ⟨⟨a, v⟩, l⟩
    · simp at hk
    · simpa [walkNext, addrs, Option.or, List.head?_eq_getElem?] using this
  | succ k ih =>
    intro hk
    have hk' : k < l.length := Nat.lt_of_succ_lt hk
    rw [walkNext_succ, ih hk']
    obtain ⟨a, n, ha, hn, _, hnext, _⟩ := seg_lookup hs k hk'
    have hsome : ∃ b, (addrs l)[k + 1]? = some b := by
      have : k + 1 < (addrs l).length := by rw [addrs_length]; exact hk
      exact ⟨(addrs l)[k + 1], List.getElem?_eq_getElem this⟩
    obtain ⟨b, hb⟩ := hsome
    rw [ha]
    simp only [stepNext, dread, hn]
    rw [hnext, hb]
    rfl

/-- Walking `k` `previous` steps from position `j` lands at position `j - k`. -/
theorem walkPrev_addr {T : Type} {h : DHeap T} {l : List (Nat × T)} {prev p q qp : Ptr}
    (hs : seg h prev p l q qp) :
    ∀ k j, j < l.length → k ≤ j → walkPrev h k ((addrs l)[j]?) = (addrs l)[j - k]? := by
  intro k
  induction k with
  | zero => intro j _ _; simp [walkPrev]
  | succ k ih =>
    intro j hj hkj
    rw [walkPrev_succ, ih j hj (Nat.le_of_succ_le hkj)]
    have hjk : j - k < l.length := lt_of_le_of_lt (Nat.sub_le _ _) hj
    obtain ⟨a, n, ha, hn, _, _, hpr⟩ := seg_lookup hs (j - k) hjk
    have hne : j - k ≠ 0 := by omega
    rw [ha]
    simp only [stepPrev, dread, hn]
    rw [hpr, if_neg hne, Nat.sub_sub]


theorem getLast?_cons_ne {A : Type} (a : A) {l : List A} (h : l ≠ []) :
    (a :: l).getLast? = l.getLast? := by
  rcases l with _ | ⟨b, l⟩
  · exact absurd rfl h
  · exact List.getLast?_cons_cons ..

theorem sseg_nil {T : Type} {h : SHeap T} {p q : Ptr} :
    sseg h p ([] : List (Nat × T)) q ↔ p = q := Iff.rfl

theorem sseg_cons {T : Type} {h : SHeap T} {p q : Ptr} {a : Nat} {v : T}
    {l : List (Nat × T)} :
    sseg h p ((a, v) :: l) q ↔
      p = some a ∧ ∃ n, h a = some n ∧ n.value = v ∧ sseg h n.next l q := by
  constructor
  · intro hs
    rw [sseg] at hs
    refine ⟨hs.1, ?_⟩
    rcases hha : h a with _ | n
    · rw [hha] at hs
      exact absurd hs.2 not_false
    · rw [hha] at hs
      exact ⟨n, rfl, hs.2⟩
  · rintro ⟨hp, n, hha, hrest⟩
    rw [sseg, hha]
    exact ⟨hp, hrest⟩

/-- Heaps that agree on the chain's addresses satisfy the same `sseg`. -/
theorem sseg_congr {T : Type} {h h' : SHeap T} :
    ∀ {l : List (Nat × T)} {p q : Ptr},
      (∀ b ∈ addrs l, h' b = h b) → sseg h p l q → sseg h' p l q := by
  intro l
  induction l with
  | nil => intro p q _ hs; exact hs
  | cons x l ih =>
    rintro p q hagree hs
    obtain ⟨a, v⟩ := x
    rw [sseg_cons] at hs
    obtain ⟨hp, n, hha, hv, hrest⟩ := hs
    rw [sseg_cons]
    refine ⟨hp, n, ?_, hv, ?_⟩
    · rw [hagree a (by simp [addrs]), hha]
    · exact ih (fun b hb => hagree b (by simp [addrs] at hb ⊢; exact Or.inr hb)) hrest

/-- Updating an address outside the chain preserves `sseg`. -/
theorem sseg_hupd {T : Type} {h : SHeap T} {l : List (Nat × T)} {p q : Ptr}
    {a : Nat} {v : Option (SNode T)} (ha : a ∉ addrs l) (hs : sseg h p l q) :
    sseg (hupd h a v) p l q :=
  sseg_congr (fun b hb => hupd_ne h v (fun hba => ha (hba ▸ hb))) hs

/-- Splitting / joining a singly-linked chain. -/
theorem sseg_append {T : Type} {h : SHeap T} (l₁ : List (Nat × T)) :
    ∀ {l₂ : List (Nat × T)} {p q : Ptr},
      sseg h p (l₁ ++ l₂) q ↔ ∃ mid, sseg h p l₁ mid ∧ sseg h mid l₂ q := by
  induction l₁ with
  | nil =>
    intro l₂ p q
    constructor
    · intro hs; exact ⟨p, rfl, hs⟩
    · rintro ⟨mid, hp, hs⟩
      rw [show p = mid from hp]; exact hs
  | cons x l₁ ih =>
    intro l₂ p q
    obtain ⟨a, v⟩ := x
    constructor
    · intro hs
      rw [List.cons_append, sseg_cons] at hs
      obtain ⟨hp, n, hha, hv, hrest⟩ := hs
      obtain ⟨mid, h₁, h₂⟩ := ih.mp hrest
      exact ⟨mid, sseg_cons.mpr ⟨hp, n, hha, hv, h₁⟩, h₂⟩
    · rintro ⟨mid, h₁, h₂⟩
      rw [sseg_cons] at h₁
      obtain ⟨hp, n, hha, hv, hrest⟩ := h₁
      exact List.cons_append _ _ _ ▸ sseg_cons.mpr ⟨hp, n, hha, hv, ih.mpr ⟨mid, hrest, h₂⟩⟩

/-- The entry pointer of a singly-linked chain is its first address. -/
theorem sseg_head {T : Type} {h : SHeap T} {l : List (Nat × T)} {p q : Ptr}
    (hs : sseg h p l q) : p = ((addrs l).head?).or q := by
  rcases l with _ | ⟨⟨a, v⟩, l⟩
  · simpa [addrs, Option.or] using hs
  · rw [sseg_cons] at hs
    simpa [addrs, Option.or] using hs.1

/-- Index view for singly-linked chains. -/
theorem sseg_lookup {T : Type} {h : SHeap T} :
    ∀ {l : List (Nat × T)} {p q : Ptr}, sseg h p l q →
      ∀ i, i < l.length →
        ∃ a n, (addrs l)[i]? = some a ∧ h a = some n ∧
          (vals l)[i]? = some n.value ∧
          n.next = ((addrs l)[i+1]?).or q := by
  intro l
  induction l with
  | nil => intro p q _ i hi; simp at hi
  | cons x l ih =>
    intro p q hs i hi
    obtain ⟨a, v⟩ := x
    rw [sseg_cons] at hs
    obtain ⟨hp, n, hha, hv, hrest⟩ := hs
    rcases i with _ | i
    · refine ⟨a, n, by simp [addrs], hha, by simp [vals, hv], ?_⟩
      have := sseg_head hrest
      simpa [addrs, List.head?_eq_getElem?] using this
    · have hi' : i < l.length := by simpa using hi
      obtain ⟨b, m, hb, hm, hval, hnext⟩ := ih hrest i hi'
      exact ⟨b, m, by simpa [addrs] using hb, hm, by simpa [vals] using hval,
        by simpa [addrs] using hnext⟩

theorem swalkNext_succ {T : Type} (h : SHeap T) :
    ∀ (k : Nat) (p : Ptr), swalkNext h (k + 1) p = sstepNext h (swalkNext h k p) := by
  intro k
  induction k with
  | zero => intro p; rfl
  | succ k ih => intro p; rw [swalkNext, ih (sstepNext h p)]; rfl

/-- Walking `k` `next` steps from the chain entry lands at position `k`. -/
theorem swalkNext_addr {T : Type} {h : SHeap T} {l : List (Nat × T)} {p q : Ptr}
    (hs : sseg h p l q) :
    ∀ k, k < l.length → swalkNext h k p = (addrs l)[k]? := by
  intro k
  induction k with
  | zero =>
    intro hk
    have := sseg_head hs
    rcases l with _ | ⟨⟨a, v⟩, l⟩
    · simp at hk
    · simpa [swalkNext, addrs, Option.or, List.head?_eq_getElem?] using this
  | succ k ih =>
    intro hk
    have hk' : k < l.length := Nat.lt_of_succ_lt hk
    rw [swalkNext_succ, ih hk']
    obtain ⟨a, n, ha, hn, _, hnext⟩ := sseg_lookup hs k hk'
    have hlen : k + 1 < (addrs l).length := by rw [addrs_length]; exact hk
    obtain ⟨b, hb⟩ : ∃ b, (addrs l)[k + 1]? = some b :=
      ⟨(addrs l)[k + 1], List.getElem?_eq_getElem hlen⟩
    rw [ha]
    simp only [sstepNext, sread, hn]
    rw [hnext, hb]
    rfl

theorem setNext_ne {T : Type} (h : DHeap T) {x a : Nat} (r : Ptr) (hx : x ≠ a) :
    setNext h a r x = h x := by
  unfold setNext
  rcases h a with _ | n
  · rfl
  · exact hupd_ne h _ hx

theorem setNext_same {T : Type} {h : DHeap T} {a : Nat} {n : DNode T} (r : Ptr)
    (hha : h a = some n) : setNext h a r a = some { n with next := r } := by
  unfold setNext
  rw [hha]
  exact hupd_same ..

theorem setPrev_ne {T : Type} (h : DHeap T) {x a : Nat} (r : Ptr) (hx : x ≠ a) :
    setPrev h a r x = h x := by
  unfold setPrev
  rcases h a with _ | n
  · rfl
  · exact hupd_ne h _ hx

theorem setPrev_same {T : Type} {h : DHeap T} {a : Nat} {n : DNode T} (r : Ptr)
    (hha : h a = some n) : setPrev h a r a = some { n with previous := r } := by
  unfold setPrev
  rw [hha]
  exact hupd_same ..

theorem ssetNext_ne {T : Type} (h : SHeap T) {x a : Nat} (r : Ptr) (hx : x ≠ a) :
    ssetNext h a r x = h x := by
  unfold ssetNext
  rcases h a with _ | n
  · rfl
  · exact hupd_ne h _ hx

theorem ssetNext_same {T : Type} {h : SHeap T} {a : Nat} {n : SNode T} (r : Ptr)
    (hha : h a = some n) : ssetNext h a r a = some { n with next := r } := by
  unfold ssetNext
  rw [hha]
  exact hupd_same ..

/-- `seg` is stable under `setNext` at an address outside the chain. -/
theorem seg_setNext {T : Type} {h : DHeap T} {l : List (Nat × T)} {prev p q qp : Ptr}
    {a : Nat} (r : Ptr) (ha : a ∉ addrs l) (hs : seg h prev p l q qp) :
    seg (setNext h a r) prev p l q qp :=
  seg_congr (fun b hb => setNext_ne h r (fun hba => ha (hba ▸ hb))) hs

/-- `seg` is stable under `setPrev` at an address outside the chain. -/
theorem seg_setPrev {T : Type} {h : DHeap T} {l : List (Nat × T)} {prev p q qp : Ptr}
    {a : Nat} (r : Ptr) (ha : a ∉ addrs l) (hs : seg h prev p l q qp) :
    seg (setPrev h a r) prev p l q qp :=
  seg_congr (fun b hb => setPrev_ne h r (fun hba => ha (hba ▸ hb))) hs

/-- `sseg` is stable under `ssetNext` at an address outside the chain. -/
theorem sseg_ssetNext {T : Type} {h : SHeap T} {l : List (Nat × T)} {p q : Ptr}
    {a : Nat} (r : Ptr) (ha : a ∉ addrs l) (hs : sseg h p l q) :
    sseg (ssetNext h a r) p l q :=
  sseg_congr (fun b hb => ssetNext_ne h r (fun hba => ha (hba ▸ hb))) hs

/-- Setting the last node's `next` redirects the chain exit. -/
theorem seg_setNext_last {T : Type} {h : DHeap T} :
    ∀ {l : List (Nat × T)} {prev p q qp : Ptr} {t : Nat} (r : Ptr),
      (addrs l).getLast? = some t → (addrs l).Nodup →
      seg h prev p l q qp → seg (setNext h t r) prev p l r qp := by
  intro l
  induction l with
  | nil => intro prev p q qp t r hlast _ _; simp [addrs] at hlast
  | cons x l ih =>
    intro prev p q qp t r hlast hnd hs
    obtain ⟨a, v⟩ := x
    have hcons : addrs ((a, v) :: l) = a :: addrs l := rfl
    rw [seg_cons] at hs
    obtain ⟨hp, n, hha, hv, hprev, hrest⟩ := hs
    rcases l with _ | ⟨y, l⟩
    · have hta : t = a := by
        rw [hcons] at hlast
        simpa [addrs] using hlast.symm
      subst hta
      obtain ⟨hnq, hqp⟩ := hrest
      exact seg_cons.mpr ⟨hp, { n with next := r }, setNext_same r hha, hv, hprev, rfl, hqp⟩
    · rw [hcons] at hlast hnd
      have hlast' : (addrs (y :: l)).getLast? = some t := by
        have hne : addrs (y :: l) ≠ [] := by obtain ⟨b, w⟩ := y; simp [addrs]
        rw [getLast?_cons_ne a hne] at hlast
        exact hlast
      have hat : a ≠ t := fun hat =>
        (List.nodup_cons.mp hnd).1 (hat ▸ List.mem_of_mem_getLast? (by simp [hlast']))
      refine seg_cons.mpr ⟨hp, n, ?_, hv, hprev, ?_⟩
      · rw [setNext_ne h r hat, hha]
      · exact ih r hlast' (List.nodup_cons.mp hnd).2 hrest

/-- Setting the first node's `previous` changes only the entry-previous. -/
theorem seg_setPrev_head {T : Type} {h : DHeap T} {l : List (Nat × T)}
    {prev p q qp : Ptr} {c : Nat} (r : Ptr)
    (hhead : (addrs l).head? = some c) (hnd : (addrs l).Nodup)
    (hs : seg h prev p l q qp) :
    seg (setPrev h c r) r p l q qp := by
  rcases l with _ | ⟨⟨a, v⟩, l⟩
  · simp [addrs] at hhead
  · have hca : c = a := by simpa [addrs] using hhead.symm
    subst hca
    rw [seg_cons] at hs
    obtain ⟨hp, n, hha, hv, hprev, hrest⟩ := hs
    refine seg_cons.mpr ⟨hp, { n with previous := r }, setPrev_same r hha, hv, rfl, ?_⟩
    have hnotin : c ∉ addrs l := by
      rw [show addrs ((c, v) :: l) = c :: addrs l from rfl] at hnd
      exact (List.nodup_cons.mp hnd).1
    exact seg_congr (fun b hb => setPrev_ne h r (fun hbc => hnotin (hbc ▸ hb))) hrest

/-- Setting the last node's `next` in a singly-linked chain. -/
theorem sseg_ssetNext_last {T : Type} {h : SHeap T} :
    ∀ {l : List (Nat × T)} {p q : Ptr} {t : Nat} (r : Ptr),
      (addrs l).getLast? = some t → (addrs l).Nodup →
      sseg h p l q → sseg (ssetNext h t r) p l r := by
  intro l
  induction l with
  | nil => intro p q t r hlast _ _; simp [addrs] at hlast
  | cons x l ih =>
    intro p q t r hlast hnd hs
    obtain ⟨a, v⟩ := x
    have hcons : addrs ((a, v) :: l) = a :: addrs l := rfl
    rw [sseg_cons] at hs
    obtain ⟨hp, n, hha, hv, hrest⟩ := hs
    rcases l with _ | ⟨y, l⟩
    · have hta : t = a := by
        rw [hcons] at hlast
        simpa [addrs] using hlast.symm
      subst hta
      exact sseg_cons.mpr ⟨hp, { n with next := r }, ssetNext_same r hha, hv, rfl⟩
    · rw [hcons] at hlast hnd
      have hlast' : (addrs (y :: l)).getLast? = some t := by
        have hne : addrs (y :: l) ≠ [] := by obtain ⟨b, w⟩ := y; simp [addrs]
        rw [getLast?_cons_ne a hne] at hlast
        exact hlast
      have hat : a ≠ t := fun hat =>
        (List.nodup_cons.mp hnd).1 (hat ▸ List.mem_of_mem_getLast? (by simp [hlast']))
      refine sseg_cons.mpr ⟨hp, n, ?_, hv, ?_⟩
      · rw [ssetNext_ne h r hat, hha]
      · exact ih r hlast' (List.nodup_cons.mp hnd).2 hrest


theorem DLL.Wf.fresh_notin {T : Type} {s : DLL T} {l : List (Nat × T)} (hw : s.Wf l) :
    s.fresh ∉ addrs l :=
  fun hmem => absurd (hw.fresh_lt _ hmem) (lt_irrefl _)

theorem DLL.Wf.size_zero_iff {T : Type} {s : DLL T} {l : List (Nat × T)} (hw : s.Wf l) :
    s.size_ = 0 ↔ l = [] := by
  rw [hw.size_eq, List.length_eq_zero]

theorem DLL.Wf.head_eq {T : Type} {s : DLL T} {l : List (Nat × T)} (hw : s.Wf l) :
    s.head_ = (addrs l).head? := by
  have := seg_head hw.chain
  rcases hh : (addrs l).head? with _ | a
  · rw [hh] at this; simpa [Option.or] using this
  · rw [hh] at this; simpa [Option.or] using this

/-- The empty doubly-linked list is well-formed. -/
theorem DLL.wf_empty {T : Type} : (DLL.empty : DLL T).Wf [] := by
  constructor
  · exact ⟨rfl, rfl⟩
  · rfl
  · rfl
  · exact List.nodup_nil
  · intro a ha; simp [addrs] at ha

/-- `push_back` appends its value to the chain. -/
theorem DLL.wf_push_back {T : Type} {s : DLL T} {l : List (Nat × T)} (v : T)
    (hw : s.Wf l) : (s.push_back v).Wf (l ++ [(s.fresh, v)]) := by
  rcases l with _ | ⟨x, l0⟩
  · -- empty source list
    have hsz : s.size_ = 0 := hw.size_zero_iff.mpr rfl
    have htl : s.tail_ = none := hw.tail_eq
    constructor
    · simp only [DLL.push_back, hsz, htl]
      refine seg_cons.mpr ⟨rfl, ⟨v, none, none⟩, hupd_same .., rfl, rfl, rfl, rfl⟩
    · simp [DLL.push_back, addrs]
    · simp [DLL.push_back, hw.size_eq]
    · simp [addrs]
    · intro a ha
      simp only [DLL.push_back]
      simp [addrs] at ha
      omega
  · -- non-empty source list
    set l := x :: l0 with hl
    have hlne : l ≠ [] := by simp [hl]
    have hsz : s.size_ ≠ 0 := fun h0 => hlne (hw.size_zero_iff.mp h0)
    have hane : addrs l ≠ [] := by simp [hl, addrs]
    obtain ⟨t, ht⟩ : ∃ t, (addrs l).getLast? = some t := by
      rcases hgl : (addrs l).getLast? with _ | t
      · exact absurd (List.getLast?_eq_none_iff.mp hgl) hane
      · exact ⟨t, rfl⟩
    have htl : s.tail_ = some t := hw.tail_eq.trans ht
    have htmem : t ∈ addrs l := List.mem_of_mem_getLast? (by simp [ht])
    have hfa : s.fresh ∉ addrs l := hw.fresh_notin
    have hta : t ≠ s.fresh := fun hts => hfa (hts ▸ htmem)
    have hchain1 : seg (hupd s.mem s.fresh (some ⟨v, none, s.tail_⟩)) none s.head_ l
        none s.tail_ := seg_hupd hfa hw.chain
    have hchain2 : seg (setNext (hupd s.mem s.fresh (some ⟨v, none, s.tail_⟩)) t
        (some s.fresh)) none s.head_ l (some s.fresh) s.tail_ :=
      seg_setNext_last _ ht hw.nodup hchain1
    have hmema : setNext (hupd s.mem s.fresh (some ⟨v, none, s.tail_⟩)) t (some s.fresh)
        s.fresh = some ⟨v, none, s.tail_⟩ := by
      rw [setNext_ne _ _ (fun hst => hta hst.symm), hupd_same]
    constructor
    · simp only [DLL.push_back, if_pos hsz]
      refine (seg_append l).mpr ⟨some s.fresh, s.tail_, ?_, ?_⟩
      · simpa [setNextOpt, htl] using hchain2
      · refine seg_cons.mpr ⟨rfl, ⟨v, none, s.tail_⟩, ?_, rfl, rfl, rfl, rfl⟩
        simpa [setNextOpt, htl] using hmema
    · simp [DLL.push_back, addrs_append, addrs]
    · simp [DLL.push_back, hw.size_eq]
    · rw [addrs_append]
      refine List.Nodup.append hw.nodup (by simp [addrs]) ?_
      intro a ha hb
      simp [addrs] at hb
      exact hfa (hb ▸ ha)
    · intro a ha
      simp only [DLL.push_back]
      rw [addrs_append] at ha
      rcases List.mem_append.mp ha with h1 | h2
      · exact Nat.lt_succ_of_lt (hw.fresh_lt a h1)
      · simp [addrs] at h2
        omega

/-- `push_front` prepends its value to the chain. -/
theorem DLL.wf_push_front {T : Type} {s : DLL T} {l : List (Nat × T)} (v : T)
    (hw : s.Wf l) : (s.push_front v).Wf ((s.fresh, v) :: l) := by
  rcases l with _ | ⟨⟨c0, w0⟩, l0⟩
  · have hsz : s.size_ = 0 := hw.size_zero_iff.mpr rfl
    have hhd : s.head_ = none := by simpa [addrs] using hw.head_eq
    constructor
    · simp only [DLL.push_front, hsz, hhd]
      refine seg_cons.mpr ⟨rfl, ⟨v, none, none⟩, hupd_same .., rfl, rfl, rfl, rfl⟩
    · simp [DLL.push_front, hsz, addrs]
    · simp [DLL.push_front, hw.size_eq]
    · simp [addrs]
    · intro a ha
      simp only [DLL.push_front]
      simp [addrs] at ha
      omega
  · set l := (c0, w0) :: l0 with hl
    have hlne : l ≠ [] := by simp [hl]
    have hsz : s.size_ ≠ 0 := fun h0 => hlne (hw.size_zero_iff.mp h0)
    have hane : addrs l ≠ [] := by simp [hl, addrs]
    have hhd : s.head_ = some c0 := by simpa [hl, addrs] using hw.head_eq
    have hfa : s.fresh ∉ addrs l := hw.fresh_notin
    have hchain1 : seg (hupd s.mem s.fresh (some ⟨v, s.head_, none⟩)) none s.head_ l
        none s.tail_ := seg_hupd hfa hw.chain
    have hchain2 : seg (setPrev (hupd s.mem s.fresh (some ⟨v, s.head_, none⟩)) c0
        (some s.fresh)) (some s.fresh) s.head_ l none s.tail_ :=
      seg_setPrev_head _ (by simp [hl, addrs]) hw.nodup hchain1
    have hc0mem : c0 ∈ addrs l := by simp [hl, addrs]
    have hc0f : c0 ≠ s.fresh := fun hcf => hfa (hcf ▸ hc0mem)
    have hmema : setPrev (hupd s.mem s.fresh (some ⟨v, s.head_, none⟩)) c0 (some s.fresh)
        s.fresh = some ⟨v, s.head_, none⟩ := by
      rw [setPrev_ne _ _ (fun hsf => hc0f hsf.symm), hupd_same]
    constructor
    · simp only [DLL.push_front, if_pos hsz]
      refine seg_cons.mpr ⟨rfl, ⟨v, s.head_, none⟩, ?_, rfl, rfl, ?_⟩
      · simpa [setPrevOpt, hhd] using hmema
      · simpa [setPrevOpt, hhd] using hchain2
    · simp only [DLL.push_front, if_pos hsz]
      rw [hw.tail_eq]
      have : addrs ((s.fresh, v) :: l) = s.fresh :: addrs l := rfl
      rw [this, getLast?_cons_ne _ hane]
    · simp [DLL.push_front, hw.size_eq]
    · have : addrs ((s.fresh, v) :: l) = s.fresh :: addrs l := rfl
      rw [this, List.nodup_cons]
      exact ⟨hfa, hw.nodup⟩
    · intro a ha
      simp only [DLL.push_front]
      have : addrs ((s.fresh, v) :: l) = s.fresh :: addrs l := rfl
      rw [this] at ha
      rcases List.mem_cons.mp ha with h1 | h2
      · omega
      · exact Nat.lt_succ_of_lt (hw.fresh_lt a h2)


/-- `pop_back` drops the last element of the chain (no-op when empty). -/
theorem DLL.wf_pop_back {T : Type} {s : DLL T} {l : List (Nat × T)} (hw : s.Wf l) :
    s.pop_back.Wf l.dropLast := by
  by_cases h0 : s.size_ = 0
  · have hl : l = [] := hw.size_zero_iff.mp h0
    subst hl
    simpa [DLL.pop_back, h0] using hw
  by_cases h1 : s.size_ = 1
  · have hlen : l.length = 1 := by rw [← hw.size_eq]; exact h1
    obtain ⟨x, hl⟩ := List.length_eq_one.mp hlen
    subst hl
    simp only [DLL.pop_back, if_neg h0, if_pos h1, List.dropLast_single]
    constructor
    · exact ⟨rfl, rfl⟩
    · rfl
    · simp [h1]
    · exact List.nodup_nil
    · intro a ha; simp [addrs] at ha
  · have hlne : l ≠ [] := fun hl => h0 (hw.size_zero_iff.mpr hl)
    obtain ⟨l', x, hlx⟩ : ∃ l' x, l = l' ++ [x] :=
      ⟨l.dropLast, l.getLast hlne, (List.dropLast_append_getLast hlne).symm⟩
    have hlen2 : 2 ≤ l.length := by
      rw [← hw.size_eq]; omega
    have hl'ne : l' ≠ [] := by
      intro h
      rw [hlx, h] at hlen2
      simp at hlen2
    obtain ⟨mid, midprev, hseg1, hseg2⟩ := (seg_append l').mp (hlx ▸ hw.chain)
    obtain ⟨t, xv⟩ := x
    rw [seg_cons] at hseg2
    obtain ⟨hmid, n, hmemt, hnv, hnprev, hrest⟩ := hseg2
    obtain ⟨hnnext, htail⟩ := hrest
    have htailt : s.tail_ = some t := htail.symm
    have ha'ne : addrs l' ≠ [] := by
      intro h
      have := addrs_length l'
      rw [h] at this
      exact hl'ne (List.length_eq_zero.mp this.symm)
    obtain ⟨p0, hp0⟩ : ∃ p0, (addrs l').getLast? = some p0 := by
      rcases hgl : (addrs l').getLast? with _ | p0
      · exact absurd (List.getLast?_eq_none_iff.mp hgl) ha'ne
      · exact ⟨p0, rfl⟩
    have hmidprev : midprev = some p0 := by
      have := seg_last hseg1
      rw [hp0] at this
      simpa [Option.or] using this
    have haddr : addrs l = addrs l' ++ [t] := by
      rw [hlx, addrs_append]; rfl
    have hnd := hw.nodup
    rw [haddr] at hnd
    have htnotin : t ∉ addrs l' := by
      intro hmem
      rcases List.nodup_append.mp hnd with ⟨_, _, hdisj⟩
      exact hdisj hmem (by simp)
    have hnd' : (addrs l').Nodup := (List.nodup_append.mp hnd).1
    have hstep : stepPrev s.mem (some t) = some p0 := by
      simp only [stepPrev, dread, hmemt]
      rw [hnprev, hmidprev]
    have hchain1 : seg (setNext s.mem p0 none) none s.head_ l' none midprev :=
      seg_setNext_last _ hp0 hnd' (hmid ▸ hseg1)
    have hchain2 : seg (hupd (setNext s.mem p0 none) t none) none s.head_ l'
        none midprev := seg_hupd htnotin hchain1
    rw [hlx, List.dropLast_concat]
    simp only [DLL.pop_back, if_neg h0, if_neg h1, htailt, hstep]
    constructor
    · exact hmidprev ▸ hchain2
    · rw [hmidprev] at *
      exact hp0.symm
    · rw [hw.size_eq, hlx]
      simp
    · exact hnd'
    · intro a ha
      exact hw.fresh_lt a (haddr ▸ List.mem_append_left _ ha)

/-- `pop_front` drops the first element of the chain (no-op when empty). -/
theorem DLL.wf_pop_front {T : Type} {s : DLL T} {l : List (Nat × T)} (hw : s.Wf l) :
    s.pop_front.Wf l.tail := by
  by_cases h0 : s.size_ = 0
  · have hl : l = [] := hw.size_zero_iff.mp h0
    subst hl
    simpa [DLL.pop_front, h0] using hw
  by_cases h1 : s.size_ = 1
  · have hlen : l.length = 1 := by rw [← hw.size_eq]; exact h1
    obtain ⟨x, hl⟩ := List.length_eq_one.mp hlen
    subst hl
    simp only [DLL.pop_front, if_neg h0, if_pos h1, List.tail_cons]
    constructor
    · exact ⟨rfl, rfl⟩
    · rfl
    · simp [h1]
    · exact List.nodup_nil
    · intro a ha; simp [addrs] at ha
  · have hlne : l ≠ [] := fun hl => h0 (hw.size_zero_iff.mpr hl)
    rcases hlx : l with _ | ⟨⟨hd, hv⟩, l'⟩
    · exact absurd hlx hlne
    have hlen2 : 2 ≤ l.length := by rw [← hw.size_eq]; omega
    have hl'ne : l' ≠ [] := by
      intro h
      rw [hlx, h] at hlen2
      simp at hlen2
    have hchain := hlx ▸ hw.chain
    rw [seg_cons] at hchain
    obtain ⟨hhd, n, hmemhd, hnv, hnprev, hrest⟩ := hchain
    rcases hcx : l' with _ | ⟨⟨c, cv⟩, l''⟩
    · exact absurd hcx hl'ne
    have hrest := hcx ▸ hrest
    have hnnext : n.next = some c := by
      have := seg_head hrest
      simpa [addrs, Option.or] using this
    have hstep : stepNext s.mem (some hd) = some c := by
      simp only [stepNext, dread, hmemhd]
      exact hnnext
    have haddr : addrs l = hd :: c :: addrs l'' := by
      rw [hlx, hcx]; rfl
    have hnd := hw.nodup
    rw [haddr] at hnd
    have hhdnotin : hd ∉ addrs ((c, cv) :: l'') := by
      have := (List.nodup_cons.mp hnd).1
      simpa [addrs] using this
    have hnd' : (addrs ((c, cv) :: l'')).Nodup := by
      have := (List.nodup_cons.mp hnd).2
      simpa [addrs] using this
    have hchain1 : seg (setPrev s.mem c none) none n.next ((c, cv) :: l'')
        none s.tail_ :=
      seg_setPrev_head _ (by simp [addrs]) hnd' hrest
    have hchain2 : seg (hupd (setPrev s.mem c none) hd none) none n.next
        ((c, cv) :: l'') none s.tail_ := seg_hupd hhdnotin hchain1
    rw [List.tail_cons]
    simp only [DLL.pop_front, if_neg h0, if_neg h1, hhd, hstep]
    constructor
    · rw [show (some c : Ptr) = n.next from hnnext.symm]
      exact hchain2
    · rw [hw.tail_eq, hlx, hcx]
      have : addrs ((hd, hv) :: (c, cv) :: l'') = hd :: addrs ((c, cv) :: l'') := rfl
      rw [this, getLast?_cons_ne _ (by simp [addrs])]
    · rw [hw.size_eq, hlx, hcx]
      simp
    · exact hnd'
    · intro a ha
      refine hw.fresh_lt a ?_
      rw [hlx]
      have : addrs ((hd, hv) :: l') = hd :: addrs l' := rfl
      rw [this]
      exact List.mem_cons_of_mem _ (hcx ▸ ha)


/-- Reading the value at chain position `i`. -/
theorem readVal_at {T : Type} {h : DHeap T} {l : List (Nat × T)} {prev p q qp : Ptr}
    (hs : seg h prev p l q qp) {i : Nat} (hi : i < l.length) :
    readVal h ((addrs l)[i]?) = (vals l)[i]? := by
  obtain ⟨a, n, ha, hn, hval, _, _⟩ := seg_lookup hs i hi
  rw [ha, hval]
  simp [readVal, dread, hn]

/-- `tail_` points at position `length - 1`. -/
theorem DLL.Wf.tail_getElem {T : Type} {s : DLL T} {l : List (Nat × T)} (hw : s.Wf l) :
    s.tail_ = (addrs l)[l.length - 1]? := by
  rw [hw.tail_eq, List.getLast?_eq_getElem?, addrs_length]

/-- `operator[]` returns the element at `index` of the abstract sequence,
whichever end it walks from. -/
theorem DLL.getConst_eq {T : Type} {s : DLL T} {l : List (Nat × T)} (hw : s.Wf l)
    {i : Nat} (hi : i < s.size_) : s.getConst i = (vals l)[i]? := by
  have hi' : i < l.length := by rw [← hw.size_eq]; exact hi
  unfold DLL.getConst
  split
  · rw [hw.tail_getElem]
    have hj : l.length - 1 < l.length := by omega
    have hk : s.size_ - 1 - i ≤ l.length - 1 := by rw [hw.size_eq]; omega
    rw [walkPrev_addr hw.chain _ _ hj hk]
    have : l.length - 1 - (s.size_ - 1 - i) = i := by rw [hw.size_eq]; omega
    rw [this]
    exact readVal_at hw.chain hi'
  · rw [walkNext_addr hw.chain i hi']
    exact readVal_at hw.chain hi'

/-- The forward-only walk also returns the element at `index`. -/
theorem DLL.getForwardOnly_eq {T : Type} {s : DLL T} {l : List (Nat × T)} (hw : s.Wf l)
    {i : Nat} (hi : i < s.size_) : s.getForwardOnly i = (vals l)[i]? := by
  have hi' : i < l.length := by rw [← hw.size_eq]; exact hi
  unfold DLL.getForwardOnly
  rw [walkNext_addr hw.chain i hi']
  exact readVal_at hw.chain hi'


/-- `insert` splices the new value in as the element at `index`. -/
theorem DLL.wf_insert {T : Type} {s : DLL T} {l : List (Nat × T)} (i : Nat) (v : T)
    (hw : s.Wf l) (hi : i ≤ s.size_) :
    (s.insert i v).Wf (l.take i ++ (s.fresh, v) :: l.drop i) := by
  by_cases hi0 : i = 0
  · subst hi0
    simp only [DLL.insert, if_pos hi, if_pos rfl, List.take_zero, List.drop_zero,
      List.nil_append]
    exact DLL.wf_push_front v hw
  by_cases hiN : i = s.size_
  · have htk : l.take i = l := by
      rw [hiN, hw.size_eq]
      exact List.take_length _
    have hdp : l.drop i = [] := by
      rw [hiN, hw.size_eq]
      exact List.drop_length _
    rw [htk, hdp]
    simp only [DLL.insert, if_pos hi, if_neg hi0, if_pos hiN]
    exact DLL.wf_push_back v hw
  · -- middle insertion
    have hilt : i < s.size_ := lt_of_le_of_ne hi hiN
    have hil : i < l.length := by rw [← hw.size_eq]; exact hilt
    obtain ⟨x, l₂, hdrop⟩ : ∃ x l₂, l.drop i = x :: l₂ := by
      rcases hd : l.drop i with _ | ⟨x, l₂⟩
      · have := List.drop_eq_nil_iff.mp hd
        omega
      · exact ⟨x, l₂, rfl⟩
    obtain ⟨c, cv⟩ := x
    set l₁ := l.take i with hl₁
    have hlsplit : l = l₁ ++ (c, cv) :: l₂ := by
      rw [hl₁, ← hdrop, List.take_append_drop]
    have hlen1 : l₁.length = i := by
      rw [hl₁]
      simp [List.length_take]
      omega
    have hlen1' : (addrs l₁).length = i := by rw [addrs_length]; exact hlen1
    have hl₁ne : l₁ ≠ [] := by
      intro h
      rw [h] at hlen1
      simp at hlen1
      omega
    have haddr : addrs l = addrs l₁ ++ c :: addrs l₂ := by
      rw [hlsplit, addrs_append]; rfl
    have hnd := hw.nodup
    rw [haddr] at hnd
    obtain ⟨hnd1, hnd2', hdisj⟩ := List.nodup_append.mp hnd
    have hcnotin1 : c ∉ addrs l₁ := fun h => hdisj h (List.mem_cons_self ..)
    have hcnotin2 : c ∉ addrs l₂ := (List.nodup_cons.mp hnd2').1
    have hnd2 : (addrs l₂).Nodup := (List.nodup_cons.mp hnd2').2
    -- split the chain
    have hchain := hlsplit ▸ hw.chain
    obtain ⟨mid, midprev, hseg1, hseg2⟩ := (seg_append l₁).mp hchain
    rw [seg_cons] at hseg2
    obtain ⟨hmid, cn, hmemc, hcv, hcprev, hrest⟩ := hseg2
    subst hmid
    -- the predecessor node
    have ha₁ne : addrs l₁ ≠ [] := by
      intro h
      rw [h] at hlen1'
      simp at hlen1'
      omega
    obtain ⟨pa, hpa⟩ : ∃ pa, (addrs l₁).getLast? = some pa := by
      rcases hgl : (addrs l₁).getLast? with _ | pa
      · exact absurd (List.getLast?_eq_none_iff.mp hgl) ha₁ne
      · exact ⟨pa, rfl⟩
    have hmidprev : midprev = some pa := by
      have := seg_last hseg1
      rw [hpa] at this
      simpa [Option.or] using this
    subst hmidprev
    have hpamem : pa ∈ addrs l₁ := List.mem_of_mem_getLast? (by simp [hpa])
    have hpac : pa ≠ c := fun h => hcnotin1 (h ▸ hpamem)
    have hpanotin2 : pa ∉ addrs l₂ := fun h => hdisj hpamem (List.mem_cons_of_mem _ h)
    -- freshness
    have hF1 : s.fresh ∉ addrs l := hw.fresh_notin
    have hFnotin1 : s.fresh ∉ addrs l₁ := fun h => hF1 (haddr ▸ List.mem_append_left _ h)
    have hFnotin2 : s.fresh ∉ addrs l₂ :=
      fun h => hF1 (haddr ▸ List.mem_append_right _ (List.mem_cons_of_mem _ h))
    have hcF : c ≠ s.fresh :=
      fun h => hF1 (haddr ▸ List.mem_append_right _ (h ▸ List.mem_cons_self ..))
    have hpaF : pa ≠ s.fresh := fun h => hFnotin1 (h ▸ hpamem)
    -- the traversal lands on `c`
    have hchain0 : seg (hupd s.mem s.fresh (some ⟨v, none, none⟩)) none s.head_ l
        none s.tail_ := seg_hupd hF1 hw.chain
    have hci : (addrs l)[i]? = some c := by
      rw [haddr, List.getElem?_append_right (le_of_eq hlen1'), hlen1']
      simp
    have hcur : (if s.size_ - 1 - i < i then
          walkPrev (hupd s.mem s.fresh (some ⟨v, none, none⟩)) (s.size_ - 1 - i) s.tail_
        else
          walkNext (hupd s.mem s.fresh (some ⟨v, none, none⟩)) i s.head_) = some c := by
      split
      · rw [hw.tail_getElem]
        have hj : l.length - 1 < l.length := by omega
        have hk : s.size_ - 1 - i ≤ l.length - 1 := by rw [hw.size_eq]; omega
        rw [walkPrev_addr hchain0 _ _ hj hk]
        have : l.length - 1 - (s.size_ - 1 - i) = i := by rw [hw.size_eq]; omega
        rw [this, hci]
      · rw [walkNext_addr hchain0 i hil, hci]
    have hmem0c : hupd s.mem s.fresh (some ⟨v, none, none⟩) c = some cn := by
      rw [hupd_ne _ _ hcF, hmemc]
    have hcprevpa : cn.previous = some pa := hcprev
    -- reduce the operation
    simp only [DLL.insert, if_pos hi, if_neg hi0, if_neg hiN, hcur, hmem0c, hcprevpa]
    rw [hdrop]
    -- abbreviations for the four heap stages
    set memA := hupd s.mem s.fresh (some ⟨v, none, none⟩) with hmemA
    set memB := setNext memA pa (some s.fresh) with hmemB
    set memC := hupd memB s.fresh (some ⟨v, some c, some pa⟩) with hmemC
    set memD := setPrev memC c (some s.fresh) with hmemD
    have hmemDF : memD s.fresh = some ⟨v, some c, some pa⟩ := by
      rw [hmemD, setPrev_ne _ _ (fun h => hcF h.symm), hmemC, hupd_same]
    have hmemCc : memC c = some cn := by
      rw [hmemC, hupd_ne _ _ hcF, hmemB, setNext_ne _ _ hpac.symm, hmemA, hupd_ne _ _ hcF,
        hmemc]
    have hmemDc : memD c = some { cn with previous := some s.fresh } := by
      rw [hmemD]
      exact setPrev_same _ hmemCc
    have hl₂frame : ∀ b ∈ addrs l₂, memD b = s.mem b := by
      intro b hb
      have hbc : b ≠ c := fun h => hcnotin2 (h ▸ hb)
      have hbF : b ≠ s.fresh := fun h => hFnotin2 (h ▸ hb)
      have hbpa : b ≠ pa := fun h => hpanotin2 (h ▸ hb)
      rw [hmemD, setPrev_ne _ _ hbc, hmemC, hupd_ne _ _ hbF, hmemB, setNext_ne _ _ hbpa,
        hmemA, hupd_ne _ _ hbF]
    constructor
    · refine (seg_append l₁).mpr ⟨some s.fresh, some pa, ?_, ?_⟩
      · -- prefix chain now exits to the fresh node
        have h1 : seg memA none s.head_ l₁ (some c) (some pa) := seg_hupd hFnotin1 hseg1
        have h2 : seg memB none s.head_ l₁ (some s.fresh) (some pa) :=
          seg_setNext_last _ hpa hnd1 h1
        have h3 : seg memC none s.head_ l₁ (some s.fresh) (some pa) :=
          seg_hupd hFnotin1 h2
        exact seg_setPrev _ hcnotin1 h3
      · refine seg_cons.mpr ⟨rfl, ⟨v, some c, some pa⟩, hmemDF, rfl, rfl, ?_⟩
        refine seg_cons.mpr ⟨rfl, { cn with previous := some s.fresh }, hmemDc, hcv, rfl, ?_⟩
        exact seg_congr hl₂frame hrest
    · rw [hw.tail_eq, haddr]
      have hr : addrs (l₁ ++ (s.fresh, v) :: (c, cv) :: l₂) =
          addrs l₁ ++ s.fresh :: c :: addrs l₂ := by
        rw [addrs_append]; rfl
      rw [hr, List.getLast?_append_of_ne_nil _ (by simp),
        List.getLast?_append_of_ne_nil _ (by simp), List.getLast?_cons_cons]
    · have : (l₁ ++ (s.fresh, v) :: (c, cv) :: l₂).length = l₁.length + l₂.length + 2 := by
        simp
        omega
      rw [this, hw.size_eq, hlsplit]
      simp
      omega
    · have hr : addrs (l₁ ++ (s.fresh, v) :: (c, cv) :: l₂) =
          addrs l₁ ++ s.fresh :: c :: addrs l₂ := by
        rw [addrs_append]; rfl
      rw [hr]
      refine List.nodup_append.mpr ⟨hnd1, ?_, ?_⟩
      · refine List.nodup_cons.mpr ⟨?_, hnd2'⟩
        intro hmem
        rcases List.mem_cons.mp hmem with h | h
        · exact hcF h.symm
        · exact hFnotin2 h
      · intro b hb hmem
        rcases List.mem_cons.mp hmem with h | h
        · exact hFnotin1 (h ▸ hb)
        · exact hdisj hb h
    · intro b hb
      show b < s.fresh + 1
      have hr : addrs (l₁ ++ (s.fresh, v) :: (c, cv) :: l₂) =
          addrs l₁ ++ s.fresh :: c :: addrs l₂ := by
        rw [addrs_append]; rfl
      rw [hr] at hb
      rcases List.mem_append.mp hb with h | h
      · have := hw.fresh_lt b (haddr ▸ List.mem_append_left _ h)
        omega
      · rcases List.mem_cons.mp h with h | h
        · omega
        · have := hw.fresh_lt b (haddr ▸ List.mem_append_right _ h)
          omega


/-- `remove` deletes the element at `index` from the chain. -/
theorem DLL.wf_remove {T : Type} {s : DLL T} {l : List (Nat × T)} (i : Nat)
    (hw : s.Wf l) (hilt : i < s.size_) :
    (s.remove i).Wf (l.take i ++ l.drop (i + 1)) := by
  by_cases hi0 : i = 0
  · subst hi0
    simp only [DLL.remove, if_pos hilt, if_pos rfl, List.take_zero, List.nil_append,
      Nat.zero_add, List.drop_one]
    exact DLL.wf_pop_front hw
  by_cases hiN : i = s.size_ - 1
  · have hdp : l.drop (i + 1) = [] := by
      apply List.drop_eq_nil_iff.mpr
      rw [← hw.size_eq]
      omega
    have htk : l.take i = l.dropLast := by
      rw [List.dropLast_eq_take, ← hw.size_eq, hiN]
    rw [htk, hdp, List.append_nil]
    simp only [DLL.remove, if_pos hilt, if_neg hi0, if_pos hiN]
    exact DLL.wf_pop_back hw
  · -- middle removal
    have hil : i < l.length := by rw [← hw.size_eq]; exact hilt
    have hi1 : i + 1 < l.length := by rw [← hw.size_eq]; omega
    obtain ⟨x, l₂, hdrop⟩ : ∃ x l₂, l.drop i = x :: l₂ := by
      rcases hd : l.drop i with _ | ⟨x, l₂⟩
      · have := List.drop_eq_nil_iff.mp hd
        omega
      · exact ⟨x, l₂, rfl⟩
    obtain ⟨c, cv⟩ := x
    have hdrop1 : l.drop (i + 1) = l₂ := by
      rw [← List.tail_drop, hdrop, List.tail_cons]
    have hl₂ne : l₂ ≠ [] := by
      intro h
      have := congrArg List.length hdrop1
      rw [h, List.length_drop] at this
      simp at this
      omega
    rcases hl₂x : l₂ with _ | ⟨⟨na, nv⟩, l₂'⟩
    · exact absurd hl₂x hl₂ne
    rw [hl₂x] at hdrop hdrop1
    have hlsplit : l = l.take i ++ (c, cv) :: (na, nv) :: l₂' := by
      rw [← hdrop, List.take_append_drop]
    have hlen1 : (l.take i).length = i := by
      simp [List.length_take]
      omega
    have hlen1' : (addrs (l.take i)).length = i := by rw [addrs_length]; exact hlen1
    have ha₁ne : addrs (l.take i) ≠ [] := by
      intro h
      have := congrArg List.length h
      rw [hlen1'] at this
      simp at this
      omega
    have haddr : addrs l = addrs (l.take i) ++ c :: na :: addrs l₂' := by
      conv_lhs => rw [hlsplit]
      rw [addrs_append]; rfl
    have hnd := hw.nodup
    rw [haddr] at hnd
    obtain ⟨hnd1, hnd2', hdisj⟩ := List.nodup_append.mp hnd
    have hcnotin1 : c ∉ addrs (l.take i) := fun h => hdisj h (List.mem_cons_self ..)
    have hnanotin1 : na ∉ addrs (l.take i) :=
      fun h => hdisj h (List.mem_cons_of_mem _ (List.mem_cons_self ..))
    have hcna : c ≠ na := fun h => (List.nodup_cons.mp hnd2').1 (h ▸ List.mem_cons_self ..)
    have hcnotin2 : c ∉ addrs l₂' :=
      fun h => (List.nodup_cons.mp hnd2').1 (List.mem_cons_of_mem _ h)
    have hnanotin2 : na ∉ addrs l₂' :=
      (List.nodup_cons.mp (List.nodup_cons.mp hnd2').2).1
    have hnd2'' : (addrs l₂').Nodup := (List.nodup_cons.mp (List.nodup_cons.mp hnd2').2).2
    -- split the chain
    have hchain := hlsplit ▸ hw.chain
    obtain ⟨mid, midprev, hseg1, hseg2⟩ := (seg_append (l.take i)).mp hchain
    rw [seg_cons] at hseg2
    obtain ⟨hmid, cn, hmemc, hcv, hcprev, hrest⟩ := hseg2
    subst hmid
    rw [seg_cons] at hrest
    obtain ⟨hcnext, nn, hmemna, hnv, hnprev, hrest'⟩ := hrest
    obtain ⟨pa, hpa⟩ : ∃ pa, (addrs (l.take i)).getLast? = some pa := by
      rcases hgl : (addrs (l.take i)).getLast? with _ | pa
      · exact absurd (List.getLast?_eq_none_iff.mp hgl) ha₁ne
      · exact ⟨pa, rfl⟩
    have hmidprev : midprev = some pa := by
      have := seg_last hseg1
      rw [hpa] at this
      simpa [Option.or] using this
    subst hmidprev
    have hpamem : pa ∈ addrs (l.take i) := List.mem_of_mem_getLast? (by simp [hpa])
    have hpac : pa ≠ c := fun h => hcnotin1 (h ▸ hpamem)
    have hpana : pa ≠ na := fun h => hnanotin1 (h ▸ hpamem)
    have hpanotin2 : pa ∉ addrs l₂' :=
      fun h => hdisj hpamem (List.mem_cons_of_mem _ (List.mem_cons_of_mem _ h))
    -- the traversal lands on `c`
    have hci : (addrs l)[i]? = some c := by
      rw [haddr, List.getElem?_append_right (le_of_eq hlen1'), hlen1']
      simp
    have hcur : (if s.size_ - 1 - i < i then
          walkPrev s.mem (s.size_ - 1 - i) s.tail_
        else
          walkNext s.mem i s.head_) = some c := by
      split
      · rw [hw.tail_getElem]
        have hj : l.length - 1 < l.length := by omega
        have hk : s.size_ - 1 - i ≤ l.length - 1 := by rw [hw.size_eq]; omega
        rw [walkPrev_addr hw.chain _ _ hj hk]
        have : l.length - 1 - (s.size_ - 1 - i) = i := by rw [hw.size_eq]; omega
        rw [this, hci]
      · rw [walkNext_addr hw.chain i hil, hci]
    -- reduce the operation
    simp only [DLL.remove, if_pos hilt, if_neg hi0, if_neg hiN, hcur, hmemc, hcprev,
      hcnext]
    rw [hdrop1]
    set mem1 := setNext s.mem pa (some na) with hmem1
    set mem2 := setPrev mem1 na (some pa) with hmem2
    set memF := hupd mem2 c none with hmemF
    have hmem1na : mem1 na = some nn := by
      rw [hmem1, setNext_ne _ _ (fun h => hpana h.symm), hmemna]
    have hmemFna : memF na = some { nn with previous := some pa } := by
      rw [hmemF, hupd_ne _ _ hcna.symm, hmem2]
      exact setPrev_same _ hmem1na
    have hl₂frame : ∀ b ∈ addrs l₂', memF b = s.mem b := by
      intro b hb
      have hbc : b ≠ c := fun h => hcnotin2 (h ▸ hb)
      have hbna : b ≠ na := fun h => hnanotin2 (h ▸ hb)
      have hbpa : b ≠ pa := fun h => hpanotin2 (h ▸ hb)
      rw [hmemF, hupd_ne _ _ hbc, hmem2, setPrev_ne _ _ hbna, hmem1, setNext_ne _ _ hbpa]
    constructor
    · refine (seg_append (l.take i)).mpr ⟨some na, some pa, ?_, ?_⟩
      · have h1 : seg mem1 none s.head_ (l.take i) (some na) (some pa) :=
          seg_setNext_last _ hpa hnd1 hseg1
        have h2 : seg mem2 none s.head_ (l.take i) (some na) (some pa) :=
          seg_setPrev _ hnanotin1 h1
        exact seg_hupd hcnotin1 h2
      · refine seg_cons.mpr ⟨rfl, { nn with previous := some pa },
          hmemFna, hnv, rfl, ?_⟩
        exact seg_congr hl₂frame hrest'
    · show s.tail_ = _
      rw [hw.tail_eq]
      conv_lhs => rw [haddr]
      have hr : addrs (l.take i ++ (na, nv) :: l₂') =
          addrs (l.take i) ++ na :: addrs l₂' := by
        rw [addrs_append]; rfl
      rw [hr, List.getLast?_append_of_ne_nil _ (by simp),
        List.getLast?_append_of_ne_nil _ (by simp), List.getLast?_cons_cons]
    · show s.size_ - 1 = _
      have hlen : (l.take i ++ (na, nv) :: l₂').length = i + l₂'.length + 1 := by
        simp [hlen1]
        omega
      rw [hlen, hw.size_eq]
      conv_lhs => rw [hlsplit]
      simp
      omega
    · have hr : addrs (l.take i ++ (na, nv) :: l₂') =
          addrs (l.take i) ++ na :: addrs l₂' := by
        rw [addrs_append]; rfl
      rw [hr]
      refine List.nodup_append.mpr ⟨hnd1, ?_, ?_⟩
      · exact List.nodup_cons.mpr ⟨hnanotin2, hnd2''⟩
      · intro b hb hmem
        rcases List.mem_cons.mp hmem with h | h
        · exact hnanotin1 (h ▸ hb)
        · exact hdisj hb (List.mem_cons_of_mem _ (List.mem_cons_of_mem _ h))
    · intro b hb
      show b < s.fresh
      refine hw.fresh_lt b ?_
      have hr : addrs (l.take i ++ (na, nv) :: l₂') =
          addrs (l.take i) ++ na :: addrs l₂' := by
        rw [addrs_append]; rfl
      rw [hr] at hb
      rw [haddr]
      rcases List.mem_append.mp hb with h | h
      · exact List.mem_append_left _ h
      · rcases List.mem_cons.mp h with h | h
        · exact List.mem_append_right _ (h ▸ List.mem_cons_of_mem _ (List.mem_cons_self ..))
        · exact List.mem_append_right _
            (List.mem_cons_of_mem _ (List.mem_cons_of_mem _ h))


/-- `clear` restores the empty invariant. -/
theorem DLL.wf_clear {T : Type} {s : DLL T} {l : List (Nat × T)} (hw : s.Wf l) :
    s.clear.Wf [] := by
  by_cases h0 : s.size_ = 0
  · have hl : l = [] := hw.size_zero_iff.mp h0
    subst hl
    simpa [DLL.clear, h0] using hw
  · simp only [DLL.clear, if_neg h0]
    constructor
    · exact ⟨rfl, rfl⟩
    · rfl
    · rfl
    · exact List.nodup_nil
    · intro a ha; simp [addrs] at ha

/-- The move constructor transfers the chain and empties the source. -/
theorem DLL.wf_moveCtor {T : Type} {other : DLL T} {l : List (Nat × T)}
    (hw : other.Wf l) :
    (DLL.moveCtor other).1.Wf l ∧ (DLL.moveCtor other).2.Wf [] := by
  constructor
  · exact ⟨hw.chain, hw.tail_eq, hw.size_eq, hw.nodup, hw.fresh_lt⟩
  · constructor
    · exact ⟨rfl, rfl⟩
    · rfl
    · rfl
    · exact List.nodup_nil
    · intro a ha; simp [addrs] at ha

/-- Move assignment transfers the chain and empties the source. -/
theorem DLL.wf_moveAssign {T : Type} {s other : DLL T} {l : List (Nat × T)}
    (hw : other.Wf l) :
    (DLL.moveAssign s other).1.Wf l ∧ (DLL.moveAssign s other).2.Wf [] := by
  constructor
  · exact ⟨hw.chain, hw.tail_eq, hw.size_eq, hw.nodup, hw.fresh_lt⟩
  · constructor
    · exact ⟨rfl, rfl⟩
    · rfl
    · rfl
    · exact List.nodup_nil
    · intro a ha; simp [addrs] at ha

/-- Invariant of the deep-copy loop: cloning the remaining source suffix
appends freshly addressed copies of its values to the chain built so far. -/
theorem cloneLoop_spec {T : Type} (omem : DHeap T) :
    ∀ (rest : List (Nat × T)) (fuel : Nat) {ocur : Nat} {v : T} {oprev qp : Ptr}
      (_ : seg omem oprev (some ocur) ((ocur, v) :: rest) none qp)
      (_ : rest.length ≤ fuel)
      {mem : DHeap T} {hd : Ptr} {built : List (Nat × T)} {cur fr : Nat}
      (_ : seg mem none hd built none (some cur))
      (_ : (addrs built).getLast? = some cur)
      (_ : (addrs built).Nodup)
      (_ : ∀ a ∈ addrs built, a < fr),
      ∃ lnew mem' cur',
        cloneLoop omem fuel mem fr cur ocur = (mem', fr + rest.length, cur') ∧
        vals lnew = vals rest ∧
        (∀ a ∈ addrs lnew, fr ≤ a ∧ a < fr + rest.length) ∧
        (addrs lnew).Nodup ∧
        seg mem' none hd (built ++ lnew) none (some cur') ∧
        (addrs (built ++ lnew)).getLast? = some cur' := by
  intro rest
  induction rest with
  | nil =>
    intro fuel ocur v oprev qp hsrc _ mem hd built cur fr hdst hlast hnd hbnd
    rw [seg_cons] at hsrc
    obtain ⟨_, onode, homem, _, _, hrest⟩ := hsrc
    obtain ⟨honext, _⟩ := hrest
    refine ⟨[], mem, cur, ?_, rfl, by simp [addrs], by simp [addrs], ?_, ?_⟩
    · cases fuel with
      | zero => simp [cloneLoop]
      | succ f => simp [cloneLoop, homem, honext]
    · simpa using hdst
    · simpa using hlast
  | cons y rest ih =>
    intro fuel ocur v oprev qp hsrc hfuel mem hd built cur fr hdst hlast hnd hbnd
    obtain ⟨ob, bv⟩ := y
    cases fuel with
    | zero => simp at hfuel
    | succ f =>
      rw [seg_cons] at hsrc
      obtain ⟨_, onode, homem, _, _, hrest⟩ := hsrc
      have honext : onode.next = some ob := by
        have := seg_head hrest
        simpa [addrs, Option.or] using this
      have hsrc' : seg omem (some ocur) (some ob) ((ob, bv) :: rest) none qp :=
        honext ▸ hrest
      obtain ⟨_, obn, homemb, hbval, -, -⟩ := seg_cons.mp hsrc'
      subst hbval
      -- one iteration of the loop body
      have hcurmem : cur ∈ addrs built := List.mem_of_mem_getLast? (by simp [hlast])
      have hcurfr : cur < fr := hbnd cur hcurmem
      have hfrnotin : fr ∉ addrs built := fun h => absurd (hbnd fr h) (lt_irrefl _)
      have hdst1 : seg (hupd mem fr (some ⟨obn.value, none, some cur⟩)) none hd built none
          (some cur) := seg_hupd hfrnotin hdst
      have hdst2 : seg (setNext (hupd mem fr (some ⟨obn.value, none, some cur⟩)) cur (some fr))
          none hd built (some fr) (some cur) := seg_setNext_last _ hlast hnd hdst1
      have hmemfr : setNext (hupd mem fr (some ⟨obn.value, none, some cur⟩)) cur (some fr) fr =
          some ⟨obn.value, none, some cur⟩ := by
        rw [setNext_ne _ _ (Nat.ne_of_gt hcurfr), hupd_same]
      have hdst3 : seg (setNext (hupd mem fr (some ⟨obn.value, none, some cur⟩)) cur (some fr))
          none hd (built ++ [(fr, obn.value)]) none (some fr) := by
        refine (seg_append built).mpr ⟨some fr, some cur, hdst2, ?_⟩
        exact seg_cons.mpr ⟨rfl, ⟨obn.value, none, some cur⟩, hmemfr, rfl, rfl, rfl, rfl⟩
      have hlast' : (addrs (built ++ [(fr, obn.value)])).getLast? = some fr := by
        rw [addrs_append]
        rw [List.getLast?_append_of_ne_nil _ (by simp [addrs])]
        simp [addrs]
      have hnd' : (addrs (built ++ [(fr, obn.value)])).Nodup := by
        rw [addrs_append]
        refine List.nodup_append.mpr ⟨hnd, by simp [addrs], ?_⟩
        intro b hb hmem
        simp [addrs] at hmem
        exact hfrnotin (hmem ▸ hb)
      have hbnd' : ∀ a ∈ addrs (built ++ [(fr, obn.value)]), a < fr + 1 := by
        intro a ha
        rw [addrs_append] at ha
        rcases List.mem_append.mp ha with h | h
        · exact Nat.lt_succ_of_lt (hbnd a h)
        · simp [addrs] at h
          omega
      obtain ⟨lnew, mem', cur', heq, hvals, hbnds, hndnew, hseg, hlastnew⟩ :=
        ih f hsrc' (by simpa using hfuel) hdst3 hlast' hnd' hbnd'
      refine ⟨(fr, obn.value) :: lnew, mem', cur', ?_, ?_, ?_, ?_, ?_, ?_⟩
      · show cloneLoop omem (f + 1) mem fr cur ocur = _
        simp only [cloneLoop, homem, honext, homemb]
        rw [heq]
        have harith : fr + 1 + rest.length = fr + (rest.length + 1) := by omega
        rw [harith]
        rfl
      · simp [vals] at hvals ⊢
        exact hvals
      · intro a ha
        have : addrs ((fr, obn.value) :: lnew) = fr :: addrs lnew := rfl
        rw [this] at ha
        rcases List.mem_cons.mp ha with h | h
        · subst h
          constructor
          · exact le_refl _
          · simp
        · obtain ⟨h1, h2⟩ := hbnds a h
          constructor
          · omega
          · simp only [List.length_cons]
            omega
      · have : addrs ((fr, obn.value) :: lnew) = fr :: addrs lnew := rfl
        rw [this]
        refine List.nodup_cons.mpr ⟨?_, hndnew⟩
        intro hmem
        have := (hbnds fr hmem).1
        omega
      · have hassoc : built ++ (fr, obn.value) :: lnew = (built ++ [(fr, obn.value)]) ++ lnew := by
          simp
        rw [hassoc]
        exact hseg
      · have hassoc : built ++ (fr, obn.value) :: lnew = (built ++ [(fr, obn.value)]) ++ lnew := by
          simp
        rw [hassoc]
        exact hlastnew


/-- The deep copy produces a well-formed list with the same value sequence. -/
theorem DLL.wf_cloneInto {T : Type} {dst other : DLL T} {l : List (Nat × T)}
    (hw : other.Wf l) (hdh : dst.head_ = none) (hdt : dst.tail_ = none) :
    ∃ l', (DLL.cloneInto dst other).Wf l' ∧ vals l' = vals l := by
  rcases l with _ | ⟨⟨oh0, v0⟩, rest⟩
  · have hsz : other.size_ = 0 := hw.size_zero_iff.mpr rfl
    refine ⟨[], ?_, rfl⟩
    simp only [DLL.cloneInto, if_pos hsz]
    constructor
    · exact ⟨hdh, hdt.symm⟩
    · exact hdt
    · simp [hsz]
    · exact List.nodup_nil
    · intro a ha; simp [addrs] at ha
  · have hsz : other.size_ ≠ 0 := by
      rw [hw.size_eq]; simp
    have hhd : other.head_ = some oh0 := by
      simpa [addrs] using hw.head_eq
    have hchain := hw.chain
    rw [hhd, seg_cons] at hchain
    obtain ⟨-, n0, hmem0, hval0, -, -⟩ := hchain
    have hsrc : seg other.mem none (some oh0) ((oh0, v0) :: rest) none other.tail_ := by
      rw [← hhd]
      exact hw.chain
    subst hval0
    have hdst : seg (hupd dst.mem dst.fresh (some ⟨n0.value, none, none⟩)) none
        (some dst.fresh) [(dst.fresh, n0.value)] none (some dst.fresh) := by
      refine seg_cons.mpr ⟨rfl, ⟨n0.value, none, none⟩, hupd_same .., rfl, rfl, rfl, rfl⟩
    have hfuel : rest.length ≤ other.size_ := by
      rw [hw.size_eq]; simp
    have hbnd0 : ∀ a ∈ addrs [(dst.fresh, n0.value)], a < dst.fresh + 1 := by
      intro a ha
      simp [addrs] at ha
      omega
    obtain ⟨lnew, mem', cur', heq, hvals, hbnds, hndnew, hseg, hlastnew⟩ :=
      cloneLoop_spec other.mem rest other.size_ hsrc hfuel hdst
        (by simp [addrs]) (by simp [addrs]) hbnd0
    refine ⟨(dst.fresh, n0.value) :: lnew, ?_, ?_⟩
    · have hlen : lnew.length = rest.length := by
        have := congrArg List.length hvals
        simpa [vals] using this
      simp only [DLL.cloneInto, if_neg hsz, hhd, hmem0]
      rw [heq]
      constructor
      · simpa using hseg
      · exact (by simpa using hlastnew : _ = some cur').symm
      · show other.size_ = _
        rw [hw.size_eq]
        simp [hlen]
      · have : addrs ((dst.fresh, n0.value) :: lnew) = dst.fresh :: addrs lnew := rfl
        rw [this]
        refine List.nodup_cons.mpr ⟨?_, hndnew⟩
        intro hmem
        have := (hbnds _ hmem).1
        omega
      · intro a ha
        show a < dst.fresh + 1 + rest.length
        have : addrs ((dst.fresh, n0.value) :: lnew) = dst.fresh :: addrs lnew := rfl
        rw [this] at ha
        rcases List.mem_cons.mp ha with h | h
        · omega
        · have := (hbnds a h).2
          omega
    · simp [vals] at hvals ⊢
      exact hvals

/-- The copy constructor yields a well-formed deep copy. -/
theorem DLL.wf_copyCtor {T : Type} {other : DLL T} {l : List (Nat × T)}
    (hw : other.Wf l) :
    ∃ l', (DLL.copyCtor other).Wf l' ∧ vals l' = vals l :=
  DLL.wf_cloneInto hw rfl rfl

/-- Copy assignment yields a well-formed deep copy. -/
theorem DLL.wf_copyAssign {T : Type} {s other : DLL T} {ls l : List (Nat × T)}
    (hws : s.Wf ls) (hw : other.Wf l) :
    ∃ l', (DLL.copyAssign s other).Wf l' ∧ vals l' = vals l := by
  refine DLL.wf_cloneInto hw ?_ ?_
  · by_cases h0 : s.size_ = 0
    · have hl : ls = [] := hws.size_zero_iff.mp h0
      subst hl
      simp only [DLL.clear, if_pos h0]
      simpa [addrs] using hws.head_eq
    · simp [DLL.clear, if_neg h0]
  · by_cases h0 : s.size_ = 0
    · have hl : ls = [] := hws.size_zero_iff.mp h0
      subst hl
      simp only [DLL.clear, if_pos h0]
      simpa [addrs] using hws.tail_eq
    · simp [DLL.clear, if_neg h0]


theorem SLL.Wf.fresh_notin_s {T : Type} {s : SLL T} {l : List (Nat × T)} (hw : s.Wf l) :
    s.fresh ∉ addrs l :=
  fun hmem => absurd (hw.fresh_lt _ hmem) (lt_irrefl _)

theorem SLL.Wf.size_zero_iff_s {T : Type} {s : SLL T} {l : List (Nat × T)} (hw : s.Wf l) :
    s.size_ = 0 ↔ l = [] := by
  rw [hw.size_eq, List.length_eq_zero]

theorem SLL.Wf.head_eq_s {T : Type} {s : SLL T} {l : List (Nat × T)} (hw : s.Wf l) :
    s.head_ = (addrs l).head? := by
  have := sseg_head hw.chain
  rcases hh : (addrs l).head? with _ | a
  · rw [hh] at this; simpa [Option.or] using this
  · rw [hh] at this; simpa [Option.or] using this

theorem SLL.Wf.tail_getElem_s {T : Type} {s : SLL T} {l : List (Nat × T)} (hw : s.Wf l) :
    s.tail_ = (addrs l)[l.length - 1]? := by
  rw [hw.tail_eq, List.getLast?_eq_getElem?, addrs_length]

/-- The empty singly-linked list is well-formed. -/
theorem SLL.wf_empty_s {T : Type} : (SLL.empty : SLL T).Wf [] := by
  constructor
  · exact rfl
  · rfl
  · rfl
  · exact List.nodup_nil
  · intro a ha; simp [addrs] at ha

/-- `push_back` appends its value to the chain. -/
theorem SLL.wf_push_back_s {T : Type} {s : SLL T} {l : List (Nat × T)} (v : T)
    (hw : s.Wf l) : (s.push_back v).Wf (l ++ [(s.fresh, v)]) := by
  rcases l with _ | ⟨x, l0⟩
  · have hsz : s.size_ = 0 := hw.size_zero_iff_s.mpr rfl
    constructor
    · simp only [SLL.push_back, hsz]
      exact sseg_cons.mpr ⟨rfl, ⟨v, none⟩, hupd_same .., rfl, rfl⟩
    · simp [SLL.push_back, addrs]
    · simp [SLL.push_back, hw.size_eq]
    · simp [addrs]
    · intro a ha
      simp only [SLL.push_back]
      simp [addrs] at ha
      omega
  · set l := x :: l0 with hl
    have hlne : l ≠ [] := by simp [hl]
    have hsz : s.size_ ≠ 0 := fun h0 => hlne (hw.size_zero_iff_s.mp h0)
    have hane : addrs l ≠ [] := by simp [hl, addrs]
    obtain ⟨t, ht⟩ : ∃ t, (addrs l).getLast? = some t := by
      rcases hgl : (addrs l).getLast? with _ | t
      · exact absurd (List.getLast?_eq_none_iff.mp hgl) hane
      · exact ⟨t, rfl⟩
    have htl : s.tail_ = some t := hw.tail_eq.trans ht
    have htmem : t ∈ addrs l := List.mem_of_mem_getLast? (by simp [ht])
    have hfa : s.fresh ∉ addrs l := hw.fresh_notin_s
    have hta : t ≠ s.fresh := fun hts => hfa (hts ▸ htmem)
    have hchain1 : sseg (hupd s.mem s.fresh (some ⟨v, none⟩)) s.head_ l none :=
      sseg_hupd hfa hw.chain
    have hchain2 : sseg (ssetNext (hupd s.mem s.fresh (some ⟨v, none⟩)) t
        (some s.fresh)) s.head_ l (some s.fresh) :=
      sseg_ssetNext_last _ ht hw.nodup hchain1
    have hmema : ssetNext (hupd s.mem s.fresh (some ⟨v, none⟩)) t (some s.fresh)
        s.fresh = some ⟨v, none⟩ := by
      rw [ssetNext_ne _ _ (fun hst => hta hst.symm), hupd_same]
    constructor
    · simp only [SLL.push_back, if_pos hsz]
      refine (sseg_append l).mpr ⟨some s.fresh, ?_, ?_⟩
      · simpa [ssetNextOpt, htl] using hchain2
      · refine sseg_cons.mpr ⟨rfl, ⟨v, none⟩, ?_, rfl, rfl⟩
        simpa [ssetNextOpt, htl] using hmema
    · simp [SLL.push_back, addrs_append, addrs]
    · simp [SLL.push_back, hw.size_eq]
    · rw [addrs_append]
      refine List.Nodup.append hw.nodup (by simp [addrs]) ?_
      intro a ha hb
      simp [addrs] at hb
      exact hfa (hb ▸ ha)
    · intro a ha
      simp only [SLL.push_back]
      rw [addrs_append] at ha
      rcases List.mem_append.mp ha with h1 | h2
      · exact Nat.lt_succ_of_lt (hw.fresh_lt a h1)
      · simp [addrs] at h2
        omega

/-- `push_front` prepends its value to the chain. -/
theorem SLL.wf_push_front_s {T : Type} {s : SLL T} {l : List (Nat × T)} (v : T)
    (hw : s.Wf l) : (s.push_front v).Wf ((s.fresh, v) :: l) := by
  have hfa : s.fresh ∉ addrs l := hw.fresh_notin_s
  constructor
  · simp only [SLL.push_front]
    refine sseg_cons.mpr ⟨rfl, ⟨v, s.head_⟩, hupd_same .., rfl, ?_⟩
    exact sseg_hupd hfa hw.chain
  · simp only [SLL.push_front]
    by_cases h0 : s.size_ = 0
    · have hl : l = [] := hw.size_zero_iff_s.mp h0
      subst hl
      rw [if_pos h0]
      simp [addrs]
    · have hlne : l ≠ [] := fun hl => h0 (hw.size_zero_iff_s.mpr hl)
      have hane : addrs l ≠ [] := by
        intro h
        have := addrs_length l
        rw [h] at this
        exact hlne (List.length_eq_zero.mp this.symm)
      rw [if_neg h0, hw.tail_eq]
      have : addrs ((s.fresh, v) :: l) = s.fresh :: addrs l := rfl
      rw [this, getLast?_cons_ne _ hane]
  · simp [SLL.push_front, hw.size_eq]
  · have : addrs ((s.fresh, v) :: l) = s.fresh :: addrs l := rfl
    rw [this, List.nodup_cons]
    exact ⟨hfa, hw.nodup⟩
  · intro a ha
    simp only [SLL.push_front]
    have : addrs ((s.fresh, v) :: l) = s.fresh :: addrs l := rfl
    rw [this] at ha
    rcases List.mem_cons.mp ha with h1 | h2
    · omega
    · exact Nat.lt_succ_of_lt (hw.fresh_lt a h2)

/-- `pop_front` drops the first element of the chain (no-op when empty). -/
theorem SLL.wf_pop_front_s {T : Type} {s : SLL T} {l : List (Nat × T)} (hw : s.Wf l) :
    s.pop_front.Wf l.tail := by
  by_cases h0 : s.size_ = 0
  · have hl : l = [] := hw.size_zero_iff_s.mp h0
    subst hl
    simpa [SLL.pop_front, h0] using hw
  · have hlne : l ≠ [] := fun hl => h0 (hw.size_zero_iff_s.mpr hl)
    rcases hlx : l with _ | ⟨⟨hd, hv⟩, l'⟩
    · exact absurd hlx hlne
    have hchain := hlx ▸ hw.chain
    rw [sseg_cons] at hchain
    obtain ⟨hhd, n, hmemhd, hnv, hrest⟩ := hchain
    have hhdnotin : hd ∉ addrs l' := by
      have := hw.nodup
      rw [hlx] at this
      have h2 : addrs ((hd, hv) :: l') = hd :: addrs l' := rfl
      rw [h2] at this
      exact (List.nodup_cons.mp this).1
    have hnd' : (addrs l').Nodup := by
      have := hw.nodup
      rw [hlx] at this
      have h2 : addrs ((hd, hv) :: l') = hd :: addrs l' := rfl
      rw [h2] at this
      exact (List.nodup_cons.mp this).2
    rw [List.tail_cons]
    simp only [SLL.pop_front, if_neg h0, hhd, hmemhd]
    constructor
    · exact sseg_hupd hhdnotin hrest
    · by_cases h1 : s.size_ = 1
      · have hlen : l.length = 1 := by rw [← hw.size_eq]; exact h1
        rw [hlx] at hlen
        simp at hlen
        subst hlen
        rw [if_pos h1]
        simp [addrs]
      · rw [if_neg h1, hw.tail_eq, hlx]
        have h2 : addrs ((hd, hv) :: l') = hd :: addrs l' := rfl
        rw [h2]
        have hl'ne : l' ≠ [] := by
          intro h
          rw [hlx, h] at hw
          have := hw.size_eq
          simp at this
          exact h1 this
        have hane : addrs l' ≠ [] := by
          intro h
          have := addrs_length l'
          rw [h] at this
          exact hl'ne (List.length_eq_zero.mp this.symm)
        rw [getLast?_cons_ne _ hane]
    · rw [hw.size_eq, hlx]
      simp
    · exact hnd'
    · intro a ha
      refine hw.fresh_lt a ?_
      rw [hlx]
      have h2 : addrs ((hd, hv) :: l') = hd :: addrs l' := rfl
      rw [h2]
      exact List.mem_cons_of_mem _ ha

/-- `operator[]` on the singly-linked list returns the element at `index`. -/
theorem SLL.getConst_eq_s {T : Type} {s : SLL T} {l : List (Nat × T)} (hw : s.Wf l)
    {i : Nat} (hi : i < s.size_) : s.getConst i = (vals l)[i]? := by
  have hi' : i < l.length := by rw [← hw.size_eq]; exact hi
  unfold SLL.getConst
  rw [swalkNext_addr hw.chain i hi']
  obtain ⟨a, n, ha, hn, hval, _⟩ := sseg_lookup hw.chain i hi'
  rw [ha, hval]
  simp [sreadVal, sread, hn]


/-- The `pop_back` scan finds the predecessor of the tail: starting anywhere
on the chain before the last node, it returns the last address before the
tail node. -/
theorem findPrevTail_spec {T : Type} {h : SHeap T} :
    ∀ {l' : List (Nat × T)} {t : Nat} {tv : T} {p q : Ptr} {fuel : Nat},
      l' ≠ [] → l'.length ≤ fuel → t ∉ addrs l' →
      sseg h p (l' ++ [(t, tv)]) q →
      findPrevTail h (some t) fuel p = (addrs l').getLast? := by
  intro l'
  induction l' with
  | nil => intro t tv p q fuel hne _ _ _; exact absurd rfl hne
  | cons x l'' ih =>
    intro t tv p q fuel hne hfuel htnotin hs
    obtain ⟨a, v⟩ := x
    cases fuel with
    | zero => simp at hfuel
    | succ f =>
      rw [List.cons_append, sseg_cons] at hs
      obtain ⟨hp, n, hha, hv, hrest⟩ := hs
      rcases hl'' : l'' with _ | ⟨⟨b, w⟩, l₃⟩
      · subst hl''
        have hnt : n.next = some t := by
          have := sseg_head hrest
          simpa [addrs, Option.or] using this
        rw [hp]
        show findPrevTail h (some t) (f + 1) (some a) = _
        simp [findPrevTail, hha, hnt, addrs]
      · subst hl''
        have hnb : n.next = some b := by
          have := sseg_head hrest
          simpa [addrs, Option.or] using this
        have hbt : b ≠ t := by
          intro hbt
          apply htnotin
          have : addrs ((a, v) :: (b, w) :: l₃) = a :: b :: addrs l₃ := rfl
          rw [this]
          exact hbt ▸ List.mem_cons_of_mem _ (List.mem_cons_self ..)
        have htnotin' : t ∉ addrs ((b, w) :: l₃) := by
          intro hmem
          apply htnotin
          have h1 : addrs ((a, v) :: (b, w) :: l₃) = a :: addrs ((b, w) :: l₃) := rfl
          rw [h1]
          exact List.mem_cons_of_mem _ hmem
        have hih := ih (by simp) (by simpa using hfuel) htnotin' hrest
        rw [hp]
        show findPrevTail h (some t) (f + 1) (some a) = _
        have hcond : ¬(n.next = some t) := by
          rw [hnb]
          intro hcontra
          exact hbt (Option.some_inj.mp hcontra)
        simp only [findPrevTail, hha, if_neg hcond]
        rw [hih]
        have h1 : addrs ((a, v) :: (b, w) :: l₃) = a :: addrs ((b, w) :: l₃) := rfl
        rw [h1, getLast?_cons_ne _ (by simp [addrs])]

/-- `pop_back` drops the last element of the chain (no-op when empty). -/
theorem SLL.wf_pop_back_s {T : Type} {s : SLL T} {l : List (Nat × T)} (hw : s.Wf l) :
    s.pop_back.Wf l.dropLast := by
  by_cases h0 : s.size_ = 0
  · have hl : l = [] := hw.size_zero_iff_s.mp h0
    subst hl
    simpa [SLL.pop_back, h0] using hw
  by_cases h1 : s.size_ = 1
  · have hlen : l.length = 1 := by rw [← hw.size_eq]; exact h1
    obtain ⟨x, hl⟩ := List.length_eq_one.mp hlen
    subst hl
    simp only [SLL.pop_back, if_neg h0, if_pos h1, List.dropLast_single]
    constructor
    · exact rfl
    · rfl
    · simp [h1]
    · exact List.nodup_nil
    · intro a ha; simp [addrs] at ha
  · have hlne : l ≠ [] := fun hl => h0 (hw.size_zero_iff_s.mpr hl)
    obtain ⟨l', x, hlx⟩ : ∃ l' x, l = l' ++ [x] :=
      ⟨l.dropLast, l.getLast hlne, (List.dropLast_append_getLast hlne).symm⟩
    obtain ⟨t, tv⟩ := x
    have hlen2 : 2 ≤ l.length := by rw [← hw.size_eq]; omega
    have hl'ne : l' ≠ [] := by
      intro h
      rw [hlx, h] at hlen2
      simp at hlen2
    have haddr : addrs l = addrs l' ++ [t] := by rw [hlx, addrs_append]; rfl
    have htl : s.tail_ = some t := by
      rw [hw.tail_eq, haddr, List.getLast?_append_of_ne_nil _ (by simp)]
      rfl
    have hnd := hw.nodup
    rw [haddr] at hnd
    obtain ⟨hnd1, -, hdisj⟩ := List.nodup_append.mp hnd
    have htnotin : t ∉ addrs l' := fun hmem => hdisj hmem (by simp)
    have hfuel : l'.length ≤ s.size_ := by
      rw [hw.size_eq, hlx]
      simp
    have hchain := hlx ▸ hw.chain
    have hfind : findPrevTail s.mem (some t) s.size_ s.head_ = (addrs l').getLast? :=
      findPrevTail_spec hl'ne hfuel htnotin hchain
    have ha'ne : addrs l' ≠ [] := by
      intro h
      have := addrs_length l'
      rw [h] at this
      exact hl'ne (List.length_eq_zero.mp this.symm)
    obtain ⟨c, hc⟩ : ∃ c, (addrs l').getLast? = some c := by
      rcases hgl : (addrs l').getLast? with _ | c
      · exact absurd (List.getLast?_eq_none_iff.mp hgl) ha'ne
      · exact ⟨c, rfl⟩
    obtain ⟨mid, hseg1, hseg2⟩ := (sseg_append l').mp hchain
    have hmid : mid = some t := by
      have := sseg_head hseg2
      simpa [addrs, Option.or] using this
    subst hmid
    -- the node at the found address
    have hclen : (addrs l').length - 1 < l'.length := by
      rw [addrs_length]
      have := List.length_pos.mpr hl'ne
      omega
    obtain ⟨c', n, hc', hn, hval, hnext⟩ :=
      sseg_lookup hseg1 (l'.length - 1) (by have := List.length_pos.mpr hl'ne; omega)
    have hcc : c = c' := by
      rw [List.getLast?_eq_getElem?, addrs_length] at hc
      rw [hc] at hc'
      exact Option.some_inj.mp hc'
    subst hcc
    have hnextt : n.next = some t := by
      rw [hnext]
      have : (addrs l')[l'.length - 1 + 1]? = none := by
        apply List.getElem?_eq_none
        rw [addrs_length]
        have := List.length_pos.mpr hl'ne
        omega
      rw [this]
      rfl
    have hcmem : c ∈ addrs l' := List.mem_of_mem_getLast? (by simp [hc])
    have hct : c ≠ t := fun h => htnotin (h ▸ hcmem)
    rw [hlx, List.dropLast_concat]
    simp only [SLL.pop_back, if_neg h0, if_neg h1, htl, hfind, hc, hn]
    constructor
    · show sseg (hupd (hdelOpt s.mem n.next) c (some ⟨n.value, none⟩)) s.head_ l' none
      have hdel : hdelOpt s.mem n.next = hupd s.mem t none := by
        rw [hnextt]
        rfl
      rw [hdel]
      have hstep1 : sseg (hupd s.mem t none) s.head_ l' (some t) :=
        sseg_hupd htnotin hseg1
      have hset : hupd (hupd s.mem t none) c (some ⟨n.value, none⟩) =
          ssetNext (hupd s.mem t none) c none := by
        unfold ssetNext
        rw [hupd_ne _ _ hct, hn]
      rw [hset]
      exact sseg_ssetNext_last _ hc hnd1 hstep1
    · exact hc.symm
    · rw [hw.size_eq, hlx]
      simp
    · exact hnd1
    · intro a ha
      show a < s.fresh
      exact hw.fresh_lt a (haddr ▸ List.mem_append_left _ ha)


/-- `insert` splices the new value in as the element at `index`
(singly-linked). -/
theorem SLL.wf_insert_s {T : Type} {s : SLL T} {l : List (Nat × T)} (i : Nat) (v : T)
    (hw : s.Wf l) (hi : i ≤ s.size_) :
    (s.insert i v).Wf (l.take i ++ (s.fresh, v) :: l.drop i) := by
  by_cases hi0 : i = 0
  · subst hi0
    simp only [SLL.insert, if_pos hi, if_pos rfl, List.take_zero, List.drop_zero,
      List.nil_append]
    exact SLL.wf_push_front_s v hw
  by_cases hiN : i = s.size_
  · have htk : l.take i = l := by
      rw [hiN, hw.size_eq]
      exact List.take_length _
    have hdp : l.drop i = [] := by
      rw [hiN, hw.size_eq]
      exact List.drop_length _
    rw [htk, hdp]
    simp only [SLL.insert, if_pos hi, if_neg hi0, if_pos hiN]
    exact SLL.wf_push_back_s v hw
  · -- middle insertion
    have hilt : i < s.size_ := lt_of_le_of_ne hi hiN
    have hil : i < l.length := by rw [← hw.size_eq]; exact hilt
    obtain ⟨x, l₂, hdrop⟩ : ∃ x l₂, l.drop i = x :: l₂ := by
      rcases hd : l.drop i with _ | ⟨x, l₂⟩
      · have := List.drop_eq_nil_iff.mp hd
        omega
      · exact ⟨x, l₂, rfl⟩
    obtain ⟨c, cv⟩ := x
    have hlsplit : l = l.take i ++ (c, cv) :: l₂ := by
      rw [← hdrop, List.take_append_drop]
    have hlen1 : (l.take i).length = i := by
      simp [List.length_take]
      omega
    have hlen1' : (addrs (l.take i)).length = i := by rw [addrs_length]; exact hlen1
    have ha₁ne : addrs (l.take i) ≠ [] := by
      intro h
      have := congrArg List.length h
      rw [hlen1'] at this
      simp at this
      omega
    have haddr : addrs l = addrs (l.take i) ++ c :: addrs l₂ := by
      conv_lhs => rw [hlsplit]
      rw [addrs_append]; rfl
    have hnd := hw.nodup
    rw [haddr] at hnd
    obtain ⟨hnd1, hnd2', hdisj⟩ := List.nodup_append.mp hnd
    have hcnotin1 : c ∉ addrs (l.take i) := fun h => hdisj h (List.mem_cons_self ..)
    have hcnotin2 : c ∉ addrs l₂ := (List.nodup_cons.mp hnd2').1
    have hnd2 : (addrs l₂).Nodup := (List.nodup_cons.mp hnd2').2
    have hchain := hlsplit ▸ hw.chain
    obtain ⟨mid, hseg1, hseg2⟩ := (sseg_append (l.take i)).mp hchain
    have hmid : mid = some c := by
      have := sseg_head hseg2
      simpa [addrs, Option.or] using this
    subst hmid
    obtain ⟨pa, hpa⟩ : ∃ pa, (addrs (l.take i)).getLast? = some pa := by
      rcases hgl : (addrs (l.take i)).getLast? with _ | pa
      · exact absurd (List.getLast?_eq_none_iff.mp hgl) ha₁ne
      · exact ⟨pa, rfl⟩
    have hpamem : pa ∈ addrs (l.take i) := List.mem_of_mem_getLast? (by simp [hpa])
    have hpac : pa ≠ c := fun h => hcnotin1 (h ▸ hpamem)
    have hpanotin2 : pa ∉ addrs l₂ := fun h => hdisj hpamem (List.mem_cons_of_mem _ h)
    have hF1 : s.fresh ∉ addrs l := hw.fresh_notin_s
    have hFnotin1 : s.fresh ∉ addrs (l.take i) :=
      fun h => hF1 (haddr ▸ List.mem_append_left _ h)
    have hFnotin2 : s.fresh ∉ addrs l₂ :=
      fun h => hF1 (haddr ▸ List.mem_append_right _ (List.mem_cons_of_mem _ h))
    have hcF : c ≠ s.fresh :=
      fun h => hF1 (haddr ▸ List.mem_append_right _ (h ▸ List.mem_cons_self ..))
    have hpaF : pa ≠ s.fresh := fun h => hFnotin1 (h ▸ hpamem)
    have hchain0 : sseg (hupd s.mem s.fresh (some ⟨v, none⟩)) s.head_ l none :=
      sseg_hupd hF1 hw.chain
    have hpaidx : (addrs l)[i - 1]? = some pa := by
      rw [haddr, List.getElem?_append_left (by rw [hlen1']; omega)]
      rw [List.getLast?_eq_getElem?, hlen1'] at hpa
      exact hpa
    have hci : (addrs l)[i]? = some c := by
      rw [haddr, List.getElem?_append_right (le_of_eq hlen1'), hlen1']
      simp
    have hprev : swalkNext (hupd s.mem s.fresh (some ⟨v, none⟩)) (i - 1) s.head_ =
        some pa := by
      rw [swalkNext_addr hchain0 (i - 1) (by omega)]
      exact hpaidx
    have hcur : swalkNext (hupd s.mem s.fresh (some ⟨v, none⟩)) i s.head_ = some c := by
      rw [swalkNext_addr hchain0 i hil]
      exact hci
    simp only [SLL.insert, if_pos hi, if_neg hi0, if_neg hiN, hprev, hcur]
    rw [hdrop]
    set memA := hupd s.mem s.fresh (some ⟨v, none⟩) with hmemA
    set memB := ssetNext memA pa (some s.fresh) with hmemB
    set memC := hupd memB s.fresh (some ⟨v, some c⟩) with hmemC
    have hmemCF : memC s.fresh = some ⟨v, some c⟩ := by
      rw [hmemC, hupd_same]
    have hl₂frame : ∀ b ∈ addrs ((c, cv) :: l₂), memC b = s.mem b := by
      intro b hb
      have h2 : addrs ((c, cv) :: l₂) = c :: addrs l₂ := rfl
      rw [h2] at hb
      have hbF : b ≠ s.fresh := by
        rcases List.mem_cons.mp hb with h | h
        · exact h ▸ hcF
        · exact fun hh => hFnotin2 (hh ▸ h)
      have hbpa : b ≠ pa := by
        rcases List.mem_cons.mp hb with h | h
        · exact fun hh => hpac (hh ▸ h)
        · exact fun hh => hpanotin2 (hh ▸ h)
      rw [hmemC, hupd_ne _ _ hbF, hmemB, ssetNext_ne _ _ hbpa, hmemA, hupd_ne _ _ hbF]
    constructor
    · refine (sseg_append (l.take i)).mpr ⟨some s.fresh, ?_, ?_⟩
      · have h1 : sseg memA s.head_ (l.take i) (some c) := sseg_hupd hFnotin1 hseg1
        have h2 : sseg memB s.head_ (l.take i) (some s.fresh) :=
          sseg_ssetNext_last _ hpa hnd1 h1
        exact sseg_hupd hFnotin1 h2
      · refine sseg_cons.mpr ⟨rfl, ⟨v, some c⟩, hmemCF, rfl, ?_⟩
        exact sseg_congr hl₂frame hseg2
    · show s.tail_ = _
      rw [hw.tail_eq]
      conv_lhs => rw [haddr]
      have hr : addrs (l.take i ++ (s.fresh, v) :: (c, cv) :: l₂) =
          addrs (l.take i) ++ s.fresh :: c :: addrs l₂ := by
        rw [addrs_append]; rfl
      rw [hr, List.getLast?_append_of_ne_nil _ (by simp),
        List.getLast?_append_of_ne_nil _ (by simp), List.getLast?_cons_cons]
    · show s.size_ + 1 = _
      have hlen : (l.take i ++ (s.fresh, v) :: (c, cv) :: l₂).length =
          i + l₂.length + 2 := by
        simp [hlen1]
        omega
      rw [hlen, hw.size_eq]
      conv_lhs => rw [hlsplit]
      simp
      omega
    · have hr : addrs (l.take i ++ (s.fresh, v) :: (c, cv) :: l₂) =
          addrs (l.take i) ++ s.fresh :: c :: addrs l₂ := by
        rw [addrs_append]; rfl
      rw [hr]
      refine List.nodup_append.mpr ⟨hnd1, ?_, ?_⟩
      · refine List.nodup_cons.mpr ⟨?_, hnd2'⟩
        intro hmem
        rcases List.mem_cons.mp hmem with h | h
        · exact hcF h.symm
        · exact hFnotin2 h
      · intro b hb hmem
        rcases List.mem_cons.mp hmem with h | h
        · exact hFnotin1 (h ▸ hb)
        · exact hdisj hb h
    · intro b hb
      show b < s.fresh + 1
      have hr : addrs (l.take i ++ (s.fresh, v) :: (c, cv) :: l₂) =
          addrs (l.take i) ++ s.fresh :: c :: addrs l₂ := by
        rw [addrs_append]; rfl
      rw [hr] at hb
      rcases List.mem_append.mp hb with h | h
      · have := hw.fresh_lt b (haddr ▸ List.mem_append_left _ h)
        omega
      · rcases List.mem_cons.mp h with h | h
        · omega
        · have := hw.fresh_lt b (haddr ▸ List.mem_append_right _ h)
          omega

/-- `remove` deletes the element at `index` from the chain (singly-linked). -/
theorem SLL.wf_remove_s {T : Type} {s : SLL T} {l : List (Nat × T)} (i : Nat)
    (hw : s.Wf l) (hilt : i < s.size_) :
    (s.remove i).Wf (l.take i ++ l.drop (i + 1)) := by
  by_cases hi0 : i = 0
  · subst hi0
    simp only [SLL.remove, if_pos hilt, if_pos rfl, List.take_zero, List.nil_append,
      Nat.zero_add, List.drop_one]
    exact SLL.wf_pop_front_s hw
  by_cases hiN : i = s.size_ - 1
  · have hdp : l.drop (i + 1) = [] := by
      apply List.drop_eq_nil_iff.mpr
      rw [← hw.size_eq]
      omega
    have htk : l.take i = l.dropLast := by
      rw [List.dropLast_eq_take, ← hw.size_eq, hiN]
    rw [htk, hdp, List.append_nil]
    simp only [SLL.remove, if_pos hilt, if_neg hi0, if_pos hiN]
    exact SLL.wf_pop_back_s hw
  · -- middle removal
    have hil : i < l.length := by rw [← hw.size_eq]; exact hilt
    have hi1 : i + 1 < l.length := by rw [← hw.size_eq]; omega
    obtain ⟨x, l₂, hdrop⟩ : ∃ x l₂, l.drop i = x :: l₂ := by
      rcases hd : l.drop i with _ | ⟨x, l₂⟩
      · have := List.drop_eq_nil_iff.mp hd
        omega
      · exact ⟨x, l₂, rfl⟩
    obtain ⟨c, cv⟩ := x
    have hdrop1 : l.drop (i + 1) = l₂ := by
      rw [← List.tail_drop, hdrop, List.tail_cons]
    have hl₂ne : l₂ ≠ [] := by
      intro h
      have := congrArg List.length hdrop1
      rw [h, List.length_drop] at this
      simp at this
      omega
    have ha₂ne : addrs l₂ ≠ [] := by
      intro h
      have := addrs_length l₂
      rw [h] at this
      exact hl₂ne (List.length_eq_zero.mp this.symm)
    have hlsplit : l = l.take i ++ (c, cv) :: l₂ := by
      rw [← hdrop, List.take_append_drop]
    have hlen1 : (l.take i).length = i := by
      simp [List.length_take]
      omega
    have hlen1' : (addrs (l.take i)).length = i := by rw [addrs_length]; exact hlen1
    have ha₁ne : addrs (l.take i) ≠ [] := by
      intro h
      have := congrArg List.length h
      rw [hlen1'] at this
      simp at this
      omega
    have haddr : addrs l = addrs (l.take i) ++ c :: addrs l₂ := by
      conv_lhs => rw [hlsplit]
      rw [addrs_append]; rfl
    have hnd := hw.nodup
    rw [haddr] at hnd
    obtain ⟨hnd1, hnd2', hdisj⟩ := List.nodup_append.mp hnd
    have hcnotin1 : c ∉ addrs (l.take i) := fun h => hdisj h (List.mem_cons_self ..)
    have hcnotin2 : c ∉ addrs l₂ := (List.nodup_cons.mp hnd2').1
    have hnd2 : (addrs l₂).Nodup := (List.nodup_cons.mp hnd2').2
    have hchain := hlsplit ▸ hw.chain
    obtain ⟨mid, hseg1, hseg2⟩ := (sseg_append (l.take i)).mp hchain
    have hmid : mid = some c := by
      have := sseg_head hseg2
      simpa [addrs, Option.or] using this
    subst hmid
    rw [sseg_cons] at hseg2
    obtain ⟨-, cn, hmemc, hcv, hrest⟩ := hseg2
    obtain ⟨pa, hpa⟩ : ∃ pa, (addrs (l.take i)).getLast? = some pa := by
      rcases hgl : (addrs (l.take i)).getLast? with _ | pa
      · exact absurd (List.getLast?_eq_none_iff.mp hgl) ha₁ne
      · exact ⟨pa, rfl⟩
    have hpamem : pa ∈ addrs (l.take i) := List.mem_of_mem_getLast? (by simp [hpa])
    have hpac : pa ≠ c := fun h => hcnotin1 (h ▸ hpamem)
    have hpanotin2 : pa ∉ addrs l₂ := fun h => hdisj hpamem (List.mem_cons_of_mem _ h)
    have hpaidx : (addrs l)[i - 1]? = some pa := by
      rw [haddr, List.getElem?_append_left (by rw [hlen1']; omega)]
      rw [List.getLast?_eq_getElem?, hlen1'] at hpa
      exact hpa
    have hci : (addrs l)[i]? = some c := by
      rw [haddr, List.getElem?_append_right (le_of_eq hlen1'), hlen1']
      simp
    have hprev : swalkNext s.mem (i - 1) s.head_ = some pa := by
      rw [swalkNext_addr hw.chain (i - 1) (by omega)]
      exact hpaidx
    have hcur : swalkNext s.mem i s.head_ = some c := by
      rw [swalkNext_addr hw.chain i hil]
      exact hci
    simp only [SLL.remove, if_pos hilt, if_neg hi0, if_neg hiN, hprev, hcur, hmemc]
    rw [hdrop1]
    have hl₂frame : ∀ b ∈ addrs l₂,
        hupd (ssetNext s.mem pa cn.next) c none b = s.mem b := by
      intro b hb
      have hbc : b ≠ c := fun h => hcnotin2 (h ▸ hb)
      have hbpa : b ≠ pa := fun h => hpanotin2 (h ▸ hb)
      rw [hupd_ne _ _ hbc, ssetNext_ne _ _ hbpa]
    constructor
    · refine (sseg_append (l.take i)).mpr ⟨cn.next, ?_, ?_⟩
      · have h1 : sseg (ssetNext s.mem pa cn.next) s.head_ (l.take i) cn.next :=
          sseg_ssetNext_last _ hpa hnd1 hseg1
        exact sseg_hupd hcnotin1 h1
      · exact sseg_congr hl₂frame hrest
    · show s.tail_ = _
      rw [hw.tail_eq]
      conv_lhs => rw [haddr]
      rw [addrs_append,
        List.getLast?_append_of_ne_nil _ ha₂ne,
        List.getLast?_append_of_ne_nil _ (by simp),
        getLast?_cons_ne _ ha₂ne]
    · show s.size_ - 1 = _
      have hlen : (l.take i ++ l₂).length = i + l₂.length := by
        simp [hlen1]
      rw [hlen, hw.size_eq]
      conv_lhs => rw [hlsplit]
      simp
      omega
    · rw [addrs_append]
      refine List.nodup_append.mpr ⟨hnd1, hnd2, ?_⟩
      intro b hb hmem
      exact hdisj hb (List.mem_cons_of_mem _ hmem)
    · intro b hb
      show b < s.fresh
      refine hw.fresh_lt b ?_
      rw [addrs_append] at hb
      rw [haddr]
      rcases List.mem_append.mp hb with h | h
      · exact List.mem_append_left _ h
      · exact List.mem_append_right _ (List.mem_cons_of_mem _ h)


/-- `clear` restores the empty invariant (singly-linked). -/
theorem SLL.wf_clear_s {T : Type} {s : SLL T} {l : List (Nat × T)} (hw : s.Wf l) :
    s.clear.Wf [] := by
  by_cases h0 : s.size_ = 0
  · have hl : l = [] := hw.size_zero_iff_s.mp h0
    subst hl
    simpa [SLL.clear, h0] using hw
  · simp only [SLL.clear, if_neg h0]
    constructor
    · exact rfl
    · rfl
    · rfl
    · exact List.nodup_nil
    · intro a ha; simp [addrs] at ha

/-- The move constructor transfers the chain and empties the source
(singly-linked). -/
theorem SLL.wf_moveCtor_s {T : Type} {other : SLL T} {l : List (Nat × T)}
    (hw : other.Wf l) :
    (SLL.moveCtor other).1.Wf l ∧ (SLL.moveCtor other).2.Wf [] := by
  constructor
  · exact ⟨hw.chain, hw.tail_eq, hw.size_eq, hw.nodup, hw.fresh_lt⟩
  · constructor
    · exact rfl
    · rfl
    · rfl
    · exact List.nodup_nil
    · intro a ha; simp [addrs] at ha

/-- Move assignment transfers the chain and empties the source
(singly-linked). -/
theorem SLL.wf_moveAssign_s {T : Type} {s other : SLL T} {l : List (Nat × T)}
    (hw : other.Wf l) :
    (SLL.moveAssign s other).1.Wf l ∧ (SLL.moveAssign s other).2.Wf [] := by
  constructor
  · exact ⟨hw.chain, hw.tail_eq, hw.size_eq, hw.nodup, hw.fresh_lt⟩
  · constructor
    · exact rfl
    · rfl
    · rfl
    · exact List.nodup_nil
    · intro a ha; simp [addrs] at ha

/-- Invariant of the singly-linked deep-copy loop. -/
theorem scloneLoop_spec {T : Type} (omem : SHeap T) :
    ∀ (rest : List (Nat × T)) (fuel : Nat) {ocur : Nat} {v : T}
      (_ : sseg omem (some ocur) ((ocur, v) :: rest) none)
      (_ : rest.length ≤ fuel)
      {mem : SHeap T} {hd : Ptr} {built : List (Nat × T)} {cur fr : Nat}
      (_ : sseg mem hd built none)
      (_ : (addrs built).getLast? = some cur)
      (_ : (addrs built).Nodup)
      (_ : ∀ a ∈ addrs built, a < fr),
      ∃ lnew mem' cur',
        scloneLoop omem fuel mem fr cur ocur = (mem', fr + rest.length, cur') ∧
        vals lnew = vals rest ∧
        (∀ a ∈ addrs lnew, fr ≤ a ∧ a < fr + rest.length) ∧
        (addrs lnew).Nodup ∧
        sseg mem' hd (built ++ lnew) none ∧
        (addrs (built ++ lnew)).getLast? = some cur' := by
  intro rest
  induction rest with
  | nil =>
    intro fuel ocur v hsrc _ mem hd built cur fr hdst hlast hnd hbnd
    rw [sseg_cons] at hsrc
    obtain ⟨_, onode, homem, _, hrest⟩ := hsrc
    have honext : onode.next = none := by
      have := sseg_head hrest
      simpa [addrs, Option.or] using this
    refine ⟨[], mem, cur, ?_, rfl, by simp [addrs], by simp [addrs], ?_, ?_⟩
    · cases fuel with
      | zero => simp [scloneLoop]
      | succ f => simp [scloneLoop, homem, honext]
    · simpa using hdst
    · simpa using hlast
  | cons y rest ih =>
    intro fuel ocur v hsrc hfuel mem hd built cur fr hdst hlast hnd hbnd
    obtain ⟨ob, bv⟩ := y
    cases fuel with
    | zero => simp at hfuel
    | succ f =>
      rw [sseg_cons] at hsrc
      obtain ⟨_, onode, homem, _, hrest⟩ := hsrc
      have honext : onode.next = some ob := by
        have := sseg_head hrest
        simpa [addrs, Option.or] using this
      have hsrc' : sseg omem (some ob) ((ob, bv) :: rest) none := honext ▸ hrest
      obtain ⟨-, obn, homemb, hbval, -⟩ := sseg_cons.mp hsrc'
      subst hbval
      have hcurmem : cur ∈ addrs built := List.mem_of_mem_getLast? (by simp [hlast])
      have hcurfr : cur < fr := hbnd cur hcurmem
      have hfrnotin : fr ∉ addrs built := fun h => absurd (hbnd fr h) (lt_irrefl _)
      have hdst1 : sseg (hupd mem fr (some ⟨obn.value, none⟩)) hd built none :=
        sseg_hupd hfrnotin hdst
      have hdst2 : sseg (ssetNext (hupd mem fr (some ⟨obn.value, none⟩)) cur (some fr))
          hd built (some fr) := sseg_ssetNext_last _ hlast hnd hdst1
      have hmemfr : ssetNext (hupd mem fr (some ⟨obn.value, none⟩)) cur (some fr) fr =
          some ⟨obn.value, none⟩ := by
        rw [ssetNext_ne _ _ (Nat.ne_of_gt hcurfr), hupd_same]
      have hdst3 : sseg (ssetNext (hupd mem fr (some ⟨obn.value, none⟩)) cur (some fr))
          hd (built ++ [(fr, obn.value)]) none := by
        refine (sseg_append built).mpr ⟨some fr, hdst2, ?_⟩
        exact sseg_cons.mpr ⟨rfl, ⟨obn.value, none⟩, hmemfr, rfl, rfl⟩
      have hlast' : (addrs (built ++ [(fr, obn.value)])).getLast? = some fr := by
        rw [addrs_append, List.getLast?_append_of_ne_nil _ (by simp [addrs])]
        simp [addrs]
      have hnd' : (addrs (built ++ [(fr, obn.value)])).Nodup := by
        rw [addrs_append]
        refine List.nodup_append.mpr ⟨hnd, by simp [addrs], ?_⟩
        intro b hb hmem
        simp [addrs] at hmem
        exact hfrnotin (hmem ▸ hb)
      have hbnd' : ∀ a ∈ addrs (built ++ [(fr, obn.value)]), a < fr + 1 := by
        intro a ha
        rw [addrs_append] at ha
        rcases List.mem_append.mp ha with h | h
        · exact Nat.lt_succ_of_lt (hbnd a h)
        · simp [addrs] at h
          omega
      obtain ⟨lnew, mem', cur', heq, hvals, hbnds, hndnew, hseg, hlastnew⟩ :=
        ih f hsrc' (by simpa using hfuel) hdst3 hlast' hnd' hbnd'
      refine ⟨(fr, obn.value) :: lnew, mem', cur', ?_, ?_, ?_, ?_, ?_, ?_⟩
      · show scloneLoop omem (f + 1) mem fr cur ocur = _
        simp only [scloneLoop, homem, honext, homemb]
        rw [heq]
        have harith : fr + 1 + rest.length = fr + (rest.length + 1) := by omega
        rw [harith]
        rfl
      · simp [vals] at hvals ⊢
        exact hvals
      · intro a ha
        have h2 : addrs ((fr, obn.value) :: lnew) = fr :: addrs lnew := rfl
        rw [h2] at ha
        rcases List.mem_cons.mp ha with h | h
        · subst h
          exact ⟨le_refl _, by simp⟩
        · obtain ⟨h1, h2⟩ := hbnds a h
          exact ⟨by omega, by simp only [List.length_cons]; omega⟩
      · have h2 : addrs ((fr, obn.value) :: lnew) = fr :: addrs lnew := rfl
        rw [h2]
        refine List.nodup_cons.mpr ⟨?_, hndnew⟩
        intro hmem
        have := (hbnds fr hmem).1
        omega
      · have hassoc : built ++ (fr, obn.value) :: lnew =
            (built ++ [(fr, obn.value)]) ++ lnew := by simp
        rw [hassoc]
        exact hseg
      · have hassoc : built ++ (fr, obn.value) :: lnew =
            (built ++ [(fr, obn.value)]) ++ lnew := by simp
        rw [hassoc]
        exact hlastnew

/-- The deep copy produces a well-formed list with the same value sequence
(singly-linked). -/
theorem SLL.wf_cloneInto_s {T : Type} {dst other : SLL T} {l : List (Nat × T)}
    (hw : other.Wf l) (hdh : dst.head_ = none) (hdt : dst.tail_ = none) :
    ∃ l', (SLL.cloneInto dst other).Wf l' ∧ vals l' = vals l := by
  rcases l with _ | ⟨⟨oh0, v0⟩, rest⟩
  · have hsz : other.size_ = 0 := hw.size_zero_iff_s.mpr rfl
    refine ⟨[], ?_, rfl⟩
    simp only [SLL.cloneInto, if_pos hsz]
    constructor
    · exact hdh
    · exact hdt
    · simp [hsz]
    · exact List.nodup_nil
    · intro a ha; simp [addrs] at ha
  · have hsz : other.size_ ≠ 0 := by
      rw [hw.size_eq]; simp
    have hhd : other.head_ = some oh0 := by
      simpa [addrs] using hw.head_eq_s
    have hchain := hw.chain
    rw [hhd, sseg_cons] at hchain
    obtain ⟨-, n0, hmem0, hval0, -⟩ := hchain
    have hsrc : sseg other.mem (some oh0) ((oh0, v0) :: rest) none := by
      rw [← hhd]
      exact hw.chain
    subst hval0
    have hdst : sseg (hupd dst.mem dst.fresh (some ⟨n0.value, none⟩))
        (some dst.fresh) [(dst.fresh, n0.value)] none :=
      sseg_cons.mpr ⟨rfl, ⟨n0.value, none⟩, hupd_same .., rfl, rfl⟩
    have hfuel : rest.length ≤ other.size_ := by
      rw [hw.size_eq]; simp
    have hbnd0 : ∀ a ∈ addrs [(dst.fresh, n0.value)], a < dst.fresh + 1 := by
      intro a ha
      simp [addrs] at ha
      omega
    have hlast0 : (addrs [(dst.fresh, n0.value)]).getLast? = some dst.fresh := by
      simp [addrs]
    obtain ⟨lnew, mem', cur', heq, hvals, hbnds, hndnew, hseg, hlastnew⟩ :=
      scloneLoop_spec other.mem rest other.size_ hsrc hfuel hdst
        hlast0 (by simp [addrs]) hbnd0
    refine ⟨(dst.fresh, n0.value) :: lnew, ?_, ?_⟩
    · have hlen : lnew.length = rest.length := by
        have := congrArg List.length hvals
        simpa [vals] using this
      simp only [SLL.cloneInto, if_neg hsz, hhd, hmem0]
      rw [heq]
      constructor
      · simpa using hseg
      · exact (by simpa using hlastnew : _ = some cur').symm
      · show other.size_ = _
        rw [hw.size_eq]
        simp [hlen]
      · have h2 : addrs ((dst.fresh, n0.value) :: lnew) = dst.fresh :: addrs lnew := rfl
        rw [h2]
        refine List.nodup_cons.mpr ⟨?_, hndnew⟩
        intro hmem
        have := (hbnds _ hmem).1
        omega
      · intro a ha
        show a < dst.fresh + 1 + rest.length
        have h2 : addrs ((dst.fresh, n0.value) :: lnew) = dst.fresh :: addrs lnew := rfl
        rw [h2] at ha
        rcases List.mem_cons.mp ha with h | h
        · omega
        · have := (hbnds a h).2
          omega
    · simp [vals] at hvals ⊢
      exact hvals

/-- The copy constructor yields a well-formed deep copy (singly-linked). -/
theorem SLL.wf_copyCtor_s {T : Type} {other : SLL T} {l : List (Nat × T)}
    (hw : other.Wf l) :
    ∃ l', (SLL.copyCtor other).Wf l' ∧ vals l' = vals l :=
  SLL.wf_cloneInto_s hw rfl rfl

/-- Copy assignment yields a well-formed deep copy (singly-linked). -/
theorem SLL.wf_copyAssign_s {T : Type} {s other : SLL T} {ls l : List (Nat × T)}
    (hws : s.Wf ls) (hw : other.Wf l) :
    ∃ l', (SLL.copyAssign s other).Wf l' ∧ vals l' = vals l := by
  refine SLL.wf_cloneInto_s hw ?_ ?_
  · by_cases h0 : s.size_ = 0
    · have hl : ls = [] := hws.size_zero_iff_s.mp h0
      subst hl
      simp only [SLL.clear, if_pos h0]
      simpa [addrs] using hws.head_eq_s
    · simp [SLL.clear, if_neg h0]
  · by_cases h0 : s.size_ = 0
    · have hl : ls = [] := hws.size_zero_iff_s.mp h0
      subst hl
      simp only [SLL.clear, if_pos h0]
      simpa [addrs] using hws.tail_eq
    · simp [SLL.clear, if_neg h0]


/-- Well-formed states satisfy the (amended) size/emptiness invariants. -/
theorem DLL.Wf.specInv {T : Type} {s : DLL T} {l : List (Nat × T)} (hw : s.Wf l) :
    s.SpecInv := by
  rcases l with _ | ⟨⟨a, v⟩, l0⟩
  · have h0 : s.size_ = 0 := hw.size_eq
    have hh : s.head_ = none := by simpa [addrs] using hw.head_eq
    have ht : s.tail_ = none := hw.tail_eq
    refine ⟨by simp [h0, hh], by simp [h0, ht], ?_⟩
    simp [h0, hh]
  · have hh : s.head_ = some a := by simpa [addrs] using hw.head_eq
    have hsz : s.size_ = l0.length + 1 := by simpa using hw.size_eq
    rcases l0 with _ | ⟨⟨b, w⟩, l1⟩
    · have ht : s.tail_ = some a := by
        rw [hw.tail_eq]
        simp [addrs]
      refine ⟨by simp [hsz, hh], by simp [hsz, ht], ?_⟩
      simp [hsz, hh, ht]
    · have hane : addrs ((b, w) :: l1) ≠ [] := by simp [addrs]
      obtain ⟨u, hu⟩ : ∃ u, (addrs ((b, w) :: l1)).getLast? = some u := by
        rcases hgl : (addrs ((b, w) :: l1)).getLast? with _ | u
        · exact absurd (List.getLast?_eq_none_iff.mp hgl) hane
        · exact ⟨u, rfl⟩
      have ht : s.tail_ = some u := by
        rw [hw.tail_eq]
        have h2 : addrs ((a, v) :: (b, w) :: l1) = a :: addrs ((b, w) :: l1) := rfl
        rw [h2, getLast?_cons_ne _ hane]
        exact hu
      have hau : a ≠ u := by
        intro hau
        have hnd := hw.nodup
        have h2 : addrs ((a, v) :: (b, w) :: l1) = a :: addrs ((b, w) :: l1) := rfl
        rw [h2] at hnd
        exact (List.nodup_cons.mp hnd).1
          (hau ▸ List.mem_of_mem_getLast? (by simp [hu]))
      refine ⟨by simp [hsz, hh], by simp [hsz, ht], ?_⟩
      constructor
      · intro h1
        rw [hsz] at h1
        simp at h1
      · rintro ⟨heq, -⟩
        rw [hh, ht] at heq
        exact absurd (Option.some_inj.mp heq) hau

/-- Well-formed singly-linked states satisfy the size/emptiness
invariants. -/
theorem SLL.Wf.specInv_s {T : Type} {s : SLL T} {l : List (Nat × T)} (hw : s.Wf l) :
    s.SpecInv := by
  rcases l with _ | ⟨⟨a, v⟩, l0⟩
  · have h0 : s.size_ = 0 := hw.size_eq
    have hh : s.head_ = none := by simpa [addrs] using hw.head_eq_s
    have ht : s.tail_ = none := hw.tail_eq
    refine ⟨by simp [h0, hh], by simp [h0, ht], ?_⟩
    simp [h0, hh]
  · have hh : s.head_ = some a := by simpa [addrs] using hw.head_eq_s
    have hsz : s.size_ = l0.length + 1 := by simpa using hw.size_eq
    rcases l0 with _ | ⟨⟨b, w⟩, l1⟩
    · have ht : s.tail_ = some a := by
        rw [hw.tail_eq]
        simp [addrs]
      refine ⟨by simp [hsz, hh], by simp [hsz, ht], ?_⟩
      simp [hsz, hh, ht]
    · have hane : addrs ((b, w) :: l1) ≠ [] := by simp [addrs]
      obtain ⟨u, hu⟩ : ∃ u, (addrs ((b, w) :: l1)).getLast? = some u := by
        rcases hgl : (addrs ((b, w) :: l1)).getLast? with _ | u
        · exact absurd (List.getLast?_eq_none_iff.mp hgl) hane
        · exact ⟨u, rfl⟩
      have ht : s.tail_ = some u := by
        rw [hw.tail_eq]
        have h2 : addrs ((a, v) :: (b, w) :: l1) = a :: addrs ((b, w) :: l1) := rfl
        rw [h2, getLast?_cons_ne _ hane]
        exact hu
      have hau : a ≠ u := by
        intro hau
        have hnd := hw.nodup
        have h2 : addrs ((a, v) :: (b, w) :: l1) = a :: addrs ((b, w) :: l1) := rfl
        rw [h2] at hnd
        exact (List.nodup_cons.mp hnd).1
          (hau ▸ List.mem_of_mem_getLast? (by simp [hu]))
      refine ⟨by simp [hsz, hh], by simp [hsz, ht], ?_⟩
      constructor
      · intro h1
        rw [hsz] at h1
        simp at h1
      · rintro ⟨heq, -⟩
        rw [hh, ht] at heq
        exact absurd (Option.some_inj.mp heq) hau

theorem getElem?_lt_length {A : Type} {xs : List A} {i : Nat} {a : A}
    (h : xs[i]? = some a) : i < xs.length := by
  by_contra hlen
  rw [List.getElem?_eq_none (by omega)] at h
  exact Option.noConfusion h

/-- Well-formed states satisfy the doubly-linked structure invariants. -/
theorem DLL.Wf.linkInv {T : Type} {s : DLL T} {l : List (Nat × T)} (hw : s.Wf l) :
    s.LinkInv l := by
  refine ⟨?_, ?_, ?_⟩
  · intro i a b ha hb
    have hib : i + 1 < (addrs l).length := getElem?_lt_length hb
    have hil : i < l.length := by rw [addrs_length] at hib; omega
    have hi1l : i + 1 < l.length := by rw [addrs_length] at hib; omega
    obtain ⟨a', n, ha', hn, -, hnext, -⟩ := seg_lookup hw.chain i hil
    obtain ⟨b', m, hb', hm, -, -, hprev⟩ := seg_lookup hw.chain (i + 1) hi1l
    rw [ha] at ha'
    rw [hb] at hb'
    obtain rfl : a = a' := Option.some_inj.mp ha'
    obtain rfl : b = b' := Option.some_inj.mp hb'
    refine ⟨n, m, hn, hm, ?_, ?_⟩
    · rw [hnext, hb]
      rfl
    · rw [hprev, if_neg (by omega)]
      simpa using ha
  · intro a n hhd hn
    have hlne : l ≠ [] := by
      intro h
      subst h
      rw [show s.head_ = none from by simpa [addrs] using hw.head_eq] at hhd
      exact Option.noConfusion hhd
    have h0 : 0 < l.length := List.length_pos.mpr hlne
    obtain ⟨a', n', ha', hn', -, -, hprev⟩ := seg_lookup hw.chain 0 h0
    have hhd' : (addrs l)[0]? = some a := by
      rw [← List.head?_eq_getElem?, ← hw.head_eq]
      exact hhd
    rw [hhd'] at ha'
    obtain rfl : a = a' := Option.some_inj.mp ha'
    rw [hn] at hn'
    obtain rfl : n = n' := Option.some_inj.mp hn'
    rw [hprev]
    rfl
  · intro a n htl hn
    have hlne : l ≠ [] := by
      intro h
      subst h
      rw [show s.tail_ = none from hw.tail_eq] at htl
      exact Option.noConfusion htl
    have h0 : l.length - 1 < l.length := by
      have := List.length_pos.mpr hlne
      omega
    obtain ⟨a', n', ha', hn', -, hnext, -⟩ := seg_lookup hw.chain (l.length - 1) h0
    have htl' : (addrs l)[l.length - 1]? = some a := by
      rw [← hw.tail_getElem]
      exact htl
    rw [htl'] at ha'
    obtain rfl : a = a' := Option.some_inj.mp ha'
    rw [hn] at hn'
    obtain rfl : n = n' := Option.some_inj.mp hn'
    rw [hnext]
    have : (addrs l)[l.length - 1 + 1]? = none := by
      apply List.getElem?_eq_none
      rw [addrs_length]
      have := List.length_pos.mpr hlne
      omega
    rw [this]
    rfl

/-- Every well-formed doubly-linked state is a good state. -/
theorem DLL.Wf.goodState {T : Type} {s : DLL T} {l : List (Nat × T)} (hw : s.Wf l) :
    s.GoodState :=
  ⟨l, hw, hw.specInv, hw.linkInv⟩

/-- Every well-formed singly-linked state is a good state. -/
theorem SLL.Wf.goodState_s {T : Type} {s : SLL T} {l : List (Nat × T)} (hw : s.Wf l) :
    s.GoodState :=
  ⟨l, hw, hw.specInv_s⟩

/-! ### Iterator stepping lemmas -/

theorem DIter.addAssign_iterate {T : Type} (h : DHeap T) :
    ∀ (n : Nat) (it : Ptr), DIter.addAssign h n it = (DIter.inc h)^[n] it := by
  intro n
  induction n with
  | zero => intro it; rfl
  | succ n ih =>
    intro it
    rw [DIter.addAssign, ih (DIter.inc h it), Function.iterate_succ_apply]

theorem DIter.subAssign_iterate {T : Type} (h : DHeap T) :
    ∀ (n : Nat) (it : Ptr), DIter.subAssign h n it = (DIter.dec h)^[n] it := by
  intro n
  induction n with
  | zero => intro it; rfl
  | succ n ih =>
    intro it
    rw [DIter.subAssign, ih (DIter.dec h it), Function.iterate_succ_apply]

theorem DRevIter.addAssign_iterate_rev {T : Type} (h : DHeap T) :
    ∀ (n : Nat) (it : Ptr), DRevIter.addAssign h n it = (DRevIter.inc h)^[n] it := by
  intro n
  induction n with
  | zero => intro it; rfl
  | succ n ih =>
    intro it
    rw [DRevIter.addAssign, ih (DRevIter.inc h it), Function.iterate_succ_apply]

theorem DRevIter.subAssign_iterate_rev {T : Type} (h : DHeap T) :
    ∀ (n : Nat) (it : Ptr), DRevIter.subAssign h n it = (DRevIter.dec h)^[n] it := by
  intro n
  induction n with
  | zero => intro it; rfl
  | succ n ih =>
    intro it
    rw [DRevIter.subAssign, ih (DRevIter.dec h it), Function.iterate_succ_apply]

theorem SIter.addAssign_iterate_s {T : Type} (h : SHeap T) :
    ∀ (n : Nat) (it : Ptr), SIter.addAssign h n it = (SIter.inc h)^[n] it := by
  intro n
  induction n with
  | zero => intro it; rfl
  | succ n ih =>
    intro it
    rw [SIter.addAssign, ih (SIter.inc h it), Function.iterate_succ_apply]

/-- The node behind `tail_` of a non-empty well-formed list. -/
theorem DLL.Wf.tail_node {T : Type} {s : DLL T} {l : List (Nat × T)} (hw : s.Wf l)
    (hne : l ≠ []) :
    ∃ t n, s.tail_ = some t ∧ s.mem t = some n ∧ n.next = none := by
  have h0 : l.length - 1 < l.length := by
    have := List.length_pos.mpr hne
    omega
  obtain ⟨t, n, ht, hn, -, hnext, -⟩ := seg_lookup hw.chain (l.length - 1) h0
  refine ⟨t, n, hw.tail_getElem.trans ht, hn, ?_⟩
  rw [hnext]
  have : (addrs l)[l.length - 1 + 1]? = none := by
    apply List.getElem?_eq_none
    rw [addrs_length]
    have := List.length_pos.mpr hne
    omega
  rw [this]
  rfl

/-- The node behind `head_` of a non-empty well-formed list. -/
theorem DLL.Wf.head_node {T : Type} {s : DLL T} {l : List (Nat × T)} (hw : s.Wf l)
    (hne : l ≠ []) :
    ∃ a n, s.head_ = some a ∧ s.mem a = some n ∧ n.previous = none := by
  have h0 : 0 < l.length := List.length_pos.mpr hne
  obtain ⟨a, n, ha, hn, -, -, hprev⟩ := seg_lookup hw.chain 0 h0
  refine ⟨a, n, ?_, hn, by rw [hprev]; rfl⟩
  rw [hw.head_eq, List.head?_eq_getElem?]
  exact ha

/-- The node behind `tail_` of a non-empty well-formed singly-linked list. -/
theorem SLL.Wf.tail_node_s {T : Type} {s : SLL T} {l : List (Nat × T)} (hw : s.Wf l)
    (hne : l ≠ []) :
    ∃ t n, s.tail_ = some t ∧ s.mem t = some n ∧ n.next = none := by
  have h0 : l.length - 1 < l.length := by
    have := List.length_pos.mpr hne
    omega
  obtain ⟨t, n, ht, hn, -, hnext⟩ := sseg_lookup hw.chain (l.length - 1) h0
  refine ⟨t, n, hw.tail_getElem_s.trans ht, hn, ?_⟩
  rw [hnext]
  have : (addrs l)[l.length - 1 + 1]? = none := by
    apply List.getElem?_eq_none
    rw [addrs_length]
    have := List.length_pos.mpr hne
    omega
  rw [this]
  rfl

/-! ### Traversal collection lemmas -/

/-- Forward iteration with enough fuel collects exactly the chain's values. -/
theorem collectNext_eq {T : Type} {h : DHeap T} :
    ∀ {l : List (Nat × T)} {prev p qp : Ptr}, seg h prev p l none qp →
      ∀ fuel, l.length ≤ fuel → collectNext h fuel p = vals l := by
  intro l
  induction l with
  | nil =>
    intro prev p qp hs fuel _
    obtain ⟨hp, -⟩ := hs
    subst hp
    cases fuel with
    | zero => rfl
    | succ f => rfl
  | cons x l ih =>
    intro prev p qp hs fuel hfuel
    obtain ⟨a, v⟩ := x
    rw [seg_cons] at hs
    obtain ⟨hp, n, hn, hv, -, hrest⟩ := hs
    subst hp
    cases fuel with
    | zero => simp at hfuel
    | succ f =>
      show collectNext h (f + 1) (some a) = _
      simp only [collectNext, hn]
      rw [ih hrest f (by simpa using hfuel), hv]
      rfl

/-- Backward iteration from the chain's last node collects the reversed
values. -/
theorem collectPrev_eq {T : Type} {h : DHeap T} {l : List (Nat × T)} :
    ∀ {p q qp : Ptr}, seg h none p l q qp →
      ∀ fuel, l.length ≤ fuel → collectPrev h fuel qp = (vals l).reverse := by
  induction l using List.reverseRecOn with
  | nil =>
    intro p q qp hs fuel _
    obtain ⟨-, hqp⟩ := hs
    rw [← hqp]
    cases fuel with
    | zero => rfl
    | succ f => rfl
  | append_singleton l' x ih =>
    intro p q qp hs fuel hfuel
    obtain ⟨t, tv⟩ := x
    obtain ⟨mid, midprev, hseg1, hseg2⟩ := (seg_append l').mp hs
    rw [seg_cons] at hseg2
    obtain ⟨hmid, n, hn, hv, hprev, hrest⟩ := hseg2
    obtain ⟨-, hqp⟩ := hrest
    rw [← hqp]
    cases fuel with
    | zero =>
      simp at hfuel
    | succ f =>
      show collectPrev h (f + 1) (some t) = _
      simp only [collectPrev, hn]
      rw [hprev, ih hseg1 f (by simp at hfuel; omega), hv]
      simp [vals]

/-- Forward iteration on a singly-linked chain. -/
theorem scollectNext_eq {T : Type} {h : SHeap T} :
    ∀ {l : List (Nat × T)} {p : Ptr}, sseg h p l none →
      ∀ fuel, l.length ≤ fuel → scollectNext h fuel p = vals l := by
  intro l
  induction l with
  | nil =>
    intro p hs fuel _
    rw [show p = none from hs]
    cases fuel with
    | zero => rfl
    | succ f => rfl
  | cons x l ih =>
    intro p hs fuel hfuel
    obtain ⟨a, v⟩ := x
    rw [sseg_cons] at hs
    obtain ⟨hp, n, hn, hv, hrest⟩ := hs
    subst hp
    cases fuel with
    | zero => simp at hfuel
    | succ f =>
      show scollectNext h (f + 1) (some a) = _
      simp only [scollectNext, hn]
      rw [ih hrest f (by simpa using hfuel), hv]
      rfl

/-! ### Visit-count lemmas -/

theorem fwdTrace_length {T : Type} (h : DHeap T) :
    ∀ (k : Nat) (p : Ptr), (fwdTrace h k p).length = k + 1 := by
  intro k
  induction k with
  | zero => intro p; rfl
  | succ k ih => intro p; rw [fwdTrace, List.length_cons, ih]

theorem bwdTrace_length {T : Type} (h : DHeap T) :
    ∀ (k : Nat) (p : Ptr), (bwdTrace h k p).length = k + 1 := by
  intro k
  induction k with
  | zero => intro p; rfl
  | succ k ih => intro p; rw [bwdTrace, List.length_cons, ih]

/-! ### Example-state well-formedness -/

theorem dex3_wf : dex3.Wf dex3L := by
  have h1 := DLL.wf_push_back 1 (DLL.wf_empty (T := Nat))
  have h2 := DLL.wf_push_back 2 h1
  have h3 := DLL.wf_push_back 3 h2
  simpa [dex3, dex3L, DLL.empty] using h3

theorem sex3_wf : sex3.Wf sex3L := by
  have h1 := SLL.wf_push_back_s 1 (SLL.wf_empty_s (T := Nat))
  have h2 := SLL.wf_push_back_s 2 h1
  have h3 := SLL.wf_push_back_s 3 h2
  simpa [sex3, sex3L, SLL.empty] using h3


/-! # The claims -/

/-- C1: for both lists, `at(index)` fails (with the `std::out_of_range`
message carrying the requested index and the current size) exactly when
`index ≥ size()`, and for `index < size()` it returns the very value of
`operator[](index)`; `at` is a `const` member in the source (the non-const
overload only casts), so the container is unchanged — in the model `at_`
accordingly returns a result without touching the state. -/
theorem claim_C1 {T : Type} (s : DLL T) (l : List (Nat × T)) (i : Nat) (hw : s.Wf l)
    (t : SLL T) (m : List (Nat × T)) (j : Nat) (hw' : t.Wf m) :
    (s.at_ i = Except.error (DLL.oorMsg i s.size_) ↔ s.size_ ≤ i) ∧
    (i < s.size_ → s.at_ i = Except.ok (s.getConst i) ∧ s.getConst i = (vals l)[i]?) ∧
    (t.at_ j = Except.error (SLL.oorMsg j t.size_) ↔ t.size_ ≤ j) ∧
    (j < t.size_ → t.at_ j = Except.ok (t.getConst j) ∧ t.getConst j = (vals m)[j]?) := by
  refine ⟨⟨?_, ?_⟩, ?_, ⟨?_, ?_⟩, ?_⟩
  · intro h
    by_contra hlt
    unfold DLL.at_ at h
    rw [if_neg (by omega)] at h
    exact Except.noConfusion h
  · intro h
    unfold DLL.at_
    rw [if_pos (by omega)]
  · intro h
    refine ⟨?_, DLL.getConst_eq hw h⟩
    unfold DLL.at_
    rw [if_neg (by omega)]
  · intro h
    by_contra hlt
    unfold SLL.at_ at h
    rw [if_neg (by omega)] at h
    exact Except.noConfusion h
  · intro h
    unfold SLL.at_
    rw [if_pos (by omega)]
  · intro h
    refine ⟨?_, SLL.getConst_eq_s hw' h⟩
    unfold SLL.at_
    rw [if_neg (by omega)]

/-- C2: for every in-range index of a doubly-linked list, the nearest-end
lookup of `operator[]` equals a naive forward-only walk from `head_` and
returns the element at that position of the abstract sequence; at an exact
midpoint (`size-1-index == index`) the strict comparison is false, so the
forward branch is taken. -/
theorem claim_C2 {T : Type} (s : DLL T) (l : List (Nat × T)) (i : Nat)
    (hw : s.Wf l) (hi : i < s.size_) :
    s.getConst i = s.getForwardOnly i ∧
    s.getConst i = (vals l)[i]? ∧
    (s.size_ - 1 - i = i → s.getConst i = readVal s.mem (walkNext s.mem i s.head_)) := by
  refine ⟨?_, DLL.getConst_eq hw hi, ?_⟩
  · rw [DLL.getConst_eq hw hi, DLL.getForwardOnly_eq hw hi]
  · intro hmid
    unfold DLL.getConst
    rw [if_neg (by omega)]

/-- C3: for both lists, `insert(index, value)` with `index ≤ size` produces
`old[0..index) ++ [value] ++ old[index..)` and increments the size by one;
`index == 0` takes the `push_front` path and `index == size` behaves as
`push_back` (at `index == size == 0` the `push_front` branch fires but
produces the same state `push_back` would). -/
theorem claim_C3 {T : Type} (s : DLL T) (l : List (Nat × T)) (i : Nat) (v : T)
    (hw : s.Wf l) (hi : i ≤ s.size_)
    (t : SLL T) (m : List (Nat × T)) (j : Nat) (w : T)
    (hw' : t.Wf m) (hj : j ≤ t.size_) :
    (∃ l', (s.insert i v).Wf l' ∧
      vals l' = (vals l).take i ++ v :: (vals l).drop i ∧
      (s.insert i v).size_ = s.size_ + 1) ∧
    s.insert 0 v = s.push_front v ∧
    (i = s.size_ → s.insert i v = s.push_back v) ∧
    (∃ m', (t.insert j w).Wf m' ∧
      vals m' = (vals m).take j ++ w :: (vals m).drop j ∧
      (t.insert j w).size_ = t.size_ + 1) ∧
    t.insert 0 w = t.push_front w ∧
    (j = t.size_ → t.insert j w = t.push_back w) := by
  refine ⟨?_, ?_, ?_, ?_, ?_, ?_⟩
  · refine ⟨l.take i ++ (s.fresh, v) :: l.drop i, DLL.wf_insert i v hw hi, ?_, ?_⟩
    · rw [vals_append]
      simp [vals, List.map_take, List.map_drop]
    · rw [(DLL.wf_insert i v hw hi).size_eq]
      have hil : i ≤ l.length := by rw [← hw.size_eq]; exact hi
      simp [List.length_take, hw.size_eq]
      omega
  · unfold DLL.insert
    rw [if_pos (Nat.zero_le _), if_pos rfl]
  · intro hieq
    subst hieq
    by_cases h0 : s.size_ = 0
    · have hl : l = [] := hw.size_zero_iff.mp h0
      subst hl
      have hhd : s.head_ = none := by simpa [addrs] using hw.head_eq
      have htl : s.tail_ = none := hw.tail_eq
      unfold DLL.insert DLL.push_front DLL.push_back
      simp [h0, hhd, htl]
    · unfold DLL.insert
      rw [if_pos (le_refl _), if_neg h0, if_pos rfl]
  · refine ⟨m.take j ++ (t.fresh, w) :: m.drop j, SLL.wf_insert_s j w hw' hj, ?_, ?_⟩
    · rw [vals_append]
      simp [vals, List.map_take, List.map_drop]
    · rw [(SLL.wf_insert_s j w hw' hj).size_eq]
      have hjl : j ≤ m.length := by rw [← hw'.size_eq]; exact hj
      simp [List.length_take, hw'.size_eq]
      omega
  · unfold SLL.insert
    rw [if_pos (Nat.zero_le _), if_pos rfl]
  · intro hjeq
    subst hjeq
    by_cases h0 : t.size_ = 0
    · have hl : m = [] := hw'.size_zero_iff_s.mp h0
      subst hl
      have hhd : t.head_ = none := by simpa [addrs] using hw'.head_eq_s
      have htl : t.tail_ = none := hw'.tail_eq
      unfold SLL.insert SLL.push_front SLL.push_back
      simp [h0, hhd, htl]
    · unfold SLL.insert
      rw [if_pos (le_refl _), if_neg h0, if_pos rfl]

/-- C4: for both lists, `insert` with `index > size`, `remove` with
`index ≥ size`, and `pop_back`/`pop_front` on an empty container return the
state entirely unchanged; the operations have no error channel at all (they
neither throw nor return an error code), which the model mirrors by their
plain `state → state` types. -/
theorem claim_C4 {T : Type} (s : DLL T) (t : SLL T) :
    (∀ i v, s.size_ < i → s.insert i v = s) ∧
    (∀ i, s.size_ ≤ i → s.remove i = s) ∧
    (s.size_ = 0 → s.pop_back = s ∧ s.pop_front = s) ∧
    (∀ j w, t.size_ < j → t.insert j w = t) ∧
    (∀ j, t.size_ ≤ j → t.remove j = t) ∧
    (t.size_ = 0 → t.pop_back = t ∧ t.pop_front = t) := by
  refine ⟨?_, ?_, ?_, ?_, ?_, ?_⟩
  · intro i v h
    unfold DLL.insert
    rw [if_neg (by omega)]
  · intro i h
    unfold DLL.remove
    rw [if_neg (by omega)]
  · intro h
    constructor
    · unfold DLL.pop_back
      rw [if_pos h]
    · unfold DLL.pop_front
      rw [if_pos h]
  · intro j w h
    unfold SLL.insert
    rw [if_neg (by omega)]
  · intro j h
    unfold SLL.remove
    rw [if_neg (by omega)]
  · intro h
    constructor
    · unfold SLL.pop_back
      rw [if_pos h]
    · unfold SLL.pop_front
      rw [if_pos h]

/-- C6: for both lists and any `index ≤ size`, `insert(index, value)`
followed by `remove(index)` restores the original value sequence and
size. -/
theorem claim_C6 {T : Type} (s : DLL T) (l : List (Nat × T)) (i : Nat) (v : T)
    (hw : s.Wf l) (hi : i ≤ s.size_)
    (t : SLL T) (m : List (Nat × T)) (j : Nat) (w : T)
    (hw' : t.Wf m) (hj : j ≤ t.size_) :
    (∃ l', ((s.insert i v).remove i).Wf l' ∧ vals l' = vals l ∧
      ((s.insert i v).remove i).size_ = s.size_) ∧
    (∃ m', ((t.insert j w).remove j).Wf m' ∧ vals m' = vals m ∧
      ((t.insert j w).remove j).size_ = t.size_) := by
  constructor
  · have hil : i ≤ l.length := by rw [← hw.size_eq]; exact hi
    have hlen : (l.take i).length = i := by simp [List.length_take]; omega
    have hw1 := DLL.wf_insert i v hw hi
    have hsz1 : (s.insert i v).size_ = s.size_ + 1 := by
      rw [hw1.size_eq]
      simp [List.length_take, hw.size_eq]
      omega
    have hi1 : i < (s.insert i v).size_ := by omega
    have hw2 := DLL.wf_remove i hw1 hi1
    have htake : (l.take i ++ (s.fresh, v) :: l.drop i).take i = l.take i :=
      List.take_left' hlen
    have hdrop : (l.take i ++ (s.fresh, v) :: l.drop i).drop (i + 1) = l.drop i := by
      have h2 : (l.take i ++ (s.fresh, v) :: l.drop i).drop ((l.take i).length + 1) =
          ((s.fresh, v) :: l.drop i).drop 1 := List.drop_append 1
      rw [hlen] at h2
      rw [h2]
      rfl
    rw [htake, hdrop, List.take_append_drop] at hw2
    refine ⟨l, hw2, rfl, ?_⟩
    rw [hw2.size_eq, hw.size_eq]
  · have hjl : j ≤ m.length := by rw [← hw'.size_eq]; exact hj
    have hlen : (m.take j).length = j := by simp [List.length_take]; omega
    have hw1 := SLL.wf_insert_s j w hw' hj
    have hsz1 : (t.insert j w).size_ = t.size_ + 1 := by
      rw [hw1.size_eq]
      simp [List.length_take, hw'.size_eq]
      omega
    have hj1 : j < (t.insert j w).size_ := by omega
    have hw2 := SLL.wf_remove_s j hw1 hj1
    have htake : (m.take j ++ (t.fresh, w) :: m.drop j).take j = m.take j :=
      List.take_left' hlen
    have hdrop : (m.take j ++ (t.fresh, w) :: m.drop j).drop (j + 1) = m.drop j := by
      have h2 : (m.take j ++ (t.fresh, w) :: m.drop j).drop ((m.take j).length + 1) =
          ((t.fresh, w) :: m.drop j).drop 1 := List.drop_append 1
      rw [hlen] at h2
      rw [h2]
      rfl
    rw [htake, hdrop, List.take_append_drop] at hw2
    refine ⟨m, hw2, rfl, ?_⟩
    rw [hw2.size_eq, hw'.size_eq]

/-- C9: for a doubly-linked list of size `N` and any `i < N`, `operator[]`
visits exactly `min(i+1, N-i)` nodes counted from the end it walks from:
`i+1` nodes when it walks forward from `head_`, `N-i` nodes when it walks
backward from `tail_`. -/
theorem claim_C9 {T : Type} (s : DLL T) (i : Nat) (hi : i < s.size_) :
    s.getVisits i = min (i + 1) (s.size_ - i) := by
  unfold DLL.getVisits
  split
  · rw [bwdTrace_length]
    omega
  · rw [fwdTrace_length]
    omega

/-- C10: on an empty container, `end`/`cend` (both lists) and `rend`/`crend`
(doubly-linked) read through a null pointer (`tail_->next` resp.
`head_->previous` with the pointer null) — modelled as the `none` result —
and they avoid that null dereference exactly when the container is
non-empty; `begin`/`cbegin`/`rbegin`/`crbegin` never dereference and safely
return the null sentinel cursor on an empty container. -/
theorem claim_C10 {T : Type} (s : DLL T) (l : List (Nat × T)) (hw : s.Wf l)
    (t : SLL T) (m : List (Nat × T)) (hw' : t.Wf m) :
    (s.end_ = none ↔ l = []) ∧ (s.cend_ = none ↔ l = []) ∧
    (s.rend_ = none ↔ l = []) ∧ (s.crend_ = none ↔ l = []) ∧
    (l = [] → s.begin_ = none ∧ s.cbegin_ = none ∧ s.rbegin_ = none ∧
      s.crbegin_ = none) ∧
    (l ≠ [] → s.end_ = some none ∧ s.cend_ = some none ∧ s.rend_ = some none ∧
      s.crend_ = some none) ∧
    (t.end_ = none ↔ m = []) ∧ (t.cend_ = none ↔ m = []) ∧
    (m = [] → t.begin_ = none ∧ t.cbegin_ = none) ∧
    (m ≠ [] → t.end_ = some none ∧ t.cend_ = some none) := by
  have hdend : l ≠ [] → s.end_ = some none ∧ s.cend_ = some none := by
    intro hne
    obtain ⟨a, n, ht, hn, hnext⟩ := hw.tail_node hne
    constructor
    · unfold DLL.end_
      rw [ht]
      simp [hn, hnext]
    · unfold DLL.cend_
      rw [ht]
      simp [hn, hnext]
  have hdrend : l ≠ [] → s.rend_ = some none ∧ s.crend_ = some none := by
    intro hne
    obtain ⟨a, n, hh, hn, hprev⟩ := hw.head_node hne
    constructor
    · unfold DLL.rend_
      rw [hh]
      simp [hn, hprev]
    · unfold DLL.crend_
      rw [hh]
      simp [hn, hprev]
  have hsend : m ≠ [] → t.end_ = some none ∧ t.cend_ = some none := by
    intro hne
    obtain ⟨a, n, ht, hn, hnext⟩ := hw'.tail_node_s hne
    constructor
    · unfold SLL.end_
      rw [ht]
      simp [hn, hnext]
    · unfold SLL.cend_
      rw [ht]
      simp [hn, hnext]
  have hdheads : l = [] → s.head_ = none ∧ s.tail_ = none := by
    intro hnil
    subst hnil
    exact ⟨by simpa [addrs] using hw.head_eq, hw.tail_eq⟩
  have hsheads : m = [] → t.head_ = none ∧ t.tail_ = none := by
    intro hnil
    subst hnil
    exact ⟨by simpa [addrs] using hw'.head_eq_s, hw'.tail_eq⟩
  refine ⟨?_, ?_, ?_, ?_, ?_, fun hne => ⟨(hdend hne).1, (hdend hne).2,
    (hdrend hne).1, (hdrend hne).2⟩, ?_, ?_, ?_, hsend⟩
  · constructor
    · intro h
      by_contra hne
      rw [(hdend hne).1] at h
      exact Option.noConfusion h
    · intro hnil
      unfold DLL.end_
      rw [(hdheads hnil).2]
  · constructor
    · intro h
      by_contra hne
      rw [(hdend hne).2] at h
      exact Option.noConfusion h
    · intro hnil
      unfold DLL.cend_
      rw [(hdheads hnil).2]
  · constructor
    · intro h
      by_contra hne
      rw [(hdrend hne).1] at h
      exact Option.noConfusion h
    · intro hnil
      unfold DLL.rend_
      rw [(hdheads hnil).1]
  · constructor
    · intro h
      by_contra hne
      rw [(hdrend hne).2] at h
      exact Option.noConfusion h
    · intro hnil
      unfold DLL.crend_
      rw [(hdheads hnil).1]
  · intro hnil
    refine ⟨(hdheads hnil).1, (hdheads hnil).1, (hdheads hnil).2, (hdheads hnil).2⟩
  · constructor
    · intro h
      by_contra hne
      rw [(hsend hne).1] at h
      exact Option.noConfusion h
    · intro hnil
      unfold SLL.end_
      rw [(hsheads hnil).2]
  · constructor
    · intro h
      by_contra hne
      rw [(hsend hne).2] at h
      exact Option.noConfusion h
    · intro hnil
      unfold SLL.cend_
      rw [(hsheads hnil).2]
  · intro hnil
    exact ⟨(hsheads hnil).1, (hsheads hnil).1⟩


/-- C5 (counterexample to the claim as stated): the claim asserts that every
public mutating operation preserves, among the container invariants,
`size == 1 ⇔ head == tail`. Starting from the valid one-element list built
by `push_back(1)`, the mutating operation `pop_back()` yields a state with
`head_ == tail_` (both null) yet `size == 0 ≠ 1`: the stated biconditional
fails on the empty container that every emptying mutator produces. -/
theorem claim_C5_counterexample :
    (DLL.empty.push_back (1 : Nat)).pop_back.head_ =
      (DLL.empty.push_back (1 : Nat)).pop_back.tail_ ∧
    (DLL.empty.push_back (1 : Nat)).pop_back.size_ ≠ 1 := by
  constructor
  · rfl
  · decide

/-- C5 (amended): every public mutating operation — `push_back`,
`push_front`, `pop_back`, `pop_front`, `insert`, `remove`, `clear`, and
copy/move construction and assignment — carries a well-formed container to a
state satisfying the container invariants, where the size-one clause is
amended to `size == 1 ⇔ (head == tail and head is present)` (on the empty
container `head == tail` holds with both null while `size == 0`, so the
original biconditional is false); the invariants comprise
`size == 0 ⇔ head absent ⇔ tail absent`, the amended size-one clause, and —
for the doubly-linked list — that consecutive chain nodes are linked both
ways with `head_->previous` and `tail_->next` absent. -/
theorem claim_C5_amended {T : Type} (s : DLL T) (l : List (Nat × T)) (hw : s.Wf l)
    (s2 : DLL T) (l2 : List (Nat × T)) (hw2 : s2.Wf l2)
    (t : SLL T) (m : List (Nat × T)) (hw' : t.Wf m)
    (t2 : SLL T) (m2 : List (Nat × T)) (hw2' : t2.Wf m2)
    (v : T) (i : Nat) (w : T) (j : Nat) :
    DLL.GoodState (s.push_back v) ∧ DLL.GoodState (s.push_front v) ∧
    DLL.GoodState s.pop_back ∧ DLL.GoodState s.pop_front ∧
    DLL.GoodState (s.insert i v) ∧ DLL.GoodState (s.remove i) ∧
    DLL.GoodState s.clear ∧
    DLL.GoodState (DLL.copyCtor s) ∧ DLL.GoodState (DLL.copyAssign s s2) ∧
    DLL.GoodState (DLL.moveCtor s).1 ∧ DLL.GoodState (DLL.moveCtor s).2 ∧
    DLL.GoodState (DLL.moveAssign s s2).1 ∧ DLL.GoodState (DLL.moveAssign s s2).2 ∧
    SLL.GoodState (t.push_back w) ∧ SLL.GoodState (t.push_front w) ∧
    SLL.GoodState t.pop_back ∧ SLL.GoodState t.pop_front ∧
    SLL.GoodState (t.insert j w) ∧ SLL.GoodState (t.remove j) ∧
    SLL.GoodState t.clear ∧
    SLL.GoodState (SLL.copyCtor t) ∧ SLL.GoodState (SLL.copyAssign t t2) ∧
    SLL.GoodState (SLL.moveCtor t).1 ∧ SLL.GoodState (SLL.moveCtor t).2 ∧
    SLL.GoodState (SLL.moveAssign t t2).1 ∧ SLL.GoodState (SLL.moveAssign t t2).2 := by
  have hdins : DLL.GoodState (s.insert i v) := by
    by_cases h : i ≤ s.size_
    · exact (DLL.wf_insert i v hw h).goodState
    · have heq : s.insert i v = s := by
        unfold DLL.insert
        rw [if_neg h]
      rw [heq]
      exact hw.goodState
  have hdrem : DLL.GoodState (s.remove i) := by
    by_cases h : i < s.size_
    · exact (DLL.wf_remove i hw h).goodState
    · have heq : s.remove i = s := by
        unfold DLL.remove
        rw [if_neg h]
      rw [heq]
      exact hw.goodState
  have hsins : SLL.GoodState (t.insert j w) := by
    by_cases h : j ≤ t.size_
    · exact (SLL.wf_insert_s j w hw' h).goodState_s
    · have heq : t.insert j w = t := by
        unfold SLL.insert
        rw [if_neg h]
      rw [heq]
      exact hw'.goodState_s
  have hsrem : SLL.GoodState (t.remove j) := by
    by_cases h : j < t.size_
    · exact (SLL.wf_remove_s j hw' h).goodState_s
    · have heq : t.remove j = t := by
        unfold SLL.remove
        rw [if_neg h]
      rw [heq]
      exact hw'.goodState_s
  obtain ⟨lc, hlc, -⟩ := DLL.wf_copyCtor hw
  obtain ⟨la, hla, -⟩ := DLL.wf_copyAssign hw hw2
  obtain ⟨mc, hmc, -⟩ := SLL.wf_copyCtor_s hw'
  obtain ⟨ma, hma, -⟩ := SLL.wf_copyAssign_s hw' hw2'
  exact ⟨(DLL.wf_push_back v hw).goodState, (DLL.wf_push_front v hw).goodState,
    (DLL.wf_pop_back hw).goodState, (DLL.wf_pop_front hw).goodState,
    hdins, hdrem, (DLL.wf_clear hw).goodState,
    hlc.goodState, hla.goodState,
    (DLL.wf_moveCtor hw).1.goodState, (DLL.wf_moveCtor hw).2.goodState,
    (@DLL.wf_moveAssign T s s2 l2 hw2).1.goodState,
    (@DLL.wf_moveAssign T s s2 l2 hw2).2.goodState,
    (SLL.wf_push_back_s w hw').goodState_s, (SLL.wf_push_front_s w hw').goodState_s,
    (SLL.wf_pop_back_s hw').goodState_s, (SLL.wf_pop_front_s hw').goodState_s,
    hsins, hsrem, (SLL.wf_clear_s hw').goodState_s,
    hmc.goodState_s, hma.goodState_s,
    (SLL.wf_moveCtor_s hw').1.goodState_s, (SLL.wf_moveCtor_s hw').2.goodState_s,
    (@SLL.wf_moveAssign_s T t t2 m2 hw2').1.goodState_s,
    (@SLL.wf_moveAssign_s T t t2 m2 hw2').2.goodState_s⟩

/-- C7: iterating from `begin()` until the sentinel that `end()` denotes
visits exactly `size()` elements in sequence order, for both lists; for the
doubly-linked list iterating from `rbegin()` to the `rend()` sentinel visits
exactly `size()` elements, and the two visit orders are mutually reverse.
(The traversals are fuel-bounded; any fuel `≥ size` gives the same result,
showing the walk terminates after exactly `size` elements.) -/
theorem claim_C7 {T : Type} (s : DLL T) (l : List (Nat × T)) (hw : s.Wf l)
    (fuel : Nat) (hf : l.length ≤ fuel)
    (t : SLL T) (m : List (Nat × T)) (hw' : t.Wf m)
    (fuel' : Nat) (hf' : m.length ≤ fuel') :
    collectNext s.mem fuel s.begin_ = vals l ∧
    (vals l).length = s.size_ ∧
    collectPrev s.mem fuel s.rbegin_ = (vals l).reverse ∧
    scollectNext t.mem fuel' t.begin_ = vals m ∧
    (vals m).length = t.size_ := by
  refine ⟨?_, ?_, ?_, ?_, ?_⟩
  · exact collectNext_eq hw.chain fuel hf
  · rw [vals_length, hw.size_eq]
  · exact collectPrev_eq hw.chain fuel hf
  · exact scollectNext_eq hw'.chain fuel' hf'
  · rw [vals_length, hw'.size_eq]

/-- C8: for every cursor of either container: advancing past the last
element (and, for reverse cursors, past the first element) yields the null
sentinel; a single increment or decrement of the sentinel is a no-op (the
`if(node)` guard), not an error; and `operator+=`/`operator-=` by `n` equal
`n` repeated single steps. The singly-linked cursors provide only the
forward operations. -/
theorem claim_C8 {T : Type} (s : DLL T) (l : List (Nat × T)) (hw : s.Wf l)
    (hne : l ≠ []) (it : Ptr) (n : Nat)
    (t : SLL T) (m : List (Nat × T)) (hw' : t.Wf m) (hne' : m ≠ []) :
    DIter.inc s.mem s.tail_ = none ∧
    DRevIter.inc s.mem s.head_ = none ∧
    DIter.inc s.mem none = none ∧ DIter.dec s.mem none = none ∧
    DRevIter.inc s.mem none = none ∧ DRevIter.dec s.mem none = none ∧
    DIter.addAssign s.mem n it = (DIter.inc s.mem)^[n] it ∧
    DIter.subAssign s.mem n it = (DIter.dec s.mem)^[n] it ∧
    DRevIter.addAssign s.mem n it = (DRevIter.inc s.mem)^[n] it ∧
    DRevIter.subAssign s.mem n it = (DRevIter.dec s.mem)^[n] it ∧
    SIter.inc t.mem t.tail_ = none ∧ SIter.inc t.mem none = none ∧
    SIter.addAssign t.mem n it = (SIter.inc t.mem)^[n] it := by
  refine ⟨?_, ?_, rfl, rfl, rfl, rfl, DIter.addAssign_iterate s.mem n it,
    DIter.subAssign_iterate s.mem n it, DRevIter.addAssign_iterate_rev s.mem n it,
    DRevIter.subAssign_iterate_rev s.mem n it, ?_, rfl, SIter.addAssign_iterate_s t.mem n it⟩
  · obtain ⟨a, nd, ht, hn, hnext⟩ := hw.tail_node hne
    rw [ht]
    simp [DIter.inc, hn, hnext]
  · obtain ⟨a, nd, hh, hn, hprev⟩ := hw.head_node hne
    rw [hh]
    simp [DRevIter.inc, hn, hprev]
  · obtain ⟨a, nd, ht, hn, hnext⟩ := hw'.tail_node_s hne'
    rw [ht]
    simp [SIter.inc, hn, hnext]


/-- Witness for C1 on a concrete three-element list. -/
theorem claim_C1_witness :
    dex3.at_ 5 = Except.error (DLL.oorMsg 5 3) ∧
    dex3.at_ 1 = Except.ok (dex3.getConst 1) ∧
    dex3.getConst 1 = some 2 ∧
    sex3.at_ 5 = Except.error (SLL.oorMsg 5 3) := by
  have h5 := claim_C1 dex3 dex3L 5 dex3_wf sex3 sex3L 5 sex3_wf
  have h1 := claim_C1 dex3 dex3L 1 dex3_wf sex3 sex3L 1 sex3_wf
  refine ⟨h5.1.mpr (by decide), (h1.2.1 (by decide)).1, ?_, h5.2.2.1.mpr (by decide)⟩
  exact ((h1.2.1 (by decide)).2).trans (by decide)

/-- Witness for C2 on a concrete three-element list (index 1 is the exact
midpoint). -/
theorem claim_C2_witness :
    dex3.getConst 1 = dex3.getForwardOnly 1 ∧ dex3.getConst 1 = some 2 := by
  have h := claim_C2 dex3 dex3L 1 dex3_wf (by decide)
  exact ⟨h.1, h.2.1.trans (by decide)⟩

/-- Witness for C3 on concrete lists. -/
theorem claim_C3_witness :
    (dex3.insert 1 9).size_ = 4 ∧ dex3.insert 0 9 = dex3.push_front 9 ∧
    (sex3.insert 3 9).size_ = 4 := by
  have h := claim_C3 dex3 dex3L 1 9 dex3_wf (by decide) sex3 sex3L 3 9 sex3_wf (by decide)
  obtain ⟨⟨l', -, -, hsz⟩, hpf, -, ⟨m', -, -, hsz'⟩, -, -⟩ := h
  exact ⟨hsz, hpf, hsz'⟩

/-- Witness for C4 on concrete lists and the empty containers. -/
theorem claim_C4_witness :
    dex3.insert 5 9 = dex3 ∧ dex3.remove 3 = dex3 ∧
    (DLL.empty : DLL Nat).pop_back = DLL.empty ∧
    sex3.insert 5 9 = sex3 ∧ sex3.remove 3 = sex3 ∧
    (SLL.empty : SLL Nat).pop_front = SLL.empty := by
  have h := claim_C4 dex3 sex3
  have he := claim_C4 (DLL.empty : DLL Nat) (SLL.empty : SLL Nat)
  exact ⟨h.1 5 9 (by decide), h.2.1 3 (by decide), (he.2.2.1 (by decide)).1,
    h.2.2.2.1 5 9 (by decide), h.2.2.2.2.1 3 (by decide), (he.2.2.2.2.2 (by decide)).2⟩

/-- Witness for the amended C5 on concrete lists. -/
theorem claim_C5_witness :
    DLL.GoodState (dex3.push_back 9) ∧ SLL.GoodState sex3.pop_back := by
  have h := claim_C5_amended dex3 dex3L dex3_wf dex3 dex3L dex3_wf sex3 sex3L sex3_wf
    sex3 sex3L sex3_wf 9 1 9 1
  obtain ⟨h1, -, -, -, -, -, -, -, -, -, -, -, -, -, -, h16, -⟩ := h
  exact ⟨h1, h16⟩

/-- Witness for C6 on concrete lists. -/
theorem claim_C6_witness :
    ((dex3.insert 1 9).remove 1).size_ = 3 ∧
    ((sex3.insert 1 9).remove 1).size_ = 3 := by
  have h := claim_C6 dex3 dex3L 1 9 dex3_wf (by decide) sex3 sex3L 1 9 sex3_wf (by decide)
  obtain ⟨⟨l', -, -, hsz⟩, ⟨m', -, -, hsz'⟩⟩ := h
  exact ⟨hsz, hsz'⟩

/-- Witness for C7 on concrete lists. -/
theorem claim_C7_witness :
    collectNext dex3.mem 3 dex3.begin_ = [1, 2, 3] ∧
    collectPrev dex3.mem 3 dex3.rbegin_ = [3, 2, 1] ∧
    scollectNext sex3.mem 3 sex3.begin_ = [1, 2, 3] := by
  have h := claim_C7 dex3 dex3L dex3_wf 3 (by decide) sex3 sex3L sex3_wf 3 (by decide)
  exact ⟨h.1, h.2.2.1, h.2.2.2.1⟩

/-- Witness for C8 on concrete lists. -/
theorem claim_C8_witness :
    DIter.inc dex3.mem dex3.tail_ = none ∧
    DIter.addAssign dex3.mem 2 (some 0) = (DIter.inc dex3.mem)^[2] (some 0) ∧
    SIter.inc sex3.mem sex3.tail_ = none := by
  have h := claim_C8 dex3 dex3L dex3_wf (by decide) (some 0) 2 sex3 sex3L sex3_wf
    (by decide)
  obtain ⟨h1, -, -, -, -, -, h7, -, -, -, h11, -, -⟩ := h
  exact ⟨h1, h7, h11⟩

/-- Witness for C9 on a concrete list: index 2 of a size-3 list is reached
backward in one visit. -/
theorem claim_C9_witness : dex3.getVisits 2 = 1 := by
  have h := claim_C9 dex3 2 (by decide)
  exact h.trans (by decide)

/-- Witness for C10 on a concrete list and the empty containers. -/
theorem claim_C10_witness :
    dex3.end_ = some none ∧ dex3.rend_ = some none ∧
    (DLL.empty : DLL Nat).end_ = none ∧ (DLL.empty : DLL Nat).begin_ = none ∧
    sex3.end_ = some none ∧ (SLL.empty : SLL Nat).end_ = none := by
  have h := claim_C10 dex3 dex3L dex3_wf sex3 sex3L sex3_wf
  have he := claim_C10 (DLL.empty : DLL Nat) [] DLL.wf_empty
    (SLL.empty : SLL Nat) [] SLL.wf_empty_s
  obtain ⟨-, -, -, -, -, hne, -, -, -, hse⟩ := h
  obtain ⟨hee, -, -, -, hbe, -, hsee, -, -, -⟩ := he
  exact ⟨(hne (by decide)).1, (hne (by decide)).2.2.1, hee.mpr rfl, (hbe rfl).1,
    (hse (by decide)).1, hsee.mpr rfl⟩

end ManualLists
